import Mathlib

/-!
Shallow embedding of the NexusForge backend (`main.py`): the response
extractor `extract_json_from_text`, the agent execution protocol
`Agent.execute`, and the orchestrator workflow `execute_workflow`,
together with theorems settling a list of claims about them.

Modelling conventions:
* Python machine state (the SQLite tables `projects`, `project_files`,
  `agent_logs`, `shared_memory`) is a `Store` record of lists, threaded
  explicitly; SQLAlchemy upserts become first-match in-place updates with
  append on miss, exactly as `filter_by(...).first()` behaves on these
  tables.
* The external Gemini call is an oracle `Except String String`: either
  the reply text or a raised error's description.  Prompt construction is
  not modelled (no claim concerns it; the oracle absorbs the prompt).
* `json.loads` is embedded as a recursive-descent parser `jsonParseL`
  over `List Char` producing `JVal`; numbers are kept as source literals,
  strings decode the JSON escapes (`\uXXXX` through `Char.ofNat`), and
  objects are key-deduplicated in first-occurrence order with the last
  value winning, as `dict` construction does.
* Timestamps, `log_metadata`, and row ids are not modelled; no claim
  mentions them.
-/

/-- JSON whitespace characters accepted between tokens by the `json`
module scanner. -/
def isJsonWs (c : Char) : Bool :=
  c = ' ' || c = '\t' || c = '\n' || c = '\r'

/-- The ASCII whitespace class of the regex escape used by `re.sub` in
the fence-stripping step. -/
def isPyWs (c : Char) : Bool :=
  isJsonWs c || c = '\x0b' || c = '\x0c'

def isDigit (c : Char) : Bool := '0' ≤ c && c ≤ '9'

def skipJsonWs (cs : List Char) : List Char := cs.dropWhile isJsonWs

def dropPyWs (cs : List Char) : List Char := cs.dropWhile isPyWs

/-- JSON values as produced by `json.loads`.  A number carries its
source literal (no claim depends on numeric value, only on shape and
truthiness); an object carries its fields deduplicated the way `dict`
construction deduplicates them. -/
inductive JVal where
  | jnull : JVal
  | jbool : Bool → JVal
  | jnum : String → JVal
  | jstr : String → JVal
  | jarr : List JVal → JVal
  | jobj : List (String × JVal) → JVal

/-- First-match association lookup (keys of parsed objects are unique,
see `dictOf`). -/
def assocLookup : List (String × JVal) → String → Option JVal
  | [], _ => none
  | (k', v) :: rest, k => if k' = k then some v else assocLookup rest k

/-- In-place value replacement on the first matching key, append on
miss: the effect of `d[k] = v` on a Python dict viewed as an ordered
association list. -/
def upsertAssoc (l : List (String × JVal)) (k : String) (v : JVal) :
    List (String × JVal) :=
  match l with
  | [] => [(k, v)]
  | (k', v') :: rest =>
    if k' = k then (k', v) :: rest else (k', v') :: upsertAssoc rest k v

/-- Build the field list of a parsed object the way `dict` construction
does: first-occurrence key order, last value wins. -/
def dictOf (fs : List (String × JVal)) : List (String × JVal) :=
  fs.foldl (fun acc kv => upsertAssoc acc kv.1 kv.2) []

def escChar (c : Char) : Option Char :=
  if c = '"' then some '"'
  else if c = '\\' then some '\\'
  else if c = '/' then some '/'
  else if c = 'b' then some '\x08'
  else if c = 'f' then some '\x0c'
  else if c = 'n' then some '\n'
  else if c = 'r' then some '\r'
  else if c = 't' then some '\t'
  else none

def hexVal (c : Char) : Option Nat :=
  if isDigit c then some (c.toNat - 48)
  else if 'a' ≤ c && c ≤ 'f' then some (c.toNat - 87)
  else if 'A' ≤ c && c ≤ 'F' then some (c.toNat - 55)
  else none

/-- Body of a JSON string, entered just after the opening quote; returns
the decoded content and the input remaining after the closing quote.
Raw control characters are rejected as in the strict default mode. -/
def parseStrBody : List Char → Option (List Char × List Char)
  | [] => none
  | c :: rest =>
    if c = '"' then some ([], rest)
    else if c = '\\' then
      match rest with
      | [] => none
      | e :: rest2 =>
        if e = 'u' then
          match rest2 with
          | h1 :: h2 :: h3 :: h4 :: rest3 =>
            match hexVal h1, hexVal h2, hexVal h3, hexVal h4 with
            | some a, some b, some c', some d =>
              match parseStrBody rest3 with
              | some (s, r) =>
                some (Char.ofNat (((a * 16 + b) * 16 + c') * 16 + d) :: s, r)
              | none => none
            | _, _, _, _ => none
          | _ => none
        else
          match escChar e with
          | some ec =>
            match parseStrBody rest2 with
            | some (s, r) => some (ec :: s, r)
            | none => none
          | none => none
    else if c.toNat < 32 then none
    else
      match parseStrBody rest with
      | some (s, r) => some (c :: s, r)
      | none => none


/-- Escape handling of the string-body scanner, split out so that the
scanner has a clean one-step unfolding equation. -/
def parseEscSpec : List Char → Option (List Char × List Char)
  | [] => none
  | e :: rest2 =>
    if e = 'u' then
      match rest2 with
      | h1 :: h2 :: h3 :: h4 :: rest3 =>
        match hexVal h1, hexVal h2, hexVal h3, hexVal h4 with
        | some a, some b, some c', some d =>
          match parseStrBody rest3 with
          | some (s, r) =>
            some (Char.ofNat (((a * 16 + b) * 16 + c') * 16 + d) :: s, r)
          | none => none
        | _, _, _, _ => none
      | _ => none
    else
      match escChar e with
      | some ec =>
        match parseStrBody rest2 with
        | some (s, r) => some (ec :: s, r)
        | none => none
      | none => none

/-- Optional leading minus sign of a number literal. -/
def scanSign (cs : List Char) : List Char × List Char :=
  match cs with
  | [] => ([], [])
  | c :: t => if c = '-' then (['-'], t) else ([], c :: t)

/-- Integer part: `0` or a nonzero digit followed by digits, as the
number grammar of the `json` module demands. -/
def scanInt (cs : List Char) : Option (List Char × List Char) :=
  match cs with
  | [] => none
  | c :: t =>
    if c = '0' then some (['0'], t)
    else if isDigit c then some (c :: t.takeWhile isDigit, t.dropWhile isDigit)
    else none

/-- Optional fraction part; a dot not followed by a digit is left
unconsumed, as the scanner's regex leaves it. -/
def scanFrac (cs : List Char) : List Char × List Char :=
  match cs with
  | [] => ([], [])
  | c :: t =>
    if c = '.' then
      if t.takeWhile isDigit = [] then ([], c :: t)
      else ('.' :: t.takeWhile isDigit, t.dropWhile isDigit)
    else ([], c :: t)

/-- Optional exponent part; an `e` not followed by (signed) digits is
left unconsumed. -/
def scanExp (cs : List Char) : List Char × List Char :=
  match cs with
  | e :: t =>
    if e = 'e' || e = 'E' then
      match t with
      | c :: t' =>
        if c = '+' || c = '-' then
          let ds := t'.takeWhile isDigit
          if ds = [] then ([], cs) else (e :: c :: ds, t'.dropWhile isDigit)
        else
          let ds := t.takeWhile isDigit
          if ds = [] then ([], cs) else (e :: ds, t.dropWhile isDigit)
      | [] => ([], cs)
    else ([], cs)
  | [] => ([], [])

/-- A number literal, matching the scanner's regex
`-?(0|[1-9][0-9]*)(.[0-9]+)?([eE][-+]?[0-9]+)?`; returns the literal
and the rest. -/
def scanNumber (cs : List Char) : Option (List Char × List Char) :=
  let sg := scanSign cs
  match scanInt sg.2 with
  | none => none
  | some (ip, cs2) =>
    let fp := scanFrac cs2
    let ep := scanExp fp.2
    some (sg.1 ++ ip ++ fp.1 ++ ep.1, ep.2)

def afterKw (kw : List Char) (cs : List Char) : Option (List Char) :=
  if kw.isPrefixOf cs then some (cs.drop kw.length) else none

mutual

/-- One JSON value starting at the head of the input (no leading
whitespace); returns the value and the unconsumed rest.  Fuel bounds the
nesting; `jsonParseL` supplies enough. -/
def parseVal : Nat → List Char → Option (JVal × List Char)
  | 0, _ => none
  | f + 1, cs =>
    match cs with
    | [] => none
    | c :: rest =>
      if c = '\x7b' then
        match skipJsonWs rest with
        | c2 :: r2 =>
          if c2 = '\x7d' then some (.jobj [], r2)
          else
            match parseMembers f (c2 :: r2) with
            | some (fs, r3) => some (.jobj (dictOf fs), r3)
            | none => none
        | [] => none
      else if c = '[' then
        match skipJsonWs rest with
        | c2 :: r2 =>
          if c2 = ']' then some (.jarr [], r2)
          else
            match parseItems f (c2 :: r2) with
            | some (xs, r3) => some (.jarr xs, r3)
            | none => none
        | [] => none
      else if c = '"' then
        match parseStrBody rest with
        | some (s, r) => some (.jstr (String.mk s), r)
        | none => none
      else if c = 't' then
        match afterKw "rue".data rest with
        | some r => some (.jbool true, r)
        | none => none
      else if c = 'f' then
        match afterKw "alse".data rest with
        | some r => some (.jbool false, r)
        | none => none
      else if c = 'n' then
        match afterKw "ull".data rest with
        | some r => some (.jnull, r)
        | none => none
      else if c = 'N' then
        match afterKw "aN".data rest with
        | some r => some (.jnum "NaN", r)
        | none => none
      else if c = 'I' then
        match afterKw "nfinity".data rest with
        | some r => some (.jnum "Infinity", r)
        | none => none
      else if c = '-' && "Infinity".data.isPrefixOf rest then
        some (.jnum "-Infinity", rest.drop 8)
      else
        match scanNumber (c :: rest) with
        | some (lit, r) => some (.jnum (String.mk lit), r)
        | none => none

/-- Object members, entered at a key's opening quote; consumes through
the closing brace. -/
def parseMembers : Nat → List Char → Option (List (String × JVal) × List Char)
  | 0, _ => none
  | f + 1, cs =>
    match cs with
    | [] => none
    | c :: rest =>
      if c = '"' then
        match parseStrBody rest with
        | some (key, r1) =>
          match skipJsonWs r1 with
          | c2 :: r2 =>
            if c2 = ':' then
              match parseVal f (skipJsonWs r2) with
              | some (v, r3) =>
                match skipJsonWs r3 with
                | c3 :: r4 =>
                  if c3 = ',' then
                    match parseMembers f (skipJsonWs r4) with
                    | some (fs, r5) => some ((String.mk key, v) :: fs, r5)
                    | none => none
                  else if c3 = '\x7d' then some ([(String.mk key, v)], r4)
                  else none
                | [] => none
              | none => none
            else none
          | [] => none
        | none => none
      else none

/-- Array items, entered at the first item's first character; consumes
through the closing bracket. -/
def parseItems : Nat → List Char → Option (List JVal × List Char)
  | 0, _ => none
  | f + 1, cs =>
    match parseVal f cs with
    | some (v, r1) =>
      match skipJsonWs r1 with
      | c2 :: r2 =>
        if c2 = ',' then
          match parseItems f (skipJsonWs r2) with
          | some (xs, r3) => some (v :: xs, r3)
          | none => none
        else if c2 = ']' then some ([v], r2)
        else none
      | [] => none
    | none => none

end

/-- Tail of a member after its value: separator dispatch and recursion. -/
def membersTail (f : Nat) (key : List Char) (v : JVal) (r3 : List Char) :
    Option (List (String × JVal) × List Char) :=
  match skipJsonWs r3 with
  | c3 :: r4 =>
    if c3 = ',' then
      match parseMembers f (skipJsonWs r4) with
      | some (fs, r5) => some ((String.mk key, v) :: fs, r5)
      | none => none
    else if c3 = '\x7d' then some ([(String.mk key, v)], r4)
    else none
  | [] => none

/-- Remainder of a member after its key string was scanned. -/
def membersAfterKey (f : Nat) (key r1 : List Char) :
    Option (List (String × JVal) × List Char) :=
  match skipJsonWs r1 with
  | c2 :: r2 =>
    if c2 = ':' then
      match parseVal f (skipJsonWs r2) with
      | some (v, r3) => membersTail f key v r3
      | none => none
    else none
  | [] => none

/-- Tail of an array item after its value: separator dispatch and
recursion. -/
def itemsTail (f : Nat) (v : JVal) (r1 : List Char) :
    Option (List JVal × List Char) :=
  match skipJsonWs r1 with
  | c2 :: r2 =>
    if c2 = ',' then
      match parseItems f (skipJsonWs r2) with
      | some (xs, r3) => some (v :: xs, r3)
      | none => none
    else if c2 = ']' then some ([v], r2)
    else none
  | [] => none

/-- `json.loads` on a character list: skip surrounding whitespace, parse
one value, demand nothing but whitespace after it. -/
def jsonParseL (cs : List Char) : Option JVal :=
  let cs1 := skipJsonWs cs
  match parseVal (cs1.length + 1) cs1 with
  | some (v, rest) => if skipJsonWs rest = [] then some v else none
  | none => none

/-- `json.loads` on a string. -/
def jsonParse (s : String) : Option JVal := jsonParseL s.data

def fence3 : List Char := "```".data

def fenceJson : List Char := "```json".data

/-- Fuelled worker for `stripScan`; the fuel only needs to cover the
input length, each step consumes at least one character. -/
def stripScanAux (pat : List Char) : Nat → List Char → List Char
  | 0, cs => cs
  | _ + 1, [] => []
  | f + 1, sc :: srest =>
    if pat ≠ [] ∧ pat.isPrefixOf (sc :: srest) then
      stripScanAux pat f (dropPyWs (srest.drop (pat.length - 1)))
    else sc :: stripScanAux pat f srest

/-- Left-to-right scan removing each non-overlapping occurrence of `pat`
together with the maximal whitespace run after it: the effect of
`re.sub(pat + whitespace-star, empty, text)`. -/
def stripScan (pat : List Char) (cs : List Char) : List Char :=
  stripScanAux pat cs.length cs

/-- The two fence-stripping substitutions of `extract_json_from_text`,
in source order: first the language-tagged fence, then the bare fence. -/
def stripFences (cs : List Char) : List Char :=
  stripScan fence3 (stripScan fenceJson cs)

def findIdxFrom : List Char → Char → Option Nat
  | [], _ => none
  | c :: rest, t => if c = t then some 0 else (findIdxFrom rest t).map (· + 1)

/-- Python `text.find(ch)`: first index or `-1`. -/
def pyFind (cs : List Char) (t : Char) : Int :=
  match findIdxFrom cs t with
  | some i => (i : Int)
  | none => -1

/-- Python `text.rfind(ch)`: last index or `-1`. -/
def pyRfind (cs : List Char) (t : Char) : Int :=
  match findIdxFrom cs.reverse t with
  | some i => (cs.length : Int) - 1 - (i : Int)
  | none => -1

/-- The first-brace-to-last-brace slice attempted by
`extract_json_from_text`, or `none` when the guard
`json_start >= 0 and json_end > json_start` fails. -/
def braceSlice (t : List Char) : Option (List Char) :=
  let js := pyFind t '\x7b'
  let je := pyRfind t '\x7d' + 1
  if 0 ≤ js ∧ js < je then some ((t.drop js.toNat).take (je - js).toNat)
  else none

/-- The minimal structure returned when parsing fails; its `output` is
the variable `text` as it stands at that point, i.e. the fence-stripped
input. -/
def fallbackObj (t : List Char) : JVal :=
  .jobj [("output", .jstr (String.mk t)),
         ("reasoning", .jstr "Failed to parse structured response"),
         ("files", .jobj []),
         ("next_steps", .jarr [])]

/-- `extract_json_from_text` of `main.py`: direct parse, else strip the
code fences, slice from the first opening to the last closing brace and
parse that, else return the fallback structure. -/
def extract_json_from_text (text : String) : JVal :=
  match jsonParse text with
  | some v => v
  | none =>
    let t1 := stripFences text.data
    match braceSlice t1 with
    | some seg =>
      match jsonParseL seg with
      | some v => v
      | none => fallbackObj t1
    | none => fallbackObj t1

/-! ## Field access and Python operations on extraction results -/

/-- Substring containment, the semantics of Python `needle in haystack`
for strings. -/
def hasSub : List Char → List Char → Bool
  | [], pat => pat.isEmpty
  | h :: t, pat => pat.isPrefixOf (h :: t) || hasSub t pat

def getField (v : JVal) (k : String) : Option JVal :=
  match v with
  | .jobj fs => assocLookup fs k
  | _ => none

/-- Python truthiness of a parsed JSON value.  A number literal is falsy
exactly when its mantissa has no nonzero digit (`0`, `-0.0`, `0e9`, ...);
the non-finite literals are truthy. -/
def truthy : JVal → Bool
  | .jnull => false
  | .jbool b => b
  | .jnum lit =>
    lit = "NaN" || lit = "Infinity" || lit = "-Infinity" ||
      (lit.data.takeWhile (fun c => c ≠ 'e' && c ≠ 'E')).any
        (fun c => '1' ≤ c && c ≤ '9')
  | .jstr s => !(s = "")
  | .jarr xs => !xs.isEmpty
  | .jobj fs => !fs.isEmpty

/-- Python `key in value`: key membership for a dict, element membership
for a list, substring test for a string, a `TypeError` otherwise. -/
def jHasKey : JVal → String → Except String Bool
  | .jobj fs, k => .ok (fs.any (fun p => p.1 = k))
  | .jarr xs, k =>
    .ok (xs.any (fun v => match v with | .jstr s => s = k | _ => false))
  | .jstr s, k => .ok (hasSub s.data k.data)
  | _, _ => .error "TypeError: argument of non-container type is not iterable"

/-- Python `value[key]` with a string key; raises unless `value` is a
dict. -/
def jGetItem : JVal → String → Except String JVal
  | .jobj fs, k =>
    match assocLookup fs k with
    | some v => .ok v
    | none => .error "KeyError"
  | _, _ => .error "TypeError: value is not subscriptable by a string"

/-- Python `value.items()`; raises unless `value` is a dict. -/
def jObjPairs : JVal → Except String (List (String × JVal))
  | .jobj fs => .ok fs
  | _ => .error "AttributeError: object has no attribute items"

/-- Python `value.get(key)`; raises unless `value` is a dict. -/
def jGetAttr (result : JVal) (k : String) : Except String (Option JVal) :=
  match result with
  | .jobj fs => .ok (assocLookup fs k)
  | _ => .error "AttributeError: object has no attribute get"

/-! ## The store: the four project-scoped tables -/

structure SMEntry where
  projectId : String
  key : String
  value : JVal

structure FileEntry where
  projectId : String
  path : String
  content : String
  size : Nat
deriving DecidableEq

structure LogEntry where
  projectId : String
  agentName : String
  level : String
  message : String
deriving DecidableEq

structure ProjectRec where
  id : String
  name : String
  description : String
  status : String
deriving DecidableEq

structure Store where
  projects : List ProjectRec
  sharedMemory : List SMEntry
  files : List FileEntry
  logs : List LogEntry

def emptyStore : Store := ⟨[], [], [], []⟩

def addLog (st : Store) (pid agent level msg : String) : Store :=
  { st with logs := st.logs ++ [⟨pid, agent, level, msg⟩] }

/-- Upsert of one shared-memory row: overwrite the first row matching
`(project_id, key)` in place, append a new row when none matches —
`filter_by(...).first()` followed by update-or-add. -/
def upsertSM (pid key : String) (v : JVal) : List SMEntry → List SMEntry
  | [] => [⟨pid, key, v⟩]
  | e :: rest =>
    if e.projectId = pid && e.key = key then ⟨e.projectId, e.key, v⟩ :: rest
    else e :: upsertSM pid key v rest

def applySM (pid : String) (ups : List (String × JVal)) (st : Store) : Store :=
  { st with
    sharedMemory := ups.foldl (fun m kv => upsertSM pid kv.1 kv.2 m) st.sharedMemory }

/-- Upsert of one file row keyed by `(project_id, file_path)`; size is
recomputed as the content length on every write. -/
def upsertFile (pid path content : String) : List FileEntry → List FileEntry
  | [] => [⟨pid, path, content, content.length⟩]
  | e :: rest =>
    if e.projectId = pid && e.path = path then
      ⟨e.projectId, e.path, content, content.length⟩ :: rest
    else e :: upsertFile pid path content rest

def applyFiles (pid : String) (fps : List (String × String)) (st : Store) : Store :=
  { st with
    files := fps.foldl (fun fl pc => upsertFile pid pc.1 pc.2 fl) st.files }

def setStatusList (pid v : String) : List ProjectRec → List ProjectRec
  | [] => []
  | p :: rest =>
    if p.id = pid then ⟨p.id, p.name, p.description, v⟩ :: rest
    else p :: setStatusList pid v rest

def setStatus (st : Store) (pid v : String) : Store :=
  { st with projects := setStatusList pid v st.projects }

def findProject (st : Store) (pid : String) : Option ProjectRec :=
  st.projects.find? (fun p => p.id = pid)

def statusOf (st : Store) (pid : String) : Option String :=
  (findProject st pid).map (fun p => p.status)

/-- `POST /api/projects`: insert a fresh project row in `initializing`
status. -/
def createProject (pid name desc : String) (st : Store) : Store :=
  { st with projects := st.projects ++ [⟨pid, name, desc, "initializing"⟩] }

/-! ## Agent.execute -/

structure TaskResult where
  success : Bool
  output : String
  files : List (String × String)
  next_steps : List String
deriving DecidableEq

/-- The `shared_memory_updates` pairs to apply, empty when the field is
absent or falsy; raises (as `.items()` does) when present, truthy and
not a dict. -/
def smUpdatesOf (result : JVal) : Except String (List (String × JVal)) := do
  let has ← jHasKey result "shared_memory_updates"
  if has then
    let v ← jGetItem result "shared_memory_updates"
    if truthy v then jObjPairs v else pure []
  else pure []

/-- Check every dict value is text; `len(content)` and the Text column
binding fail on non-string content. -/
def strPairs : List (String × JVal) → Except String (List (String × String))
  | [] => .ok []
  | (k, .jstr s) :: rest => (strPairs rest).map (fun l => (k, s) :: l)
  | (_, _) :: _ => .error "TypeError: file content is not text"

/-- Path normalization of `Agent.execute` step 5: ensure a leading
slash. -/
def normPath (p : String) : String :=
  match p.data with
  | '/' :: _ => p
  | _ => "/" ++ p

/-- The `(normalized path, content)` pairs to write, empty when `files`
is absent or falsy. -/
def filePairsOf (result : JVal) : Except String (List (String × String)) := do
  let has ← jHasKey result "files"
  if has then
    let v ← jGetItem result "files"
    if truthy v then
      let ps ← jObjPairs v
      let sps ← strPairs ps
      pure (sps.map (fun pc => (normPath pc.1, pc.2)))
    else pure []
  else pure []

/-- The success-log preview `result.get('output', 'Task completed')`
truncated to 200 characters; non-string sliceable values are
approximated as raising. -/
def previewOf (result : JVal) : Except String String := do
  let o ← jGetAttr result "output"
  match o with
  | none => pure "Task completed"
  | some (.jstr s) => pure (s.take 200)
  | some _ => .error "TypeError: output value is not sliceable text"

def strList : List JVal → Except String (List String)
  | [] => .ok []
  | .jstr s :: rest => (strList rest).map (fun l => s :: l)
  | _ :: _ => .error "ValidationError: next step is not text"

/-- Building the successful `TaskResult` pydantic model from the
extraction result; field defaults are empty string / empty containers,
ill-typed fields raise a validation error. -/
def mkTaskResult (result : JVal) : Except String TaskResult := do
  let o ← jGetAttr result "output"
  let out ← match o with
            | none => pure ""
            | some (.jstr s) => pure s
            | some _ => .error "ValidationError: output is not text"
  let fv ← jGetAttr result "files"
  let fls ← match fv with
            | none => pure []
            | some (.jobj fs) => strPairs fs
            | some _ => .error "ValidationError: files is not a mapping"
  let nv ← jGetAttr result "next_steps"
  let ns ← match nv with
           | none => pure []
           | some (.jarr xs) => strList xs
           | some _ => .error "ValidationError: next steps are not a list"
  pure ⟨true, out, fls, ns⟩

/-- The body of the `try` block of `Agent.execute`, steps 2–6: model
call, extraction, shared-memory commit, file commit, success-log commit,
`TaskResult` construction.  An error carries the store as of the last
commit that preceded it, exactly what the session has durably written
when the exception is raised. -/
def tryBody (role pid : String) (modelResult : Except String String) (st : Store) :
    Except (String × Store) (Store × TaskResult) :=
  match modelResult with
  | .error e => .error (e, st)
  | .ok text =>
    let result := extract_json_from_text text
    match smUpdatesOf result with
    | .error e => .error (e, st)
    | .ok ups =>
      let st1 := applySM pid ups st
      match filePairsOf result with
      | .error e => .error (e, st1)
      | .ok fps =>
        let st2 := applyFiles pid fps st1
        match previewOf result with
        | .error e => .error (e, st2)
        | .ok pv =>
          let st3 := addLog st2 pid role "success" ("✅ Completed: " ++ pv)
          match mkTaskResult result with
          | .error e => .error (e, st3)
          | .ok tr => .ok (st3, tr)

/-- `Agent.execute`: the guard returning early when no model is
configured, then the `try` body with its `except` handler.  The returned
triple is (store, agent status after the call, task result); `task` only
feeds the unmodelled log metadata. -/
def agentExecute (hasModel : Bool) (role status0 pid task : String)
    (modelResult : Except String String) (st : Store) :
    Store × String × TaskResult :=
  if hasModel = false then
    (st, status0, ⟨false, "Gemini API key not configured", [], []⟩)
  else
    match tryBody role pid modelResult st with
    | .ok (st', tr) => (st', "idle", tr)
    | .error (e, stE) =>
      (addLog stE pid role "error" ("❌ Error: " ++ e), "error",
       ⟨false, "Error: " ++ e, [], []⟩)

/-- Whether one agent execution succeeds; this depends only on the model
configuration and the reply, not on the store (proved below). -/
def replyOk (modelResult : Except String String) : Bool :=
  match modelResult with
  | .error _ => false
  | .ok text =>
    let result := extract_json_from_text text
    (smUpdatesOf result).isOk && (filePairsOf result).isOk &&
      (previewOf result).isOk && (mkTaskResult result).isOk

def agentSucceeds (hasModel : Bool) (modelResult : Except String String) : Bool :=
  hasModel && replyOk modelResult

/-! ## Orchestrator -/

/-- The fixed ordered phase list of `execute_workflow`:
(role, progress label, task text). -/
def phaseList (desc : String) : List (String × String × String) :=
  [("ProductManager", "📋 Analyzing requirements...",
    "Analyze this project and create detailed requirements:\n" ++ desc),
   ("UXDesigner", "🎨 Designing user experience...",
    "Design the user experience, user flows, and UI mockups based on requirements"),
   ("SystemArchitect", "🏗️ Designing system architecture...",
    "Design complete system architecture including tech stack, API design, and component structure"),
   ("DatabaseEngineer", "🗄️ Designing database schema...",
    "Design the database schema, relationships, indexes, and migrations"),
   ("BackendEngineer", "⚙️ Implementing backend...",
    "Implement the complete backend with APIs, business logic, authentication, and database integration"),
   ("FrontendEngineer", "💻 Building frontend...",
    "Implement the complete frontend with React components, state management, API integration, and routing"),
   ("SecurityEngineer", "🔒 Security review...",
    "Review code for security vulnerabilities and implement security best practices"),
   ("QAEngineer", "🧪 Writing tests...",
    "Create comprehensive test suites including unit, integration, and E2E tests"),
   ("DevOpsEngineer", "🚀 Setting up deployment...",
    "Create Docker configuration, CI/CD pipeline, and deployment documentation"),
   ("DocumentationSpecialist", "📚 Writing documentation...",
    "Create comprehensive documentation including README, API docs, and setup guides")]

/-- The ten phase progress labels, in canonical order. -/
def labelList : List String :=
  ["📋 Analyzing requirements...", "🎨 Designing user experience...",
   "🏗️ Designing system architecture...", "🗄️ Designing database schema...",
   "⚙️ Implementing backend...", "💻 Building frontend...",
   "🔒 Security review...", "🧪 Writing tests...",
   "🚀 Setting up deployment...", "📚 Writing documentation..."]

/-- The prefix of `execute_workflow` before the phase loop: mark the
project running and append the start log. -/
def wfStart (pid : String) (st : Store) : Store :=
  addLog (setStatus st pid "running") pid "Orchestrator" "info"
    "🚀 Starting autonomous development workflow"

/-- The phase loop: log the label, run the agent, continue on success,
report the failing role otherwise.  Returns (store, first failing role
if any, roles whose `execute` was invoked, in order). -/
def runPhases (hm : Bool) (oracle : String → Except String String) (pid : String) :
    List (String × String × String) → Store → Store × Option String × List String
  | [], st => (st, none, [])
  | (role, label, task) :: rest, st =>
    let st1 := addLog st pid role "info" label
    let r := agentExecute hm role "idle" pid task (oracle role) st1
    if r.2.2.success then
      let rc := runPhases hm oracle pid rest r.1
      (rc.1, rc.2.1, role :: rc.2.2)
    else (r.1, some role, [role])

/-- Result of one `execute_workflow` call.  `outcome` is `.error e` when
the call terminates by (re-)raising an exception with description `e`
into the background-task runner, `.ok ()` when it returns normally.
`statusWrites` records the successive values committed to
`Project.status` for `pid` during the call, in order. -/
structure WfResult where
  store : Store
  outcome : Except String Unit
  invoked : List String
  statusWrites : List String

/-- `Orchestrator.execute_workflow`.  A missing project raises; the
`except` block re-queries the project, marks it failed when it exists,
appends the failure log (`_log` always writes at level `info`), and
re-raises the exception. -/
def executeWorkflow (hm : Bool) (oracle : String → Except String String)
    (pid desc : String) (st : Store) : WfResult :=
  match findProject st pid with
  | none =>
    ⟨addLog st pid "Orchestrator" "info" "❌ Workflow failed: Project not found",
     .error "Project not found", [], []⟩
  | some _ =>
    let st0 := wfStart pid st
    let rc := runPhases hm oracle pid (phaseList desc) st0
    match rc.2.1 with
    | some role =>
      let stF := setStatus rc.1 pid "failed"
      ⟨addLog stF pid "Orchestrator" "info"
         ("❌ Workflow failed: " ++ role ++ " phase failed"),
       .error (role ++ " phase failed"), rc.2.2, ["running", "failed"]⟩
    | none =>
      let stC := setStatus rc.1 pid "completed"
      ⟨addLog stC pid "Orchestrator" "info"
         "✅ Project generation completed successfully!",
       .ok (), rc.2.2, ["running", "completed"]⟩

/-! ## The operation alphabet for the invariance claims -/

/-- One externally triggered operation: project creation, a build
(`start_build`, which checks existence and then runs the workflow with
the stored description), or a bare agent execution. -/
inductive Op where
  | create (pid name desc : String)
  | build (hm : Bool) (oracle : String → Except String String) (pid : String)
  | exec (hm : Bool) (role status pid task : String) (mr : Except String String)

def Op.pid : Op → String
  | .create p _ _ => p
  | .build _ _ p => p
  | .exec _ _ _ p _ _ => p

def applyOp (op : Op) (st : Store) : Store :=
  match op with
  | .create pid name desc => createProject pid name desc st
  | .build hm oracle pid =>
    match findProject st pid with
    | none => st
    | some p => (executeWorkflow hm oracle pid p.description st).store
  | .exec hm role status pid task mr =>
    (agentExecute hm role status pid task mr st).1

def applyOps (ops : List Op) (st : Store) : Store :=
  ops.foldl (fun s op => applyOp op s) st

/-! ## Project-scoped views -/

def smView (pid : String) (st : Store) : List SMEntry :=
  st.sharedMemory.filter (fun e => e.projectId = pid)

def fileView (pid : String) (st : Store) : List FileEntry :=
  st.files.filter (fun e => e.projectId = pid)

def logView (pid : String) (st : Store) : List LogEntry :=
  st.logs.filter (fun e => e.projectId = pid)

def smKeys (pid : String) (st : Store) : List String :=
  (smView pid st).map (fun e => e.key)

def filePaths (pid : String) (st : Store) : List String :=
  (fileView pid st).map (fun e => e.path)

/-- Wrapping a reply in a language-tagged code fence. -/
def fenceWrap (s : String) : String := "```json\n" ++ s ++ "\n```"

/-- The scan of a token (digits, whitespace) stops at a list exactly
when it is empty or its head fails the predicate. -/
def stopsP (p : Char → Bool) (B : List Char) : Prop :=
  B = [] ∨ ∃ c t, B = c :: t ∧ p c = false

/-! ## Theorems.  First the extractor claims C1, C6, then the agent
claims C2, C10. -/

/-- C1.  Corrected form.  The extractor is total and follows exactly one
of three routes: a successful whole-text parse returned unchanged (no
defaults substituted, so the result may lack any of the six fields or
not be an object at all), a successful brace-slice parse of the
fence-stripped text returned unchanged, or the fallback object — which
exposes exactly `output` (the fence-stripped text), `reasoning`,
`files`, `next_steps`, and not `shared_memory_updates` or `blockers`. -/
theorem c1_extract_total_routes (s : String) :
    (∃ v, jsonParse s = some v ∧ extract_json_from_text s = v) ∨
    (∃ seg v, jsonParse s = none ∧ braceSlice (stripFences s.data) = some seg ∧
      jsonParseL seg = some v ∧ extract_json_from_text s = v) ∨
    (jsonParse s = none ∧
      extract_json_from_text s = fallbackObj (stripFences s.data) ∧
      getField (extract_json_from_text s) "output" =
        some (.jstr (String.mk (stripFences s.data))) ∧
      getField (extract_json_from_text s) "reasoning" =
        some (.jstr "Failed to parse structured response") ∧
      getField (extract_json_from_text s) "files" = some (.jobj []) ∧
      getField (extract_json_from_text s) "next_steps" = some (.jarr []) ∧
      getField (extract_json_from_text s) "shared_memory_updates" = none ∧
      getField (extract_json_from_text s) "blockers" = none) := by
  rcases hj : jsonParse s with _ | v
  · rcases hb : braceSlice (stripFences s.data) with _ | seg
    · refine Or.inr (Or.inr ?_)
      have he : extract_json_from_text s = fallbackObj (stripFences s.data) := by
        simp [extract_json_from_text, hj, hb]
      refine ⟨rfl, he, ?_, ?_, ?_, ?_, ?_, ?_⟩ <;> (rw [he]; rfl)
    · rcases hp : jsonParseL seg with _ | v
      · refine Or.inr (Or.inr ?_)
        have he : extract_json_from_text s = fallbackObj (stripFences s.data) := by
          simp [extract_json_from_text, hj, hb, hp]
        refine ⟨rfl, he, ?_, ?_, ?_, ?_, ?_, ?_⟩ <;> (rw [he]; rfl)
      · refine Or.inr (Or.inl ⟨seg, v, rfl, rfl, hp, ?_⟩)
        simp [extract_json_from_text, hj, hb, hp]
  · exact Or.inl ⟨v, rfl, by simp [extract_json_from_text, hj]⟩

/-- C1, counterexample to the claim as stated: on unparseable input the
result exposes neither `blockers` nor `shared_memory_updates`, so it
does not expose all six fields with defaults. -/
theorem c1_counterexample :
    getField (extract_json_from_text "not json") "blockers" = none ∧
    getField (extract_json_from_text "not json") "shared_memory_updates" = none := by
  exact ⟨rfl, rfl⟩

/-- C6.  Corrected form: when the whole-text parse, the (hypothetical)
fence-stripped whole-text parse, and the brace-slice parse all fail, the
fallback's `output` is the fence-stripped input text — not the original
raw text — with `files` an empty mapping and `next_steps` an empty list.
The second hypothesis mirrors the claim's second listed attempt; the
code never performs that attempt, so the hypothesis is not needed by the
proof. -/
theorem c6_fallback_output_stripped (s : String)
    (h1 : jsonParse s = none)
    (h2 : jsonParse (String.mk (stripFences s.data)) = none)
    (h3 : ∀ seg, braceSlice (stripFences s.data) = some seg → jsonParseL seg = none) :
    extract_json_from_text s = fallbackObj (stripFences s.data) ∧
    getField (extract_json_from_text s) "output" =
      some (.jstr (String.mk (stripFences s.data))) ∧
    getField (extract_json_from_text s) "files" = some (.jobj []) ∧
    getField (extract_json_from_text s) "next_steps" = some (.jarr []) := by
  have he : extract_json_from_text s = fallbackObj (stripFences s.data) := by
    rcases hb : braceSlice (stripFences s.data) with _ | seg
    · simp [extract_json_from_text, h1, hb]
    · simp [extract_json_from_text, h1, hb, h3 seg hb]
  refine ⟨he, ?_, ?_, ?_⟩ <;> (rw [he]; rfl)

/-- C6, witness: `"x"` fails every parse attempt and the conclusion of
`c6_fallback_output_stripped` evaluates on it. -/
theorem c6_witness :
    jsonParse "x" = none ∧
    extract_json_from_text "x" = fallbackObj (stripFences "x".data) := by
  refine ⟨rfl, ?_⟩
  refine (c6_fallback_output_stripped "x" rfl rfl ?_).1
  intro seg h
  rw [show braceSlice (stripFences "x".data) = none from rfl] at h
  exact Option.noConfusion h

/-- C6, counterexample to the claim as stated: on an input carrying a
bare code fence, every parse attempt fails yet the fallback's `output`
is the fence-stripped text `"hello"`, not the original raw input. -/
theorem c6_counterexample :
    jsonParse "```\nhello" = none ∧
    braceSlice (stripFences "```\nhello".data) = none ∧
    getField (extract_json_from_text "```\nhello") "output" = some (.jstr "hello") ∧
    ("hello" : String) ≠ "```\nhello" := by
  refine ⟨rfl, rfl, rfl, by decide⟩

/-- C2.  Any error raised inside the `try` body of `Agent.execute` —
the model call itself or any later step, with the store as committed up
to that point — is caught locally: the status becomes `error`, exactly
one `error`-level log entry carrying the failure description is
appended, and the call returns the failed `TaskResult` with the error
description, empty files and empty next steps.  In particular a model
failure leaves every store row except that log entry untouched. -/
theorem c2_execute_contains_errors (role status0 pid task : String)
    (mr : Except String String) (st : Store) :
    (∀ e stE, tryBody role pid mr st = .error (e, stE) →
      agentExecute true role status0 pid task mr st =
        (addLog stE pid role "error" ("❌ Error: " ++ e), "error",
         ⟨false, "Error: " ++ e, [], []⟩)) ∧
    (∀ e, mr = .error e →
      agentExecute true role status0 pid task mr st =
        (addLog st pid role "error" ("❌ Error: " ++ e), "error",
         ⟨false, "Error: " ++ e, [], []⟩)) := by
  constructor
  · intro e stE h
    simp [agentExecute, h]
  · intro e h
    subst h
    simp [agentExecute, tryBody]

/-- C2, witness: a concrete model failure is contained as described. -/
theorem c2_witness :
    agentExecute true "BackendEngineer" "idle" "p" "t" (.error "boom") emptyStore =
      (addLog emptyStore "p" "BackendEngineer" "error" "❌ Error: boom", "error",
       ⟨false, "Error: boom", [], []⟩) :=
  (c2_execute_contains_errors "BackendEngineer" "idle" "p" "t"
    (.error "boom") emptyStore).2 "boom" rfl

/-- C10.  With no model configured, `Agent.execute` returns the failed
`TaskResult` immediately: the store (hence shared memory, files and
logs) is untouched and the agent status is returned unchanged — the
status is never set to `working` or `error` on this path. -/
theorem c10_no_model_early_return (hm : Bool) (role status0 pid task : String)
    (mr : Except String String) (st : Store) (h : hm = false) :
    agentExecute hm role status0 pid task mr st =
      (st, status0, ⟨false, "Gemini API key not configured", [], []⟩) := by
  subst h
  rfl

/-- C10, witness. -/
theorem c10_witness :
    agentExecute false "QAEngineer" "idle" "p" "t" (.ok "x") emptyStore =
      (emptyStore, "idle", ⟨false, "Gemini API key not configured", [], []⟩) :=
  c10_no_model_early_return false "QAEngineer" "idle" "p" "t" (.ok "x") emptyStore rfl
/-! ## Helper lemmas about the store operations and `Agent.execute`.
These are shared by the orchestrator claims below. -/

theorem mem_smKeys_iff (q k : String) (st : Store) :
    k ∈ smKeys q st ↔ ∃ e ∈ st.sharedMemory, e.projectId = q ∧ e.key = k := by
  simp only [smKeys, smView, List.mem_map, List.mem_filter, decide_eq_true_eq]
  constructor
  · rintro ⟨e, ⟨he, hq⟩, hk⟩
    exact ⟨e, he, hq, hk⟩
  · rintro ⟨e, he, hq, hk⟩
    exact ⟨e, ⟨he, hq⟩, hk⟩

theorem mem_filePaths_iff (q pth : String) (st : Store) :
    pth ∈ filePaths q st ↔ ∃ e ∈ st.files, e.projectId = q ∧ e.path = pth := by
  simp only [filePaths, fileView, List.mem_map, List.mem_filter, decide_eq_true_eq]
  constructor
  · rintro ⟨e, ⟨he, hq⟩, hk⟩
    exact ⟨e, he, hq, hk⟩
  · rintro ⟨e, he, hq, hk⟩
    exact ⟨e, ⟨he, hq⟩, hk⟩

theorem mem_upsertSM (pid key : String) (v : JVal) (l : List SMEntry)
    (e : SMEntry) (he : e ∈ l) :
    ∃ e' ∈ upsertSM pid key v l, e'.projectId = e.projectId ∧ e'.key = e.key := by
  induction l with
  | nil => simp at he
  | cons f rest ih =>
    simp only [upsertSM]
    by_cases hc : (f.projectId = pid && f.key = key) = true
    · rw [if_pos hc]
      rcases List.mem_cons.mp he with rfl | hr
      · exact ⟨⟨e.projectId, e.key, v⟩, List.mem_cons_self _ _, rfl, rfl⟩
      · exact ⟨e, List.mem_cons_of_mem _ hr, rfl, rfl⟩
    · rw [if_neg hc]
      rcases List.mem_cons.mp he with rfl | hr
      · exact ⟨e, List.mem_cons_self _ _, rfl, rfl⟩
      · rcases ih hr with ⟨e', he', h1, h2⟩
        exact ⟨e', List.mem_cons_of_mem _ he', h1, h2⟩

theorem mem_upsertFile (pid pth content : String) (l : List FileEntry)
    (e : FileEntry) (he : e ∈ l) :
    ∃ e' ∈ upsertFile pid pth content l,
      e'.projectId = e.projectId ∧ e'.path = e.path := by
  induction l with
  | nil => simp at he
  | cons f rest ih =>
    simp only [upsertFile]
    by_cases hc : (f.projectId = pid && f.path = pth) = true
    · rw [if_pos hc]
      rcases List.mem_cons.mp he with rfl | hr
      · exact ⟨⟨e.projectId, e.path, content, content.length⟩,
          List.mem_cons_self _ _, rfl, rfl⟩
      · exact ⟨e, List.mem_cons_of_mem _ hr, rfl, rfl⟩
    · rw [if_neg hc]
      rcases List.mem_cons.mp he with rfl | hr
      · exact ⟨e, List.mem_cons_self _ _, rfl, rfl⟩
      · rcases ih hr with ⟨e', he', h1, h2⟩
        exact ⟨e', List.mem_cons_of_mem _ he', h1, h2⟩

theorem mem_foldUpsertSM (pid : String) (ups : List (String × JVal))
    (l : List SMEntry) (e : SMEntry) (he : e ∈ l) :
    ∃ e' ∈ ups.foldl (fun m kv => upsertSM pid kv.1 kv.2 m) l,
      e'.projectId = e.projectId ∧ e'.key = e.key := by
  induction ups generalizing l e with
  | nil => exact ⟨e, he, rfl, rfl⟩
  | cons u rest ih =>
    rcases mem_upsertSM pid u.1 u.2 l e he with ⟨e', he', h1, h2⟩
    rcases ih (upsertSM pid u.1 u.2 l) e' he' with ⟨e'', he'', g1, g2⟩
    exact ⟨e'', by simpa using he'', by rw [g1, h1], by rw [g2, h2]⟩

theorem mem_foldUpsertFile (pid : String) (fps : List (String × String))
    (l : List FileEntry) (e : FileEntry) (he : e ∈ l) :
    ∃ e' ∈ fps.foldl (fun m pc => upsertFile pid pc.1 pc.2 m) l,
      e'.projectId = e.projectId ∧ e'.path = e.path := by
  induction fps generalizing l e with
  | nil => exact ⟨e, he, rfl, rfl⟩
  | cons u rest ih =>
    rcases mem_upsertFile pid u.1 u.2 l e he with ⟨e', he', h1, h2⟩
    rcases ih (upsertFile pid u.1 u.2 l) e' he' with ⟨e'', he'', g1, g2⟩
    exact ⟨e'', by simpa using he'', by rw [g1, h1], by rw [g2, h2]⟩

/-- What the store components look like after each outcome of the `try`
body: the success store is the three commits in order, an error store is
the prefix of commits reached before the raise. -/
theorem tryBody_shapes (role pid : String) (mr : Except String String)
    (st : Store) :
    (∀ st' tr, tryBody role pid mr st = .ok (st', tr) →
      ∃ ups fps pv, st' =
        addLog (applyFiles pid fps (applySM pid ups st)) pid role "success"
          ("✅ Completed: " ++ pv)) ∧
    (∀ e stE, tryBody role pid mr st = .error (e, stE) →
      stE = st ∨ (∃ ups, stE = applySM pid ups st) ∨
      (∃ ups fps, stE = applyFiles pid fps (applySM pid ups st)) ∨
      (∃ ups fps pv, stE =
        addLog (applyFiles pid fps (applySM pid ups st)) pid role "success"
          ("✅ Completed: " ++ pv))) := by
  rcases mr with e | text
  · constructor
    · intro st' tr h
      simp [tryBody] at h
    · intro e' stE h
      simp only [tryBody, Except.error.injEq, Prod.mk.injEq] at h
      exact Or.inl h.2.symm
  · constructor
    · intro st' tr h
      simp only [tryBody] at h
      rcases hs : smUpdatesOf (extract_json_from_text text) with e1 | ups <;>
        rw [hs] at h
      · simp at h
      · rcases hf : filePairsOf (extract_json_from_text text) with e2 | fps <;>
          rw [hf] at h
        · simp at h
        · rcases hp : previewOf (extract_json_from_text text) with e3 | pv <;>
            rw [hp] at h
          · simp at h
          · rcases hk : mkTaskResult (extract_json_from_text text) with e4 | tr' <;>
              rw [hk] at h
            · simp at h
            · simp only [Except.ok.injEq, Prod.mk.injEq] at h
              exact ⟨ups, fps, pv, h.1.symm⟩
    · intro e' stE h
      simp only [tryBody] at h
      rcases hs : smUpdatesOf (extract_json_from_text text) with e1 | ups <;>
        rw [hs] at h
      · simp only [Except.error.injEq, Prod.mk.injEq] at h
        exact Or.inl h.2.symm
      · rcases hf : filePairsOf (extract_json_from_text text) with e2 | fps <;>
          rw [hf] at h
        · simp only [Except.error.injEq, Prod.mk.injEq] at h
          exact Or.inr (Or.inl ⟨ups, h.2.symm⟩)
        · rcases hp : previewOf (extract_json_from_text text) with e3 | pv <;>
            rw [hp] at h
          · simp only [Except.error.injEq, Prod.mk.injEq] at h
            exact Or.inr (Or.inr (Or.inl ⟨ups, fps, h.2.symm⟩))
          · rcases hk : mkTaskResult (extract_json_from_text text) with e4 | tr' <;>
              rw [hk] at h
            · simp only [Except.error.injEq, Prod.mk.injEq] at h
              exact Or.inr (Or.inr (Or.inr ⟨ups, fps, pv, h.2.symm⟩))
            · simp at h

theorem applySM_projects (pid : String) (ups : List (String × JVal)) (st : Store) :
    (applySM pid ups st).projects = st.projects := rfl

theorem applyFiles_projects (pid : String) (fps : List (String × String)) (st : Store) :
    (applyFiles pid fps st).projects = st.projects := rfl

theorem addLog_projects (st : Store) (pid agent level msg : String) :
    (addLog st pid agent level msg).projects = st.projects := rfl

theorem applySM_logs (pid : String) (ups : List (String × JVal)) (st : Store) :
    (applySM pid ups st).logs = st.logs := rfl

theorem applyFiles_logs (pid : String) (fps : List (String × String)) (st : Store) :
    (applyFiles pid fps st).logs = st.logs := rfl

theorem addLog_logs (st : Store) (pid agent level msg : String) :
    (addLog st pid agent level msg).logs = st.logs ++ [⟨pid, agent, level, msg⟩] := rfl

theorem applySM_files (pid : String) (ups : List (String × JVal)) (st : Store) :
    (applySM pid ups st).files = st.files := rfl

theorem addLog_sharedMemory (st : Store) (pid agent level msg : String) :
    (addLog st pid agent level msg).sharedMemory = st.sharedMemory := rfl

theorem applyFiles_sharedMemory (pid : String) (fps : List (String × String)) (st : Store) :
    (applyFiles pid fps st).sharedMemory = st.sharedMemory := rfl

/-- `Agent.execute` never touches the `projects` table. -/
theorem agentExecute_projects (hm : Bool) (role s0 pid task : String)
    (mr : Except String String) (st : Store) :
    (agentExecute hm role s0 pid task mr st).1.projects = st.projects := by
  rcases hm with _ | _
  · rfl
  · simp only [agentExecute]
    rcases h : tryBody role pid mr st with ⟨e, stE⟩ | ⟨st', tr⟩
    · rcases (tryBody_shapes role pid mr st).2 e stE h with h1 | ⟨ups, h1⟩ |
        ⟨ups, fps, h1⟩ | ⟨ups, fps, pv, h1⟩ <;> subst h1 <;> rfl
    · rcases (tryBody_shapes role pid mr st).1 st' tr h with ⟨ups, fps, pv, h1⟩
      subst h1; rfl

/-- `Agent.execute` only appends to the log table. -/
theorem agentExecute_logs_append (hm : Bool) (role s0 pid task : String)
    (mr : Except String String) (st : Store) :
    ∃ tl, (agentExecute hm role s0 pid task mr st).1.logs = st.logs ++ tl := by
  rcases hm with _ | _
  · exact ⟨[], by simp [agentExecute]⟩
  · simp only [agentExecute]
    rcases h : tryBody role pid mr st with ⟨e, stE⟩ | ⟨st', tr⟩
    · rcases (tryBody_shapes role pid mr st).2 e stE h with h1 | ⟨ups, h1⟩ |
        ⟨ups, fps, h1⟩ | ⟨ups, fps, pv, h1⟩ <;> subst h1
      · exact ⟨_, rfl⟩
      · exact ⟨_, rfl⟩
      · exact ⟨_, rfl⟩
      · exact ⟨[⟨pid, role, "success", "✅ Completed: " ++ pv⟩,
          ⟨pid, role, "error", "❌ Error: " ++ e⟩],
          by simp [addLog, applyFiles, applySM, List.append_assoc]⟩
    · rcases (tryBody_shapes role pid mr st).1 st' tr h with ⟨ups, fps, pv, h1⟩
      subst h1; exact ⟨_, rfl⟩

/-- `Agent.execute` never deletes a shared-memory key. -/
theorem agentExecute_smKeys_mono (hm : Bool) (role s0 pid task : String)
    (mr : Except String String) (st : Store) (q : String) :
    smKeys q st ⊆ smKeys q (agentExecute hm role s0 pid task mr st).1 := by
  intro k hk
  rcases hm with _ | _
  · simpa [agentExecute] using hk
  · rw [mem_smKeys_iff] at hk ⊢
    rcases hk with ⟨e, he, hq, hkk⟩
    simp only [agentExecute]
    have step : ∀ ups : List (String × JVal),
        ∃ e' ∈ (applySM pid ups st).sharedMemory,
          e'.projectId = q ∧ e'.key = k := by
      intro ups
      rcases mem_foldUpsertSM pid ups st.sharedMemory e he with ⟨e', he', h1, h2⟩
      exact ⟨e', he', by rw [h1, hq], by rw [h2, hkk]⟩
    rcases h : tryBody role pid mr st with ⟨e1, stE⟩ | ⟨st', tr⟩
    · rcases (tryBody_shapes role pid mr st).2 e1 stE h with h1 | ⟨ups, h1⟩ |
        ⟨ups, fps, h1⟩ | ⟨ups, fps, pv, h1⟩ <;> subst h1
      · exact ⟨e, he, hq, hkk⟩
      · simpa [addLog] using step ups
      · simpa [addLog, applyFiles] using step ups
      · simpa [addLog, applyFiles] using step ups
    · rcases (tryBody_shapes role pid mr st).1 st' tr h with ⟨ups, fps, pv, h1⟩
      subst h1
      simpa [addLog, applyFiles] using step ups

/-- `Agent.execute` never deletes a file path. -/
theorem agentExecute_filePaths_mono (hm : Bool) (role s0 pid task : String)
    (mr : Except String String) (st : Store) (q : String) :
    filePaths q st ⊆ filePaths q (agentExecute hm role s0 pid task mr st).1 := by
  intro k hk
  rcases hm with _ | _
  · simpa [agentExecute] using hk
  · rw [mem_filePaths_iff] at hk ⊢
    rcases hk with ⟨e, he, hq, hkk⟩
    simp only [agentExecute]
    have step : ∀ fps : List (String × String),
        ∃ e' ∈ (fps.foldl (fun m pc => upsertFile pid pc.1 pc.2 m) st.files),
          e'.projectId = q ∧ e'.path = k := by
      intro fps
      rcases mem_foldUpsertFile pid fps st.files e he with ⟨e', he', h1, h2⟩
      exact ⟨e', he', by rw [h1, hq], by rw [h2, hkk]⟩
    rcases h : tryBody role pid mr st with ⟨e1, stE⟩ | ⟨st', tr⟩
    · rcases (tryBody_shapes role pid mr st).2 e1 stE h with h1 | ⟨ups, h1⟩ |
        ⟨ups, fps, h1⟩ | ⟨ups, fps, pv, h1⟩ <;> subst h1
      · exact ⟨e, he, hq, hkk⟩
      · exact ⟨e, he, hq, hkk⟩
      · simpa [addLog, applyFiles, applySM] using step fps
      · simpa [addLog, applyFiles, applySM] using step fps
    · rcases (tryBody_shapes role pid mr st).1 st' tr h with ⟨ups, fps, pv, h1⟩
      subst h1
      simpa [addLog, applyFiles, applySM] using step fps

/-- Two strings differ when their first characters differ; used to
separate agent log messages from orchestrator phase labels. -/
theorem append_ne_of_head_ne (x p b : String) (cx cb : Char) (tx tb : List Char)
    (hx : x.data = cx :: tx) (hb : b.data = cb :: tb) (hne : cx ≠ cb) :
    x ++ p ≠ b := by
  intro h
  have h2 := congrArg String.data h
  rw [String.data_append, hx, hb] at h2
  simp only [List.cons_append, List.cons.injEq] at h2
  exact hne h2.1

/-- A per-agent success log message never collides with a phase label. -/
theorem success_msg_not_label (pv : String) :
    ("✅ Completed: " ++ pv) ∉ labelList := by
  simp only [labelList, List.mem_cons, List.not_mem_nil, or_false]
  push_neg
  refine ⟨?_, ?_, ?_, ?_, ?_, ?_, ?_, ?_, ?_, ?_⟩ <;>
    exact append_ne_of_head_ne _ _ _ '✅' _ _ _ rfl rfl (by decide)

/-- A per-agent error log message never collides with a phase label. -/
theorem error_msg_not_label (e : String) :
    ("❌ Error: " ++ e) ∉ labelList := by
  simp only [labelList, List.mem_cons, List.not_mem_nil, or_false]
  push_neg
  refine ⟨?_, ?_, ?_, ?_, ?_, ?_, ?_, ?_, ?_, ?_⟩ <;>
    exact append_ne_of_head_ne _ _ _ '❌' _ _ _ rfl rfl (by decide)

theorem mkTaskResult_ok_success (result : JVal) (tr : TaskResult)
    (h : mkTaskResult result = .ok tr) : tr.success = true := by
  unfold mkTaskResult at h
  simp only [bind, Except.bind, pure, Except.pure] at h
  repeat' split at h
  all_goals simp_all
  all_goals rw [← h]

theorem agentExecute_success_eq (hm : Bool) (role s0 pid task : String)
    (mr : Except String String) (st : Store) :
    (agentExecute hm role s0 pid task mr st).2.2.success = agentSucceeds hm mr := by
  rcases hm with _ | _
  · simp [agentExecute, agentSucceeds]
  · simp only [agentExecute, agentSucceeds, Bool.true_and]
    rcases mr with e | text
    · simp [tryBody, replyOk]
    · simp only [tryBody, replyOk]
      rcases h1 : smUpdatesOf (extract_json_from_text text) with e1 | ups <;>
        simp only [h1, Except.isOk, Except.toBool, Bool.false_and, Bool.true_and]
      · simp
      · rcases h2 : filePairsOf (extract_json_from_text text) with e2 | fps <;>
          simp only [h2, Except.isOk, Except.toBool, Bool.false_and, Bool.true_and]
        · simp
        · rcases h3 : previewOf (extract_json_from_text text) with e3 | pv <;>
            simp only [h3, Except.isOk, Except.toBool, Bool.false_and, Bool.true_and]
          · simp
          · rcases h4 : mkTaskResult (extract_json_from_text text) with e4 | tr <;>
              simp only [h4, Except.isOk, Except.toBool]
            · simp
            · simpa using mkTaskResult_ok_success _ tr h4

/-- Shape of a successful `Agent.execute`: the three commits in order,
then status `idle` and a successful result. -/
theorem agentExecute_succ_shape (hm : Bool) (role s0 pid task : String)
    (mr : Except String String) (st : Store)
    (h : agentSucceeds hm mr = true) :
    ∃ ups fps pv tr, agentExecute hm role s0 pid task mr st =
      (addLog (applyFiles pid fps (applySM pid ups st)) pid role "success"
        ("✅ Completed: " ++ pv), "idle", tr) ∧ tr.success = true := by
  rcases hm with _ | _
  · simp [agentSucceeds] at h
  · have hs := agentExecute_success_eq true role s0 pid task mr st
    rw [h] at hs
    simp only [agentExecute] at hs ⊢
    rcases ht : tryBody role pid mr st with ⟨e, stE⟩ | ⟨st', tr⟩
    · rw [ht] at hs
      simp at hs
    · rw [ht] at hs
      rcases (tryBody_shapes role pid mr st).1 st' tr ht with ⟨ups, fps, pv, h1⟩
      subst h1
      refine ⟨ups, fps, pv, tr, by simp, by simpa using hs⟩

/-- All log entries appended by one `Agent.execute` call, none of which
carries a phase-label message. -/
theorem agentExecute_new_logs (hm : Bool) (role s0 pid task : String)
    (mr : Except String String) (st : Store) :
    ∃ tl, (agentExecute hm role s0 pid task mr st).1.logs = st.logs ++ tl ∧
      ∀ en ∈ tl, en.message ∉ labelList := by
  rcases hm with _ | _
  · exact ⟨[], by simp [agentExecute], by simp⟩
  · simp only [agentExecute]
    rcases h : tryBody role pid mr st with ⟨e, stE⟩ | ⟨st', tr⟩
    · rcases (tryBody_shapes role pid mr st).2 e stE h with h1 | ⟨ups, h1⟩ |
        ⟨ups, fps, h1⟩ | ⟨ups, fps, pv, h1⟩ <;> subst h1
      · refine ⟨[⟨pid, role, "error", "❌ Error: " ++ e⟩], rfl, ?_⟩
        intro en hen
        rcases List.mem_singleton.mp hen with rfl
        exact error_msg_not_label e
      · refine ⟨[⟨pid, role, "error", "❌ Error: " ++ e⟩], rfl, ?_⟩
        intro en hen
        rcases List.mem_singleton.mp hen with rfl
        exact error_msg_not_label e
      · refine ⟨[⟨pid, role, "error", "❌ Error: " ++ e⟩], rfl, ?_⟩
        intro en hen
        rcases List.mem_singleton.mp hen with rfl
        exact error_msg_not_label e
      · refine ⟨[⟨pid, role, "success", "✅ Completed: " ++ pv⟩,
          ⟨pid, role, "error", "❌ Error: " ++ e⟩],
          by simp [addLog, applyFiles, applySM, List.append_assoc], ?_⟩
        intro en hen
        rcases List.mem_cons.mp hen with rfl | hen2
        · exact success_msg_not_label pv
        · rcases List.mem_singleton.mp hen2 with rfl
          exact error_msg_not_label e
    · rcases (tryBody_shapes role pid mr st).1 st' tr h with ⟨ups, fps, pv, h1⟩
      subst h1
      refine ⟨[⟨pid, role, "success", "✅ Completed: " ++ pv⟩], rfl, ?_⟩
      intro en hen
      rcases List.mem_singleton.mp hen with rfl
      exact success_msg_not_label pv

theorem runPhases_projects (hm : Bool) (oracle : String → Except String String)
    (pid : String) (l : List (String × String × String)) (st : Store) :
    (runPhases hm oracle pid l st).1.projects = st.projects := by
  induction l generalizing st with
  | nil => rfl
  | cons ph rest ih =>
    rcases ph with ⟨role, label, task⟩
    simp only [runPhases]
    split
    · rw [ih]
      rw [agentExecute_projects]
      rfl
    · rw [agentExecute_projects]
      rfl

theorem runPhases_smKeys_mono (hm : Bool) (oracle : String → Except String String)
    (pid : String) (l : List (String × String × String)) (st : Store) (q : String) :
    smKeys q st ⊆ smKeys q (runPhases hm oracle pid l st).1 := by
  induction l generalizing st with
  | nil => exact fun k hk => hk
  | cons ph rest ih =>
    rcases ph with ⟨role, label, task⟩
    simp only [runPhases]
    split
    · intro k hk
      refine ih _ ?_
      refine agentExecute_smKeys_mono hm role "idle" pid task (oracle role) _ q ?_
      simpa [smKeys, smView, addLog] using hk
    · intro k hk
      refine agentExecute_smKeys_mono hm role "idle" pid task (oracle role) _ q ?_
      simpa [smKeys, smView, addLog] using hk

theorem runPhases_filePaths_mono (hm : Bool) (oracle : String → Except String String)
    (pid : String) (l : List (String × String × String)) (st : Store) (q : String) :
    filePaths q st ⊆ filePaths q (runPhases hm oracle pid l st).1 := by
  induction l generalizing st with
  | nil => exact fun k hk => hk
  | cons ph rest ih =>
    rcases ph with ⟨role, label, task⟩
    simp only [runPhases]
    split
    · intro k hk
      refine ih _ ?_
      refine agentExecute_filePaths_mono hm role "idle" pid task (oracle role) _ q ?_
      simpa [filePaths, fileView, addLog] using hk
    · intro k hk
      refine agentExecute_filePaths_mono hm role "idle" pid task (oracle role) _ q ?_
      simpa [filePaths, fileView, addLog] using hk

/-- All-success characterization of the phase loop: no failure, every
role invoked in order, and the appended logs restricted to label
messages are exactly the phase labels in order. -/
theorem runPhases_succ (hm : Bool) (oracle : String → Except String String)
    (pid : String) (l : List (String × String × String)) (st : Store)
    (hl : ∀ ph ∈ l, agentSucceeds hm (oracle ph.1) = true)
    (hlab : ∀ ph ∈ l, ph.2.1 ∈ labelList) :
    (runPhases hm oracle pid l st).2.1 = none ∧
    (runPhases hm oracle pid l st).2.2 = l.map (fun ph => ph.1) ∧
    ∃ tl, (runPhases hm oracle pid l st).1.logs = st.logs ++ tl ∧
      tl.filter (fun en => decide (en.message ∈ labelList)) =
        l.map (fun ph => (⟨pid, ph.1, "info", ph.2.1⟩ : LogEntry)) := by
  induction l generalizing st with
  | nil => exact ⟨rfl, rfl, [], by simp [runPhases], by simp⟩
  | cons ph rest ih =>
    rcases ph with ⟨role, label, task⟩
    have hsucc : agentSucceeds hm (oracle role) = true :=
      hl _ (List.mem_cons_self _ _)
    have hlabel : label ∈ labelList := hlab _ (List.mem_cons_self _ _)
    simp only [runPhases]
    have hse := agentExecute_success_eq hm role "idle" pid task (oracle role)
      (addLog st pid role "info" label)
    rw [hsucc] at hse
    rw [hse]
    simp only [if_true]
    rcases agentExecute_succ_shape hm role "idle" pid task (oracle role)
      (addLog st pid role "info" label) hsucc with ⟨ups, fps, pv, tr, hae, htr⟩
    rcases ih ((agentExecute hm role "idle" pid task (oracle role)
        (addLog st pid role "info" label)).1)
        (fun ph hph => hl ph (List.mem_cons_of_mem _ hph))
        (fun ph hph => hlab ph (List.mem_cons_of_mem _ hph)) with
      ⟨hfail, hinv, tl, hlogs, hfilter⟩
    refine ⟨hfail, by rw [hinv]; simp, ?_⟩
    rw [hae] at hlogs
    simp only [addLog, applyFiles, applySM] at hlogs
    refine ⟨[⟨pid, role, "info", label⟩] ++
      [⟨pid, role, "success", "✅ Completed: " ++ pv⟩] ++ tl, ?_, ?_⟩
    · rw [hae]
      simp only [addLog, applyFiles, applySM] at hlogs ⊢
      rw [hlogs]
      simp [List.append_assoc]
    · simp only [List.filter_append, List.filter_cons, List.filter_nil]
      rw [hfilter]
      have h1 : decide (label ∈ labelList) = true := by
        simpa using hlabel
      have h2 : decide (("✅ Completed: " ++ pv) ∈ labelList) = false := by
        simpa using success_msg_not_label pv
      rw [h1, h2]
      simp

/-- Composition of the phase loop across a successful prefix. -/
theorem runPhases_split (hm : Bool) (oracle : String → Except String String)
    (pid : String) (l1 l2 : List (String × String × String)) (st : Store)
    (h : (runPhases hm oracle pid l1 st).2.1 = none) :
    runPhases hm oracle pid (l1 ++ l2) st =
      ((runPhases hm oracle pid l2 (runPhases hm oracle pid l1 st).1).1,
       (runPhases hm oracle pid l2 (runPhases hm oracle pid l1 st).1).2.1,
       (runPhases hm oracle pid l1 st).2.2 ++
         (runPhases hm oracle pid l2 (runPhases hm oracle pid l1 st).1).2.2) := by
  induction l1 generalizing st with
  | nil => simp [runPhases]
  | cons ph rest ih =>
    rcases ph with ⟨role, label, task⟩
    simp only [runPhases, List.cons_append] at h ⊢
    split at h
    · rename_i hsucc
      simp only [hsucc, if_true] at h ⊢
      simp only [List.append_eq]
      rw [ih _ h]
      simp
    · simp at h

/-- A phase whose agent fails stops the loop at once. -/
theorem runPhases_fail_head (hm : Bool) (oracle : String → Except String String)
    (pid role label task : String) (rest : List (String × String × String))
    (st : Store) (hfail : agentSucceeds hm (oracle role) = false) :
    runPhases hm oracle pid ((role, label, task) :: rest) st =
      ((agentExecute hm role "idle" pid task (oracle role)
          (addLog st pid role "info" label)).1, some role, [role]) := by
  simp only [runPhases]
  rw [agentExecute_success_eq, hfail]
  simp

theorem find?_setStatusList_self (pid v : String) (l : List ProjectRec)
    (p : ProjectRec) (h : l.find? (fun q => q.id = pid) = some p) :
    (setStatusList pid v l).find? (fun q => q.id = pid) =
      some ⟨p.id, p.name, p.description, v⟩ := by
  induction l with
  | nil => simp at h
  | cons f rest ih =>
    simp only [setStatusList]
    by_cases hf : f.id = pid
    · rw [if_pos hf]
      rw [List.find?_cons_of_pos _ (by simpa using hf)] at h
      have hp : f = p := by
        injection h
      subst hp
      rw [List.find?_cons_of_pos _ (by simpa using hf)]
    · rw [if_neg hf]
      rw [List.find?_cons_of_neg _ (by simpa using hf)] at h
      rw [List.find?_cons_of_neg _ (by simpa using hf)]
      exact ih h

theorem statusOf_addLog (st : Store) (pid agent level msg q : String) :
    statusOf (addLog st pid agent level msg) q = statusOf st q := rfl

theorem statusOf_setStatus_self (st : Store) (pid v : String) (p : ProjectRec)
    (h : findProject st pid = some p) :
    statusOf (setStatus st pid v) pid = some v := by
  simp only [statusOf, findProject, setStatus] at h ⊢
  rw [find?_setStatusList_self pid v st.projects p h]
  rfl

theorem findProject_setStatus_self (st : Store) (pid v : String) (p : ProjectRec)
    (h : findProject st pid = some p) :
    findProject (setStatus st pid v) pid = some ⟨p.id, p.name, p.description, v⟩ := by
  simp only [findProject, setStatus] at h ⊢
  exact find?_setStatusList_self pid v st.projects p h

/-- C5.  Corrected form.  When the project exists and all ten phases
succeed, the workflow ends with status `completed`, the final appended
log entry is the completion message — at level `info`, not `success` as
claimed —, exactly the ten phase-start entries (one per phase, canonical
order) appear among the newly appended logs, the call returns without
raising, and the roles were invoked in canonical order. -/
theorem c5_all_success_completed (hm : Bool)
    (oracle : String → Except String String) (pid desc : String) (st : Store)
    (p : ProjectRec) (hproj : findProject st pid = some p)
    (hl : ∀ ph ∈ phaseList desc, agentSucceeds hm (oracle ph.1) = true) :
    statusOf (executeWorkflow hm oracle pid desc st).store pid = some "completed" ∧
    (executeWorkflow hm oracle pid desc st).store.logs.getLast? =
      some ⟨pid, "Orchestrator", "info",
        "✅ Project generation completed successfully!"⟩ ∧
    ((executeWorkflow hm oracle pid desc st).store.logs.drop
        st.logs.length).filter (fun en => decide (en.message ∈ labelList)) =
      (phaseList desc).map
        (fun ph => (⟨pid, ph.1, "info", ph.2.1⟩ : LogEntry)) ∧
    (executeWorkflow hm oracle pid desc st).outcome = .ok () ∧
    (executeWorkflow hm oracle pid desc st).invoked =
      (phaseList desc).map (fun ph => ph.1) := by
  have hlab : ∀ ph ∈ phaseList desc, ph.2.1 ∈ labelList := by
    intro ph hph
    simp only [phaseList, List.mem_cons, List.not_mem_nil, or_false] at hph
    rcases hph with h | h | h | h | h | h | h | h | h | h <;> subst h <;>
      simp [labelList]
  rcases runPhases_succ hm oracle pid (phaseList desc) (wfStart pid st) hl hlab
    with ⟨hfail, hinv, tl, hlogs, hfilter⟩
  have hproj_run : findProject
      (runPhases hm oracle pid (phaseList desc) (wfStart pid st)).1 pid =
      some ⟨p.id, p.name, p.description, "running"⟩ := by
    simp only [findProject, runPhases_projects]
    simpa [wfStart, addLog, findProject, setStatus] using
      find?_setStatusList_self pid "running" st.projects p hproj
  have hW : executeWorkflow hm oracle pid desc st =
      ⟨addLog (setStatus
          (runPhases hm oracle pid (phaseList desc) (wfStart pid st)).1 pid
          "completed") pid "Orchestrator" "info"
          "✅ Project generation completed successfully!",
       .ok (), (runPhases hm oracle pid (phaseList desc) (wfStart pid st)).2.2,
       ["running", "completed"]⟩ := by
    simp only [executeWorkflow, hproj, hfail]
  refine ⟨?_, ?_, ?_, ?_, ?_⟩
  · rw [hW]
    rw [show (⟨addLog (setStatus
        (runPhases hm oracle pid (phaseList desc) (wfStart pid st)).1 pid
        "completed") pid "Orchestrator" "info"
        "✅ Project generation completed successfully!",
       .ok (), (runPhases hm oracle pid (phaseList desc) (wfStart pid st)).2.2,
       ["running", "completed"]⟩ : WfResult).store = addLog (setStatus
        (runPhases hm oracle pid (phaseList desc) (wfStart pid st)).1 pid
        "completed") pid "Orchestrator" "info"
        "✅ Project generation completed successfully!" from rfl]
    rw [statusOf_addLog]
    exact statusOf_setStatus_self _ pid "completed" _ hproj_run
  · rw [hW]
    rw [addLog_logs]
    exact List.getLast?_concat _
  · rw [hW]
    rw [addLog_logs]
    have hset : (setStatus
        (runPhases hm oracle pid (phaseList desc) (wfStart pid st)).1 pid
        "completed").logs =
        (runPhases hm oracle pid (phaseList desc) (wfStart pid st)).1.logs := rfl
    rw [hset, hlogs]
    have hws : (wfStart pid st).logs = st.logs ++
        [⟨pid, "Orchestrator", "info",
          "🚀 Starting autonomous development workflow"⟩] := rfl
    rw [hws]
    rw [List.append_assoc, List.append_assoc]
    rw [List.drop_left]
    have hstart : ("🚀 Starting autonomous development workflow" : String) ∉
        labelList := by decide
    have hfin : ("✅ Project generation completed successfully!" : String) ∉
        labelList := by decide
    simp only [List.filter_append, List.filter_cons, List.filter_nil,
      decide_eq_false hstart, decide_eq_false hfin]
    simp [hfilter]
  · rw [hW]
  · rw [hW]
    exact hinv

/-- C5, witness: a concrete all-success run (every reply is the
unparseable text `"x"`, whose fallback extraction still yields a
successful `TaskResult`). -/
theorem c5_witness :
    findProject (createProject "p" "n" "d" emptyStore) "p" =
      some ⟨"p", "n", "d", "initializing"⟩ ∧
    statusOf (executeWorkflow true (fun _ => .ok "x") "p" "d"
      (createProject "p" "n" "d" emptyStore)).store "p" = some "completed" := by
  refine ⟨rfl, ?_⟩
  exact (c5_all_success_completed true (fun _ => .ok "x") "p" "d"
    (createProject "p" "n" "d" emptyStore) ⟨"p", "n", "d", "initializing"⟩ rfl
    (fun ph _ => by show agentSucceeds true (.ok "x") = true; decide)).1

/-- C5, counterexample to the claim as stated: in a full all-success
run the log entry appended at the end has level `info`, not `success`. -/
theorem c5_counterexample :
    statusOf (executeWorkflow true (fun _ => .ok "x") "p" "d"
      (createProject "p" "n" "d" emptyStore)).store "p" = some "completed" ∧
    ((executeWorkflow true (fun _ => .ok "x") "p" "d"
      (createProject "p" "n" "d" emptyStore)).store.logs.getLast?.map
        (fun en => en.level)) = some "info" ∧
    ("info" : String) ≠ "success" := by
  refine ⟨by decide, by decide, by decide⟩

/-- C3.  Corrected form.  If the first `i` phases succeed and phase `i`
fails, the workflow ends with status `failed`, the final log entry is
the `info`-level (not `error`-level, as claimed) workflow-failure
message naming the failing role, no phase after `i` is ever invoked, and
every shared-memory key and file path present after the successful
prefix is still present in the final store — presence, not value, is
preserved: the failing phase's own writes committed before its failure
may overwrite earlier values. -/
theorem c3_phase_failure_aborts (hm : Bool)
    (oracle : String → Except String String) (pid desc : String) (st : Store)
    (p : ProjectRec) (i : Nat) (hproj : findProject st pid = some p)
    (hlen : i < (phaseList desc).length)
    (hpre : ∀ ph ∈ (phaseList desc).take i,
      agentSucceeds hm (oracle ph.1) = true)
    (hfail : agentSucceeds hm
      (oracle ((phaseList desc).get ⟨i, hlen⟩).1) = false) :
    statusOf (executeWorkflow hm oracle pid desc st).store pid = some "failed" ∧
    (executeWorkflow hm oracle pid desc st).store.logs.getLast? =
      some ⟨pid, "Orchestrator", "info",
        "❌ Workflow failed: " ++ ((phaseList desc).get ⟨i, hlen⟩).1 ++
          " phase failed"⟩ ∧
    (executeWorkflow hm oracle pid desc st).invoked =
      ((phaseList desc).take (i + 1)).map (fun ph => ph.1) ∧
    smKeys pid
        (runPhases hm oracle pid ((phaseList desc).take i) (wfStart pid st)).1 ⊆
      smKeys pid (executeWorkflow hm oracle pid desc st).store ∧
    filePaths pid
        (runPhases hm oracle pid ((phaseList desc).take i) (wfStart pid st)).1 ⊆
      filePaths pid (executeWorkflow hm oracle pid desc st).store := by
  have hlab : ∀ ph ∈ (phaseList desc).take i, ph.2.1 ∈ labelList := by
    intro ph hph
    have hph2 := List.take_subset i (phaseList desc) hph
    simp only [phaseList, List.mem_cons, List.not_mem_nil, or_false] at hph2
    rcases hph2 with h | h | h | h | h | h | h | h | h | h <;> subst h <;>
      simp [labelList]
  rcases runPhases_succ hm oracle pid ((phaseList desc).take i) (wfStart pid st)
    hpre hlab with ⟨hnone, hinv, _tl, _hlogs, _hfilter⟩
  rcases hget : (phaseList desc).get ⟨i, hlen⟩ with ⟨role, label, task⟩
  rw [hget] at hfail
  simp only [hget]
  have hdecomp : phaseList desc = (phaseList desc).take i ++
      ((role, label, task) :: (phaseList desc).drop (i + 1)) := by
    conv_lhs => rw [← List.take_append_drop i (phaseList desc)]
    rw [List.drop_eq_getElem_cons hlen]
    simp [← hget]
  have hfh := runPhases_fail_head hm oracle pid role label task
    ((phaseList desc).drop (i + 1))
    (runPhases hm oracle pid ((phaseList desc).take i) (wfStart pid st)).1 hfail
  have hrun : runPhases hm oracle pid (phaseList desc) (wfStart pid st) =
      ((agentExecute hm role "idle" pid task (oracle role)
          (addLog (runPhases hm oracle pid ((phaseList desc).take i)
            (wfStart pid st)).1 pid role "info" label)).1,
       some role,
       (runPhases hm oracle pid ((phaseList desc).take i)
          (wfStart pid st)).2.2 ++ [role]) := by
    conv_lhs => rw [hdecomp]
    rw [runPhases_split hm oracle pid ((phaseList desc).take i) _
      (wfStart pid st) hnone]
    rw [hfh]
  have hproj_rc : findProject (agentExecute hm role "idle" pid task (oracle role)
      (addLog (runPhases hm oracle pid ((phaseList desc).take i)
        (wfStart pid st)).1 pid role "info" label)).1 pid =
      some ⟨p.id, p.name, p.description, "running"⟩ := by
    simp only [findProject, agentExecute_projects, addLog_projects,
      runPhases_projects]
    simpa [wfStart, addLog, findProject, setStatus] using
      find?_setStatusList_self pid "running" st.projects p hproj
  have hW : executeWorkflow hm oracle pid desc st =
      ⟨addLog (setStatus (agentExecute hm role "idle" pid task (oracle role)
          (addLog (runPhases hm oracle pid ((phaseList desc).take i)
            (wfStart pid st)).1 pid role "info" label)).1 pid "failed")
         pid "Orchestrator" "info"
         ("❌ Workflow failed: " ++ role ++ " phase failed"),
       .error (role ++ " phase failed"),
       (runPhases hm oracle pid ((phaseList desc).take i)
          (wfStart pid st)).2.2 ++ [role],
       ["running", "failed"]⟩ := by
    simp only [executeWorkflow, hproj, hrun]
  refine ⟨?_, ?_, ?_, ?_, ?_⟩
  · rw [hW]
    rw [show (⟨addLog (setStatus (agentExecute hm role "idle" pid task
        (oracle role) (addLog (runPhases hm oracle pid
          ((phaseList desc).take i) (wfStart pid st)).1 pid role "info"
          label)).1 pid "failed") pid "Orchestrator" "info"
        ("❌ Workflow failed: " ++ role ++ " phase failed"),
       .error (role ++ " phase failed"),
       (runPhases hm oracle pid ((phaseList desc).take i)
          (wfStart pid st)).2.2 ++ [role],
       ["running", "failed"]⟩ : WfResult).store = addLog (setStatus
        (agentExecute hm role "idle" pid task (oracle role)
          (addLog (runPhases hm oracle pid ((phaseList desc).take i)
            (wfStart pid st)).1 pid role "info" label)).1 pid "failed")
        pid "Orchestrator" "info"
        ("❌ Workflow failed: " ++ role ++ " phase failed") from rfl]
    rw [statusOf_addLog]
    exact statusOf_setStatus_self _ pid "failed" _ hproj_rc
  · rw [hW]
    rw [addLog_logs]
    exact List.getLast?_concat _
  · rw [hW]
    have htake : (phaseList desc).take (i + 1) =
        (phaseList desc).take i ++ [(role, label, task)] := by
      rw [List.take_succ]
      congr 1
      rw [List.getElem?_eq_getElem hlen]
      simp [← hget]
    rw [htake]
    simp only [List.map_append, List.map_cons, List.map_nil]
    rw [hinv]
  · rw [hW]
    intro k hk
    have h1 : smKeys pid (addLog (runPhases hm oracle pid
        ((phaseList desc).take i) (wfStart pid st)).1 pid role "info" label) =
        smKeys pid (runPhases hm oracle pid ((phaseList desc).take i)
          (wfStart pid st)).1 := rfl
    have h2 := agentExecute_smKeys_mono hm role "idle" pid task (oracle role)
      (addLog (runPhases hm oracle pid ((phaseList desc).take i)
        (wfStart pid st)).1 pid role "info" label) pid
    rw [h1] at h2
    exact h2 hk
  · rw [hW]
    intro k hk
    have h1 : filePaths pid (addLog (runPhases hm oracle pid
        ((phaseList desc).take i) (wfStart pid st)).1 pid role "info" label) =
        filePaths pid (runPhases hm oracle pid ((phaseList desc).take i)
          (wfStart pid st)).1 := rfl
    have h2 := agentExecute_filePaths_mono hm role "idle" pid task (oracle role)
      (addLog (runPhases hm oracle pid ((phaseList desc).take i)
        (wfStart pid st)).1 pid role "info" label) pid
    rw [h1] at h2
    exact h2 hk

/-- C3, witness: phase 1 failing through a model error on a fresh
project; the conclusion of `c3_phase_failure_aborts` evaluates there. -/
theorem c3_witness :
    findProject (createProject "p" "n" "d" emptyStore) "p" =
      some ⟨"p", "n", "d", "initializing"⟩ ∧
    statusOf (executeWorkflow true (fun _ => .error "boom") "p" "d"
      (createProject "p" "n" "d" emptyStore)).store "p" = some "failed" := by
  refine ⟨rfl, ?_⟩
  exact (c3_phase_failure_aborts true (fun _ => .error "boom") "p" "d"
    (createProject "p" "n" "d" emptyStore) ⟨"p", "n", "d", "initializing"⟩ 0
    rfl (by decide) (fun ph hph => absurd hph (by simp)) (by decide)).1

/-- C3, counterexample to the claim as stated, in two runs.  First run:
with no model configured the first phase fails, the workflow is marked
failed, yet no `error`-level log entry exists anywhere — the claimed
`error` log is written at level `info`.  Second run: phase 1 commits
shared-memory key `k := "v1"`; phase 2 commits `k := "v2"` and then
fails on its ill-typed `files` field, so the entry written by the
earlier successful phase does not remain unchanged. -/
theorem c3_counterexample :
    (statusOf (executeWorkflow false (fun _ => .ok "x") "p" "d"
        (createProject "p" "n" "d" emptyStore)).store "p" = some "failed" ∧
     (executeWorkflow false (fun _ => .ok "x") "p" "d"
        (createProject "p" "n" "d" emptyStore)).store.logs.filter
          (fun en => decide (en.level = "error")) = []) ∧
    (statusOf (executeWorkflow true
        (fun r => if r = "ProductManager" then
            Except.ok "\x7b\"shared_memory_updates\": \x7b\"k\": \"v1\"\x7d\x7d"
          else if r = "UXDesigner" then
            Except.ok "\x7b\"shared_memory_updates\": \x7b\"k\": \"v2\"\x7d, \"files\": \"oops\"\x7d"
          else Except.ok "x") "p" "d"
        (createProject "p" "n" "d" emptyStore)).store "p" = some "failed" ∧
     ((runPhases true
        (fun r => if r = "ProductManager" then
            Except.ok "\x7b\"shared_memory_updates\": \x7b\"k\": \"v1\"\x7d\x7d"
          else if r = "UXDesigner" then
            Except.ok "\x7b\"shared_memory_updates\": \x7b\"k\": \"v2\"\x7d, \"files\": \"oops\"\x7d"
          else Except.ok "x") "p" ((phaseList "d").take 1)
        (wfStart "p" (createProject "p" "n" "d" emptyStore))).1.sharedMemory.map
          (fun e => (e.projectId, e.key,
            match e.value with | .jstr s => s | _ => ""))) = [("p", "k", "v1")] ∧
     ((executeWorkflow true
        (fun r => if r = "ProductManager" then
            Except.ok "\x7b\"shared_memory_updates\": \x7b\"k\": \"v1\"\x7d\x7d"
          else if r = "UXDesigner" then
            Except.ok "\x7b\"shared_memory_updates\": \x7b\"k\": \"v2\"\x7d, \"files\": \"oops\"\x7d"
          else Except.ok "x") "p" "d"
        (createProject "p" "n" "d" emptyStore)).store.sharedMemory.map
          (fun e => (e.projectId, e.key,
            match e.value with | .jstr s => s | _ => ""))) = [("p", "k", "v2")] ∧
     ("v1" : String) ≠ "v2") := by
  exact ⟨⟨by decide, by decide⟩, by decide, by decide, by decide, by decide⟩

/-- C4.  Corrected form.  Every exception reaching the top level of
`execute_workflow` is caught exactly once there: when the project record
is missing, the failure is logged (no status can be set) and the
exception is re-raised; when a phase fails, the project is marked
`failed`, the failure is logged, and the exception is re-raised.  The
call therefore does not swallow the fault: its outcome is the raised
exception, which propagates to the background-task runner. -/
theorem c4_top_level_catch_reraises (hm : Bool)
    (oracle : String → Except String String) (pid desc : String) (st : Store) :
    (findProject st pid = none →
      executeWorkflow hm oracle pid desc st =
        ⟨addLog st pid "Orchestrator" "info"
           "❌ Workflow failed: Project not found",
         .error "Project not found", [], []⟩) ∧
    (∀ p role, findProject st pid = some p →
      (runPhases hm oracle pid (phaseList desc) (wfStart pid st)).2.1 =
        some role →
      statusOf (executeWorkflow hm oracle pid desc st).store pid =
          some "failed" ∧
        (executeWorkflow hm oracle pid desc st).outcome =
          .error (role ++ " phase failed") ∧
        (executeWorkflow hm oracle pid desc st).store.logs.getLast? =
          some ⟨pid, "Orchestrator", "info",
            "❌ Workflow failed: " ++ role ++ " phase failed"⟩) := by
  constructor
  · intro h
    simp [executeWorkflow, h]
  · intro p role hproj hfailrole
    have hW : executeWorkflow hm oracle pid desc st =
        ⟨addLog (setStatus
            (runPhases hm oracle pid (phaseList desc) (wfStart pid st)).1 pid
            "failed") pid "Orchestrator" "info"
            ("❌ Workflow failed: " ++ role ++ " phase failed"),
         .error (role ++ " phase failed"),
         (runPhases hm oracle pid (phaseList desc) (wfStart pid st)).2.2,
         ["running", "failed"]⟩ := by
      simp only [executeWorkflow, hproj, hfailrole]
    have hproj_run : findProject
        (runPhases hm oracle pid (phaseList desc) (wfStart pid st)).1 pid =
        some ⟨p.id, p.name, p.description, "running"⟩ := by
      simp only [findProject, runPhases_projects]
      simpa [wfStart, addLog, findProject, setStatus] using
        find?_setStatusList_self pid "running" st.projects p hproj
    refine ⟨?_, by rw [hW], ?_⟩
    · rw [hW]
      rw [statusOf_addLog]
      exact statusOf_setStatus_self _ pid "failed" _ hproj_run
    · rw [hW]
      rw [addLog_logs]
      exact List.getLast?_concat _

/-- C4, witness: both top-level exception routes at concrete inputs. -/
theorem c4_witness :
    findProject emptyStore "missing" = none ∧
    executeWorkflow true (fun _ => .ok "x") "missing" "d" emptyStore =
      ⟨addLog emptyStore "missing" "Orchestrator" "info"
         "❌ Workflow failed: Project not found",
       .error "Project not found", [], []⟩ := by
  refine ⟨rfl, ?_⟩
  exact (c4_top_level_catch_reraises true (fun _ => .ok "x") "missing" "d"
    emptyStore).1 rfl

/-- C4, counterexample to the claim as stated: the workflow call on a
missing project, and the one with a failing first phase, both end by
re-raising — the exception propagates onward instead of being swallowed
after reporting. -/
theorem c4_counterexample :
    (executeWorkflow true (fun _ => .ok "x") "p" "d" emptyStore).outcome =
      .error "Project not found" ∧
    (executeWorkflow true (fun _ => .error "boom") "p" "d"
        (createProject "p" "n" "d" emptyStore)).outcome =
      .error "ProductManager phase failed" := by
  exact ⟨rfl, rfl⟩

/-- C8.  Corrected form.  `create_project` initializes status to
`initializing`; a workflow run on a missing project writes no status at
all; a workflow run on an existing project always writes `running`
first — whatever the current status, including `completed` and `failed`,
which are therefore not terminal — and then exactly one of `completed`
or `failed`, which is also the final observable status. -/
theorem c8_status_transitions (hm : Bool)
    (oracle : String → Except String String) (pid name desc : String)
    (st : Store) :
    ((createProject pid name desc st).projects =
      st.projects ++ [⟨pid, name, desc, "initializing"⟩]) ∧
    (findProject st pid = none →
      (executeWorkflow hm oracle pid desc st).statusWrites = []) ∧
    (∀ p, findProject st pid = some p →
      ∃ fin, (fin = "completed" ∨ fin = "failed") ∧
        (executeWorkflow hm oracle pid desc st).statusWrites =
          ["running", fin] ∧
        statusOf (executeWorkflow hm oracle pid desc st).store pid =
          some fin) := by
  refine ⟨rfl, ?_, ?_⟩
  · intro h
    simp [executeWorkflow, h]
  · intro p hproj
    have hproj_run : findProject
        (runPhases hm oracle pid (phaseList desc) (wfStart pid st)).1 pid =
        some ⟨p.id, p.name, p.description, "running"⟩ := by
      simp only [findProject, runPhases_projects]
      simpa [wfStart, addLog, findProject, setStatus] using
        find?_setStatusList_self pid "running" st.projects p hproj
    rcases hout : (runPhases hm oracle pid (phaseList desc)
        (wfStart pid st)).2.1 with _ | role
    · refine ⟨"completed", Or.inl rfl, ?_, ?_⟩
      · simp [executeWorkflow, hproj, hout]
      · have hW : executeWorkflow hm oracle pid desc st =
            ⟨addLog (setStatus (runPhases hm oracle pid (phaseList desc)
                (wfStart pid st)).1 pid "completed") pid "Orchestrator" "info"
                "✅ Project generation completed successfully!",
             .ok (), (runPhases hm oracle pid (phaseList desc)
                (wfStart pid st)).2.2, ["running", "completed"]⟩ := by
          simp only [executeWorkflow, hproj, hout]
        rw [hW]
        rw [statusOf_addLog]
        exact statusOf_setStatus_self _ pid "completed" _ hproj_run
    · refine ⟨"failed", Or.inr rfl, ?_, ?_⟩
      · simp [executeWorkflow, hproj, hout]
      · have hW : executeWorkflow hm oracle pid desc st =
            ⟨addLog (setStatus (runPhases hm oracle pid (phaseList desc)
                (wfStart pid st)).1 pid "failed") pid "Orchestrator" "info"
                ("❌ Workflow failed: " ++ role ++ " phase failed"),
             .error (role ++ " phase failed"),
             (runPhases hm oracle pid (phaseList desc) (wfStart pid st)).2.2,
             ["running", "failed"]⟩ := by
          simp only [executeWorkflow, hproj, hout]
        rw [hW]
        rw [statusOf_addLog]
        exact statusOf_setStatus_self _ pid "failed" _ hproj_run

/-- C8, witness: a fresh project built with an all-success oracle writes
`running` then `completed`. -/
theorem c8_witness :
    findProject (createProject "p" "n" "d" emptyStore) "p" =
      some ⟨"p", "n", "d", "initializing"⟩ ∧
    ∃ fin, (fin = "completed" ∨ fin = "failed") ∧
      (executeWorkflow true (fun _ => .ok "x") "p" "d"
        (createProject "p" "n" "d" emptyStore)).statusWrites =
        ["running", fin] ∧
      statusOf (executeWorkflow true (fun _ => .ok "x") "p" "d"
        (createProject "p" "n" "d" emptyStore)).store "p" = some fin := by
  refine ⟨rfl, ?_⟩
  exact (c8_status_transitions true (fun _ => .ok "x") "p" "n" "d"
    (createProject "p" "n" "d" emptyStore)).2.2
    ⟨"p", "n", "d", "initializing"⟩ rfl

/-- C8, counterexample to the claim as stated: `completed` is not
terminal — a second `start_build` on the completed project runs the
workflow again, and a failing oracle then moves the status to `failed`. -/
theorem c8_counterexample :
    statusOf (applyOp (.build true (fun _ => .ok "x") "p")
      (createProject "p" "n" "d" emptyStore)) "p" = some "completed" ∧
    statusOf (applyOp (.build true (fun _ => .error "boom") "p")
      (applyOp (.build true (fun _ => .ok "x") "p")
        (createProject "p" "n" "d" emptyStore))) "p" = some "failed" ∧
    ("failed" : String) ≠ "completed" := by
  exact ⟨by decide, by decide, by decide⟩

/-! ## Cross-project frame lemmas for C9 -/

theorem filter_upsertSM_ne (pid key : String) (v : JVal) (q : String)
    (hne : pid ≠ q) (l : List SMEntry) :
    (upsertSM pid key v l).filter (fun e => e.projectId = q) =
      l.filter (fun e => e.projectId = q) := by
  induction l with
  | nil => simp [upsertSM, List.filter_cons, hne]
  | cons e rest ih =>
    simp only [upsertSM]
    by_cases hc : (e.projectId = pid && e.key = key) = true
    · rw [if_pos hc]
      simp only [Bool.and_eq_true, decide_eq_true_eq] at hc
      have hq : ¬ (e.projectId = q) := by
        rw [hc.1]
        exact hne
      simp [List.filter_cons, hq]
    · rw [if_neg hc]
      simp only [List.filter_cons]
      rw [ih]

theorem filter_foldUpsertSM_ne (pid : String) (ups : List (String × JVal))
    (q : String) (hne : pid ≠ q) (l : List SMEntry) :
    (ups.foldl (fun m kv => upsertSM pid kv.1 kv.2 m) l).filter
      (fun e => e.projectId = q) = l.filter (fun e => e.projectId = q) := by
  induction ups generalizing l with
  | nil => rfl
  | cons u rest ih =>
    simp only [List.foldl_cons]
    rw [ih, filter_upsertSM_ne pid u.1 u.2 q hne]

theorem filter_upsertFile_ne (pid pth content : String) (q : String)
    (hne : pid ≠ q) (l : List FileEntry) :
    (upsertFile pid pth content l).filter (fun e => e.projectId = q) =
      l.filter (fun e => e.projectId = q) := by
  induction l with
  | nil => simp [upsertFile, List.filter_cons, hne]
  | cons e rest ih =>
    simp only [upsertFile]
    by_cases hc : (e.projectId = pid && e.path = pth) = true
    · rw [if_pos hc]
      simp only [Bool.and_eq_true, decide_eq_true_eq] at hc
      have hq : ¬ (e.projectId = q) := by
        rw [hc.1]
        exact hne
      simp [List.filter_cons, hq]
    · rw [if_neg hc]
      simp only [List.filter_cons]
      rw [ih]

theorem filter_foldUpsertFile_ne (pid : String) (fps : List (String × String))
    (q : String) (hne : pid ≠ q) (l : List FileEntry) :
    (fps.foldl (fun m pc => upsertFile pid pc.1 pc.2 m) l).filter
      (fun e => e.projectId = q) = l.filter (fun e => e.projectId = q) := by
  induction fps generalizing l with
  | nil => rfl
  | cons u rest ih =>
    simp only [List.foldl_cons]
    rw [ih, filter_upsertFile_ne pid u.1 u.2 q hne]

theorem logView_addLog_ne (st : Store) (pid agent level msg q : String)
    (hne : pid ≠ q) :
    logView q (addLog st pid agent level msg) = logView q st := by
  simp [logView, addLog, List.filter_append, List.filter_cons, hne]

theorem agentExecute_true_error (role s0 pid task : String)
    (mr : Except String String) (st : Store) (e : String) (stE : Store)
    (h : tryBody role pid mr st = .error (e, stE)) :
    agentExecute true role s0 pid task mr st =
      (addLog stE pid role "error" ("❌ Error: " ++ e), "error",
       ⟨false, "Error: " ++ e, [], []⟩) := by
  simp [agentExecute, h]

theorem agentExecute_true_ok (role s0 pid task : String)
    (mr : Except String String) (st : Store) (st' : Store) (tr : TaskResult)
    (h : tryBody role pid mr st = .ok (st', tr)) :
    agentExecute true role s0 pid task mr st = (st', "idle", tr) := by
  simp [agentExecute, h]

/-- One agent execution under project `pid` leaves every view of a
different project untouched. -/
theorem agentExecute_frame (hm : Bool) (role s0 pid task : String)
    (mr : Except String String) (st : Store) (q : String) (hne : pid ≠ q) :
    smView q (agentExecute hm role s0 pid task mr st).1 = smView q st ∧
    fileView q (agentExecute hm role s0 pid task mr st).1 = fileView q st ∧
    logView q (agentExecute hm role s0 pid task mr st).1 = logView q st := by
  have hsm : ∀ ups stx, smView q (applySM pid ups stx) = smView q stx := by
    intro ups stx
    simp only [smView, applySM]
    exact filter_foldUpsertSM_ne pid ups q hne stx.sharedMemory
  have hfl : ∀ fps stx, fileView q (applyFiles pid fps stx) = fileView q stx := by
    intro fps stx
    simp only [fileView, applyFiles]
    exact filter_foldUpsertFile_ne pid fps q hne stx.files
  have hcommits : ∀ ups fps pv,
      smView q (addLog (applyFiles pid fps (applySM pid ups st)) pid role
        "success" ("✅ Completed: " ++ pv)) = smView q st ∧
      fileView q (addLog (applyFiles pid fps (applySM pid ups st)) pid role
        "success" ("✅ Completed: " ++ pv)) = fileView q st ∧
      logView q (addLog (applyFiles pid fps (applySM pid ups st)) pid role
        "success" ("✅ Completed: " ++ pv)) = logView q st := by
    intro ups fps pv
    refine ⟨?_, ?_, ?_⟩
    · rw [show smView q (addLog (applyFiles pid fps (applySM pid ups st)) pid
        role "success" ("✅ Completed: " ++ pv)) =
        smView q (applySM pid ups st) from rfl]
      exact hsm ups st
    · rw [show fileView q (addLog (applyFiles pid fps (applySM pid ups st)) pid
        role "success" ("✅ Completed: " ++ pv)) =
        fileView q (applyFiles pid fps (applySM pid ups st)) from rfl]
      rw [hfl fps (applySM pid ups st)]
      rfl
    · rw [logView_addLog_ne _ pid role "success" _ q hne]
      rfl
  rcases hm with _ | _
  · exact ⟨rfl, rfl, rfl⟩
  · rcases h : tryBody role pid mr st with ⟨e, stE⟩ | ⟨st', tr⟩
    · rw [agentExecute_true_error role s0 pid task mr st e stE h]
      have hstE : smView q stE = smView q st ∧ fileView q stE = fileView q st ∧
          logView q stE = logView q st := by
        rcases (tryBody_shapes role pid mr st).2 e stE h with h1 | ⟨ups, h1⟩ |
          ⟨ups, fps, h1⟩ | ⟨ups, fps, pv, h1⟩ <;> subst h1
        · exact ⟨rfl, rfl, rfl⟩
        · exact ⟨hsm ups st, rfl, rfl⟩
        · refine ⟨?_, ?_, rfl⟩
          · rw [show smView q (applyFiles pid fps (applySM pid ups st)) =
              smView q (applySM pid ups st) from rfl]
            exact hsm ups st
          · rw [hfl fps (applySM pid ups st)]
            rfl
        · exact hcommits ups fps pv
      refine ⟨?_, ?_, ?_⟩
      · rw [show smView q ((addLog stE pid role "error" ("❌ Error: " ++ e),
          "error", (⟨false, "Error: " ++ e, [], []⟩ : TaskResult)).1) =
          smView q stE from rfl]
        exact hstE.1
      · rw [show fileView q ((addLog stE pid role "error" ("❌ Error: " ++ e),
          "error", (⟨false, "Error: " ++ e, [], []⟩ : TaskResult)).1) =
          fileView q stE from rfl]
        exact hstE.2.1
      · rw [show (addLog stE pid role "error" ("❌ Error: " ++ e), "error",
          (⟨false, "Error: " ++ e, [], []⟩ : TaskResult)).1 =
          addLog stE pid role "error" ("❌ Error: " ++ e) from rfl]
        rw [logView_addLog_ne stE pid role "error" _ q hne]
        exact hstE.2.2
    · rw [agentExecute_true_ok role s0 pid task mr st st' tr h]
      rcases (tryBody_shapes role pid mr st).1 st' tr h with ⟨ups, fps, pv, h1⟩
      subst h1
      exact hcommits ups fps pv

theorem runPhases_frame (hm : Bool) (oracle : String → Except String String)
    (pid : String) (l : List (String × String × String)) (st : Store)
    (q : String) (hne : pid ≠ q) :
    smView q (runPhases hm oracle pid l st).1 = smView q st ∧
    fileView q (runPhases hm oracle pid l st).1 = fileView q st ∧
    logView q (runPhases hm oracle pid l st).1 = logView q st := by
  induction l generalizing st with
  | nil => exact ⟨rfl, rfl, rfl⟩
  | cons ph rest ih =>
    rcases ph with ⟨role, label, task⟩
    simp only [runPhases]
    have hae := agentExecute_frame hm role "idle" pid task (oracle role)
      (addLog st pid role "info" label) q hne
    have hal : smView q (addLog st pid role "info" label) = smView q st ∧
        fileView q (addLog st pid role "info" label) = fileView q st ∧
        logView q (addLog st pid role "info" label) = logView q st :=
      ⟨rfl, rfl, logView_addLog_ne st pid role "info" label q hne⟩
    split
    · rcases ih ((agentExecute hm role "idle" pid task (oracle role)
        (addLog st pid role "info" label)).1) with ⟨i1, i2, i3⟩
      refine ⟨?_, ?_, ?_⟩
      · rw [i1, hae.1, hal.1]
      · rw [i2, hae.2.1, hal.2.1]
      · rw [i3, hae.2.2, hal.2.2]
    · refine ⟨?_, ?_, ?_⟩
      · rw [hae.1, hal.1]
      · rw [hae.2.1, hal.2.1]
      · rw [hae.2.2, hal.2.2]

theorem executeWorkflow_frame (hm : Bool)
    (oracle : String → Except String String) (pid desc : String) (st : Store)
    (q : String) (hne : pid ≠ q) :
    smView q (executeWorkflow hm oracle pid desc st).store = smView q st ∧
    fileView q (executeWorkflow hm oracle pid desc st).store = fileView q st ∧
    logView q (executeWorkflow hm oracle pid desc st).store = logView q st := by
  have hws : smView q (wfStart pid st) = smView q st ∧
      fileView q (wfStart pid st) = fileView q st ∧
      logView q (wfStart pid st) = logView q st := by
    refine ⟨rfl, rfl, ?_⟩
    rw [show wfStart pid st = addLog (setStatus st pid "running") pid
      "Orchestrator" "info" "🚀 Starting autonomous development workflow"
      from rfl]
    rw [logView_addLog_ne _ pid "Orchestrator" _ _ q hne]
    rfl
  rcases hproj : findProject st pid with _ | p
  · simp only [executeWorkflow, hproj]
    exact ⟨rfl, rfl, logView_addLog_ne st pid "Orchestrator" "info" _ q hne⟩
  · have hrp := runPhases_frame hm oracle pid (phaseList desc)
      (wfStart pid st) q hne
    rcases hout : (runPhases hm oracle pid (phaseList desc)
        (wfStart pid st)).2.1 with _ | role
    · simp only [executeWorkflow, hproj, hout]
      refine ⟨?_, ?_, ?_⟩
      · rw [show smView q (addLog (setStatus (runPhases hm oracle pid
          (phaseList desc) (wfStart pid st)).1 pid "completed") pid
          "Orchestrator" "info" "✅ Project generation completed successfully!")
          = smView q (runPhases hm oracle pid (phaseList desc)
            (wfStart pid st)).1 from rfl]
        rw [hrp.1, hws.1]
      · rw [show fileView q (addLog (setStatus (runPhases hm oracle pid
          (phaseList desc) (wfStart pid st)).1 pid "completed") pid
          "Orchestrator" "info" "✅ Project generation completed successfully!")
          = fileView q (runPhases hm oracle pid (phaseList desc)
            (wfStart pid st)).1 from rfl]
        rw [hrp.2.1, hws.2.1]
      · rw [logView_addLog_ne _ pid "Orchestrator" _ _ q hne]
        rw [show logView q (setStatus (runPhases hm oracle pid
          (phaseList desc) (wfStart pid st)).1 pid "completed") =
          logView q (runPhases hm oracle pid (phaseList desc)
            (wfStart pid st)).1 from rfl]
        rw [hrp.2.2, hws.2.2]
    · simp only [executeWorkflow, hproj, hout]
      refine ⟨?_, ?_, ?_⟩
      · rw [show smView q (addLog (setStatus (runPhases hm oracle pid
          (phaseList desc) (wfStart pid st)).1 pid "failed") pid
          "Orchestrator" "info"
          ("❌ Workflow failed: " ++ role ++ " phase failed"))
          = smView q (runPhases hm oracle pid (phaseList desc)
            (wfStart pid st)).1 from rfl]
        rw [hrp.1, hws.1]
      · rw [show fileView q (addLog (setStatus (runPhases hm oracle pid
          (phaseList desc) (wfStart pid st)).1 pid "failed") pid
          "Orchestrator" "info"
          ("❌ Workflow failed: " ++ role ++ " phase failed"))
          = fileView q (runPhases hm oracle pid (phaseList desc)
            (wfStart pid st)).1 from rfl]
        rw [hrp.2.1, hws.2.1]
      · rw [logView_addLog_ne _ pid "Orchestrator" _ _ q hne]
        rw [show logView q (setStatus (runPhases hm oracle pid
          (phaseList desc) (wfStart pid st)).1 pid "failed") =
          logView q (runPhases hm oracle pid (phaseList desc)
            (wfStart pid st)).1 from rfl]
        rw [hrp.2.2, hws.2.2]

theorem applyOp_frame (op : Op) (st : Store) (q : String)
    (hne : Op.pid op ≠ q) :
    smView q (applyOp op st) = smView q st ∧
    fileView q (applyOp op st) = fileView q st ∧
    logView q (applyOp op st) = logView q st := by
  rcases op with ⟨pid, name, desc⟩ | ⟨hm, oracle, pid⟩ |
    ⟨hm, role, s0, pid, task, mr⟩
  · exact ⟨rfl, rfl, rfl⟩
  · simp only [Op.pid] at hne
    simp only [applyOp]
    rcases hproj : findProject st pid with _ | p
    · exact ⟨rfl, rfl, rfl⟩
    · exact executeWorkflow_frame hm oracle pid p.description st q hne
  · simp only [Op.pid] at hne
    exact agentExecute_frame hm role s0 pid task mr st q hne

/-- C9.  Confirmed.  Every store read scoped to a project `q` — its
shared-memory view, file view, and log view — is unaffected by any
interleaved sequence of operations (project creations, builds, agent
executions) performed under other project ids: all reads and writes are
scoped by project id. -/
theorem c9_cross_project_isolation (ops : List Op) (st : Store) (q : String)
    (h : ∀ op ∈ ops, Op.pid op ≠ q) :
    smView q (applyOps ops st) = smView q st ∧
    fileView q (applyOps ops st) = fileView q st ∧
    logView q (applyOps ops st) = logView q st := by
  induction ops generalizing st with
  | nil => exact ⟨rfl, rfl, rfl⟩
  | cons op rest ih =>
    have h1 := applyOp_frame op st q (h op (List.mem_cons_self _ _))
    rcases ih (applyOp op st) (fun o ho => h o (List.mem_cons_of_mem _ ho))
      with ⟨i1, i2, i3⟩
    refine ⟨?_, ?_, ?_⟩
    · rw [show applyOps (op :: rest) st = applyOps rest (applyOp op st)
        from rfl]
      rw [i1, h1.1]
    · rw [show applyOps (op :: rest) st = applyOps rest (applyOp op st)
        from rfl]
      rw [i2, h1.2.1]
    · rw [show applyOps (op :: rest) st = applyOps rest (applyOp op st)
        from rfl]
      rw [i3, h1.2.2]

/-- C9, witness: a full build of project `"b"` interleaved with an agent
execution under `"b"` leaves project `"a"`'s populated views untouched. -/
theorem c9_witness :
    (∀ op ∈ ([Op.build true (fun _ => .ok "x") "b",
        Op.exec true "QAEngineer" "idle" "b" "t" (.ok "x")] : List Op),
      Op.pid op ≠ "a") ∧
    smView "a" (applyOps
        [Op.build true (fun _ => .ok "x") "b",
         Op.exec true "QAEngineer" "idle" "b" "t" (.ok "x")]
        ⟨[⟨"a", "n", "d", "initializing"⟩, ⟨"b", "n", "d", "initializing"⟩],
         [⟨"a", "k", .jstr "w"⟩], [⟨"a", "/f.txt", "c", 1⟩],
         [⟨"a", "Orchestrator", "info", "m"⟩]⟩) =
      [⟨"a", "k", .jstr "w"⟩] := by
  have hops : ∀ op ∈ ([Op.build true (fun _ => .ok "x") "b",
      Op.exec true "QAEngineer" "idle" "b" "t" (.ok "x")] : List Op),
      Op.pid op ≠ "a" := by
    intro op hop
    rcases List.mem_cons.mp hop with rfl | hop2
    · decide
    · rcases List.mem_singleton.mp hop2 with rfl
      decide
  refine ⟨hops, ?_⟩
  rw [(c9_cross_project_isolation _ _ "a" hops).1]
  rfl

/-! ## Locality of the token scanners, for C7.  Each lemma says a
scanner consumes a prefix of its input and behaves identically when the
unconsumed rest is truncated to any of its prefixes. -/

theorem stopsP_of_prefix (p : Char → Bool) (B₀ B : List Char) (h : B₀ <+: B)
    (hs : stopsP p B) : stopsP p B₀ := by
  rcases B₀ with _ | ⟨c, t₀⟩
  · exact Or.inl rfl
  · rcases hs with hB | ⟨c', t, hB, hc⟩
    · subst hB
      rcases h with ⟨s, hs2⟩
      simp at hs2
    · subst hB
      rcases h with ⟨s, hs2⟩
      simp only [List.cons_append, List.cons.injEq] at hs2
      exact Or.inr ⟨c, t₀, rfl, hs2.1 ▸ hc⟩

theorem stopsP_dropWhile (p : Char → Bool) (l : List Char) :
    stopsP p (l.dropWhile p) := by
  induction l with
  | nil => exact Or.inl rfl
  | cons c t ih =>
    rw [List.dropWhile_cons]
    by_cases hc : p c = true
    · simp only [hc, if_true]
      exact ih
    · simp only [hc, if_false]
      exact Or.inr ⟨c, t, rfl, by simpa using hc⟩

theorem takeWhile_append_stops (p : Char → Bool) (A B : List Char)
    (hA : ∀ a ∈ A, p a = true) (hB : stopsP p B) :
    (A ++ B).takeWhile p = A := by
  induction A with
  | nil =>
    rcases hB with h | ⟨c, t, h, hc⟩
    · subst h; rfl
    · subst h
      simp [List.takeWhile_cons, hc]
  | cons a A' ih =>
    have ha := hA a (List.mem_cons_self _ _)
    simp only [List.cons_append, List.takeWhile_cons, ha, if_true]
    rw [ih (fun x hx => hA x (List.mem_cons_of_mem _ hx))]

theorem dropWhile_append_stops (p : Char → Bool) (A B : List Char)
    (hA : ∀ a ∈ A, p a = true) (hB : stopsP p B) :
    (A ++ B).dropWhile p = B := by
  induction A with
  | nil =>
    rcases hB with h | ⟨c, t, h, hc⟩
    · subst h; rfl
    · subst h
      simp [List.dropWhile_cons, hc]
  | cons a A' ih =>
    have ha := hA a (List.mem_cons_self _ _)
    simp only [List.cons_append, List.dropWhile_cons, ha, if_true]
    exact ih (fun x hx => hA x (List.mem_cons_of_mem _ hx))

theorem prefix_append_both (a x y : List Char) (h : x <+: y) :
    (a ++ x) <+: (a ++ y) := by
  rcases h with ⟨t, rfl⟩
  exact ⟨t, by simp⟩

/-- Locality of `scanInt`. -/
theorem scanInt_M (cs : List Char) (ip T : List Char)
    (h : scanInt cs = some (ip, T)) :
    cs = ip ++ T ∧ ip ≠ [] ∧ (∀ d ∈ ip, isDigit d = true) ∧
      ∀ T₀, T₀ <+: T → scanInt (ip ++ T₀) = some (ip, T₀) := by
  rcases cs with _ | ⟨c, t⟩
  · simp [scanInt] at h
  · simp only [scanInt] at h
    by_cases hc0 : c = '0'
    · rw [if_pos hc0] at h
      simp only [Option.some.injEq, Prod.mk.injEq] at h
      subst hc0
      rcases h with ⟨h1, h2⟩
      subst h1; subst h2
      refine ⟨rfl, by simp, by simp [isDigit], ?_⟩
      intro T₀ _
      simp [scanInt]
    · rw [if_neg hc0] at h
      by_cases hcd : isDigit c = true
      · rw [if_pos hcd] at h
        simp only [Option.some.injEq, Prod.mk.injEq] at h
        rcases h with ⟨h1, h2⟩
        subst h1; subst h2
        refine ⟨?_, by simp, ?_, ?_⟩
        · simp [List.takeWhile_append_dropWhile]
        · intro d hd
          rcases List.mem_cons.mp hd with rfl | hd2
          · exact hcd
          · exact List.mem_takeWhile_imp hd2
        · intro T₀ hT₀
          have hstops : stopsP isDigit T₀ :=
            stopsP_of_prefix isDigit T₀ _ hT₀ (stopsP_dropWhile isDigit t)
          simp only [scanInt, List.cons_append]
          rw [if_neg hc0, if_pos hcd]
          rw [takeWhile_append_stops isDigit _ T₀
            (fun a ha => List.mem_takeWhile_imp ha) hstops]
          rw [dropWhile_append_stops isDigit _ T₀
            (fun a ha => List.mem_takeWhile_imp ha) hstops]
      · rw [if_neg hcd] at h
        simp at h

theorem takeWhile_eq_nil_of_prefix (p : Char → Bool) (t₀ t : List Char)
    (h : t₀ <+: t) (ht : t.takeWhile p = []) : t₀.takeWhile p = [] := by
  rcases t₀ with _ | ⟨c, tt⟩
  · rfl
  · rcases h with ⟨s, hs⟩
    subst hs
    simp only [List.cons_append, List.takeWhile_cons] at ht ⊢
    by_cases hc : p c = true
    · simp [hc] at ht
    · simp [hc]

/-- Locality of `scanFrac`. -/
theorem scanFrac_M (cs fp T : List Char) (h : scanFrac cs = (fp, T)) :
    cs = fp ++ T ∧ ∀ T₀, T₀ <+: T → scanFrac (fp ++ T₀) = (fp, T₀) := by
  rcases cs with _ | ⟨c, t⟩
  · simp only [scanFrac, Prod.mk.injEq] at h
    rcases h with ⟨h1, h2⟩
    subst h1; subst h2
    refine ⟨rfl, ?_⟩
    intro T₀ hT₀
    rw [List.prefix_nil.mp hT₀]
    rfl
  · by_cases hc : c = '.'
    · simp only [scanFrac, if_pos hc] at h
      by_cases hds : t.takeWhile isDigit = []
      · rw [if_pos hds] at h
        simp only [Prod.mk.injEq] at h
        rcases h with ⟨h1, h2⟩
        subst h1; subst h2
        refine ⟨rfl, ?_⟩
        intro T₀ hT₀
        rcases T₀ with _ | ⟨c₀, t₀⟩
        · rfl
        · rcases hT₀ with ⟨s, hs⟩
          simp only [List.cons_append, List.cons.injEq] at hs
          rcases hs with ⟨rfl, hs2⟩
          have ht₀ : t₀.takeWhile isDigit = [] :=
            takeWhile_eq_nil_of_prefix isDigit t₀ t ⟨s, hs2⟩ hds
          simp [scanFrac, if_pos hc, ht₀]
      · rw [if_neg hds] at h
        simp only [Prod.mk.injEq] at h
        rcases h with ⟨h1, h2⟩
        subst h1; subst h2
        subst hc
        constructor
        · simp [List.takeWhile_append_dropWhile]
        · intro T₀ hT₀
          have hstops : stopsP isDigit T₀ :=
            stopsP_of_prefix isDigit T₀ _ hT₀ (stopsP_dropWhile isDigit t)
          have htw := takeWhile_append_stops isDigit (t.takeWhile isDigit) T₀
            (fun a ha => List.mem_takeWhile_imp ha) hstops
          have hdw := dropWhile_append_stops isDigit (t.takeWhile isDigit) T₀
            (fun a ha => List.mem_takeWhile_imp ha) hstops
          simp only [scanFrac, List.cons_append, htw, hdw, if_pos rfl]
          rw [if_neg hds]
          simp
    · have hform : scanFrac (c :: t) = ([], c :: t) := by
        simp [scanFrac, hc]
      rw [hform] at h
      simp only [Prod.mk.injEq] at h
      rcases h with ⟨h1, h2⟩
      subst h1; subst h2
      refine ⟨rfl, ?_⟩
      intro T₀ hT₀
      rcases T₀ with _ | ⟨c₀, t₀⟩
      · rfl
      · rcases hT₀ with ⟨s, hs⟩
        simp only [List.cons_append, List.cons.injEq] at hs
        rcases hs with ⟨rfl, hs2⟩
        simp [scanFrac, hc]

theorem scanExp_cons_nosign (e c : Char) (rest : List Char)
    (he : (e = 'e' || e = 'E') = true) (hc : ¬((c = '+' || c = '-') = true)) :
    scanExp (e :: c :: rest) =
      (if (c :: rest).takeWhile isDigit = [] then ([], e :: c :: rest)
       else (e :: (c :: rest).takeWhile isDigit,
         (c :: rest).dropWhile isDigit)) := by
  simp only [scanExp]
  rw [if_pos he, if_neg hc]

/-- Locality of `scanExp`. -/
theorem scanExp_M (cs ep T : List Char) (h : scanExp cs = (ep, T)) :
    cs = ep ++ T ∧ ∀ T₀, T₀ <+: T → scanExp (ep ++ T₀) = (ep, T₀) := by
  rcases cs with _ | ⟨e, t⟩
  · simp only [scanExp, Prod.mk.injEq] at h
    rcases h with ⟨h1, h2⟩
    subst h1; subst h2
    exact ⟨rfl, fun T₀ hT₀ => by rw [List.prefix_nil.mp hT₀]; rfl⟩
  · by_cases he : (e = 'e' || e = 'E') = true
    · rcases t with _ | ⟨c, t'⟩
      · simp only [scanExp, if_pos he, Prod.mk.injEq] at h
        rcases h with ⟨h1, h2⟩
        subst h1; subst h2
        refine ⟨rfl, ?_⟩
        intro T₀ hT₀
        rcases T₀ with _ | ⟨c₀, t₀⟩
        · rfl
        · rcases hT₀ with ⟨s, hs⟩
          simp only [List.nil_append, List.cons_append, List.cons.injEq] at hs
          rcases hs with ⟨rfl, hs2⟩
          have h2 : t₀ = [] := by
            rcases t₀ with _ | _
            · rfl
            · simp at hs2
          subst h2
          simp [scanExp, if_pos he]
      · by_cases hc : (c = '+' || c = '-') = true
        · by_cases hds : t'.takeWhile isDigit = []
          · simp only [scanExp, if_pos he, if_pos hc, if_pos hds,
              Prod.mk.injEq] at h
            rcases h with ⟨h1, h2⟩
            subst h1; subst h2
            refine ⟨rfl, ?_⟩
            intro T₀ hT₀
            rcases T₀ with _ | ⟨e₀, t₀⟩
            · rfl
            · rcases hT₀ with ⟨s, hs⟩
              simp only [List.nil_append, List.cons_append,
                List.cons.injEq] at hs
              rcases hs with ⟨rfl, hs2⟩
              rcases t₀ with _ | ⟨c₀, t₀'⟩
              · simp [scanExp, if_pos he]
              · simp only [List.cons_append, List.cons.injEq] at hs2
                rcases hs2 with ⟨rfl, hs3⟩
                have ht₀ : t₀'.takeWhile isDigit = [] :=
                  takeWhile_eq_nil_of_prefix isDigit t₀' t' ⟨s, hs3⟩ hds
                simp only [List.nil_append, List.cons_append, scanExp]
                rw [if_pos he, if_pos hc, if_pos ht₀]
          · simp only [scanExp, if_pos he, if_pos hc, if_neg hds,
              Prod.mk.injEq] at h
            rcases h with ⟨h1, h2⟩
            subst h1; subst h2
            constructor
            · simp [List.takeWhile_append_dropWhile]
            · intro T₀ hT₀
              have hstops : stopsP isDigit T₀ :=
                stopsP_of_prefix isDigit T₀ _ hT₀ (stopsP_dropWhile isDigit t')
              have htw := takeWhile_append_stops isDigit (t'.takeWhile isDigit)
                T₀ (fun a ha => List.mem_takeWhile_imp ha) hstops
              have hdw := dropWhile_append_stops isDigit (t'.takeWhile isDigit)
                T₀ (fun a ha => List.mem_takeWhile_imp ha) hstops
              simp only [scanExp, List.cons_append, if_pos he, if_pos hc,
                htw, hdw]
              rw [if_neg hds]
        · by_cases hds : (c :: t').takeWhile isDigit = []
          · simp only [scanExp, if_pos he, if_neg hc] at h
            rw [if_pos hds] at h
            simp only [Prod.mk.injEq] at h
            rcases h with ⟨h1, h2⟩
            subst h1; subst h2
            refine ⟨rfl, ?_⟩
            intro T₀ hT₀
            rcases T₀ with _ | ⟨e₀, t₀⟩
            · rfl
            · rcases hT₀ with ⟨s, hs⟩
              simp only [List.nil_append, List.cons_append,
                List.cons.injEq] at hs
              rcases hs with ⟨rfl, hs2⟩
              rcases t₀ with _ | ⟨c₀, t₀'⟩
              · simp [scanExp, if_pos he]
              · simp only [List.cons_append, List.cons.injEq] at hs2
                rcases hs2 with ⟨rfl, hs3⟩
                have ht₀ : (c₀ :: t₀').takeWhile isDigit = [] :=
                  takeWhile_eq_nil_of_prefix isDigit (c₀ :: t₀') (c₀ :: t')
                    (by exact ⟨s, by simp [hs3]⟩) hds
                simp only [List.nil_append, List.cons_append, scanExp]
                rw [if_pos he, if_neg hc, if_pos ht₀]
          · simp only [scanExp, if_pos he, if_neg hc] at h
            rw [if_neg hds] at h
            simp only [Prod.mk.injEq] at h
            rcases h with ⟨h1, h2⟩
            subst h1; subst h2
            constructor
            · simp [List.takeWhile_append_dropWhile]
            · intro T₀ hT₀
              have hstops : stopsP isDigit T₀ :=
                stopsP_of_prefix isDigit T₀ _ hT₀
                  (stopsP_dropWhile isDigit (c :: t'))
              have htw := takeWhile_append_stops isDigit
                ((c :: t').takeWhile isDigit) T₀
                (fun a ha => List.mem_takeWhile_imp ha) hstops
              have hdw := dropWhile_append_stops isDigit
                ((c :: t').takeWhile isDigit) T₀
                (fun a ha => List.mem_takeWhile_imp ha) hstops
              have hcd : isDigit c = true := by
                by_contra hcd
                apply hds
                simp only [List.takeWhile_cons]
                simp [hcd]
              have hdecomp : (c :: t').takeWhile isDigit ++ T₀ =
                  c :: (t'.takeWhile isDigit ++ T₀) := by
                simp [List.takeWhile_cons, hcd]
              have hstep := scanExp_cons_nosign e c
                (t'.takeWhile isDigit ++ T₀) he hc
              rw [← hdecomp] at hstep
              simp only [List.cons_append]
              rw [hstep]
              rw [htw, hdw]
              rw [if_neg hds]
    · simp only [scanExp, if_neg he, Prod.mk.injEq] at h
      rcases h with ⟨h1, h2⟩
      subst h1; subst h2
      refine ⟨rfl, ?_⟩
      intro T₀ hT₀
      rcases T₀ with _ | ⟨e₀, t₀⟩
      · rfl
      · rcases hT₀ with ⟨s, hs⟩
        simp only [List.nil_append, List.cons_append, List.cons.injEq] at hs
        rcases hs with ⟨rfl, hs2⟩
        simp only [List.nil_append, scanExp]
        rw [if_neg he]

/-- Locality of `scanNumber`: it consumes exactly the literal, the
literal is nonempty and starts with a minus sign or a digit, and the
scan is unchanged when the unconsumed rest is truncated to any of its
prefixes. -/
theorem scanNumber_M (cs lit rest : List Char)
    (h : scanNumber cs = some (lit, rest)) :
    cs = lit ++ rest ∧ lit ≠ [] ∧
    (∃ c t, lit = c :: t ∧ (c = '-' ∨ isDigit c = true)) ∧
    ∀ r₀, r₀ <+: rest → scanNumber (lit ++ r₀) = some (lit, r₀) := by
  rcases cs with _ | ⟨c, t⟩
  · simp [scanNumber, scanSign, scanInt] at h
  · by_cases hcm : c = '-'
    · subst hcm
      have hsign : scanSign ('-' :: t) = (['-'], t) := by simp [scanSign]
      simp only [scanNumber, hsign] at h
      rcases hint : scanInt t with _ | ⟨ip, cs2⟩
      · rw [hint] at h
        simp at h
      · rw [hint] at h
        simp only [Option.some.injEq, Prod.mk.injEq] at h
        rcases scanInt_M t ip cs2 hint with ⟨hteq, hipne, _hipd, hirerun⟩
        rcases hfrac : scanFrac cs2 with ⟨fp, cs3⟩
        rw [hfrac] at h
        rcases scanFrac_M cs2 fp cs3 hfrac with ⟨hfeq, hfrerun⟩
        rcases hexp : scanExp cs3 with ⟨ep, T⟩
        rw [hexp] at h
        rcases scanExp_M cs3 ep T hexp with ⟨heeq, hererun⟩
        rcases h with ⟨h1, h2⟩
        subst h2
        have hlit : lit = '-' :: (ip ++ fp ++ ep) := by
          rw [← h1]
          simp
        constructor
        · rw [hlit, hteq, hfeq, heeq]
          simp
        refine ⟨by rw [hlit]; simp,
          ⟨'-', ip ++ fp ++ ep, by rw [hlit], Or.inl rfl⟩, ?_⟩
        intro r₀ hr₀
        rw [hlit]
        have hpre_e : (ep ++ r₀) <+: (ep ++ T) := prefix_append_both ep r₀ T hr₀
        have hint2 : scanInt (ip ++ (fp ++ (ep ++ r₀))) =
            some (ip, fp ++ (ep ++ r₀)) := by
          have hp : (fp ++ (ep ++ r₀)) <+: cs2 := by
            rw [hfeq, heeq]
            exact prefix_append_both fp _ _ hpre_e
          exact hirerun (fp ++ (ep ++ r₀)) hp
        have hfrac2 := hfrerun (ep ++ r₀) (by rw [heeq]; exact hpre_e)
        have hexp2 := hererun r₀ hr₀
        have hsign2 : scanSign ('-' :: (ip ++ fp ++ ep ++ r₀)) =
            (['-'], ip ++ fp ++ ep ++ r₀) := by simp [scanSign]
        simp only [List.cons_append, scanNumber, hsign2]
        rw [show ip ++ fp ++ ep ++ r₀ = ip ++ (fp ++ (ep ++ r₀)) by simp]
        simp [hint2, hfrac2, hexp2]
    · have hsign : scanSign (c :: t) = ([], c :: t) := by simp [scanSign, hcm]
      simp only [scanNumber, hsign] at h
      rcases hint : scanInt (c :: t) with _ | ⟨ip, cs2⟩
      · rw [hint] at h
        simp at h
      · rw [hint] at h
        simp only [Option.some.injEq, Prod.mk.injEq] at h
        rcases scanInt_M (c :: t) ip cs2 hint with ⟨hteq, hipne, hipd, hirerun⟩
        rcases hfrac : scanFrac cs2 with ⟨fp, cs3⟩
        rw [hfrac] at h
        rcases scanFrac_M cs2 fp cs3 hfrac with ⟨hfeq, hfrerun⟩
        rcases hexp : scanExp cs3 with ⟨ep, T⟩
        rw [hexp] at h
        rcases scanExp_M cs3 ep T hexp with ⟨heeq, hererun⟩
        rcases h with ⟨h1, h2⟩
        subst h2
        have hlit : lit = ip ++ fp ++ ep := by
          rw [← h1]
          simp
        rcases ip with _ | ⟨d, ipt⟩
        · exact absurd rfl hipne
        have hdd : isDigit d = true := hipd d (List.mem_cons_self _ _)
        constructor
        · rw [hlit, hteq, hfeq, heeq]
          simp
        refine ⟨by rw [hlit]; simp, ⟨d, ipt ++ fp ++ ep,
          by rw [hlit]; simp, Or.inr hdd⟩, ?_⟩
        intro r₀ hr₀
        rw [hlit]
        have hpre_e : (ep ++ r₀) <+: (ep ++ T) := prefix_append_both ep r₀ T hr₀
        have hint2 : scanInt ((d :: ipt) ++ (fp ++ (ep ++ r₀))) =
            some (d :: ipt, fp ++ (ep ++ r₀)) := by
          have hp : (fp ++ (ep ++ r₀)) <+: cs2 := by
            rw [hfeq, heeq]
            exact prefix_append_both fp _ _ hpre_e
          exact hirerun (fp ++ (ep ++ r₀)) hp
        have hfrac2 := hfrerun (ep ++ r₀) (by rw [heeq]; exact hpre_e)
        have hexp2 := hererun r₀ hr₀
        have hne : ¬ (d = '-') := by
          intro hd
          subst hd
          simp [isDigit] at hdd
        have hsign2 : scanSign (d :: (ipt ++ (fp ++ (ep ++ r₀)))) =
            ([], d :: (ipt ++ (fp ++ (ep ++ r₀)))) := by
          simp [scanSign, hne]
        have hshape : (d :: ipt) ++ fp ++ ep ++ r₀ =
            d :: (ipt ++ (fp ++ (ep ++ r₀))) := by simp
        rw [hshape]
        simp only [scanNumber, hsign2]
        rw [show d :: (ipt ++ (fp ++ (ep ++ r₀))) =
          (d :: ipt) ++ (fp ++ (ep ++ r₀)) by simp]
        rw [hint2]
        simp [hfrac2, hexp2]

/-- One-step unfolding of the string-body scanner on a cons cell. -/
theorem parseStrBody_cons (c : Char) (rest : List Char) :
    parseStrBody (c :: rest) =
      if c = '"' then some ([], rest)
      else if c = '\\' then parseEscSpec rest
      else if c.toNat < 32 then none
      else
        match parseStrBody rest with
        | some (s, r) => some (c :: s, r)
        | none => none := by
  rcases rest with _ | ⟨e, r1⟩
  · rw [parseStrBody.eq_2]
    rfl
  · rcases r1 with _ | ⟨a1, r2⟩
    · rw [parseStrBody.eq_4]
      · rfl
      · intro h1 h2 h3 h4 rest3 h
        simp at h
    · rcases r2 with _ | ⟨a2, r3⟩
      · rw [parseStrBody.eq_4]
        · rfl
        · intro h1 h2 h3 h4 rest3 h
          simp at h
      · rcases r3 with _ | ⟨a3, r4⟩
        · rw [parseStrBody.eq_4]
          · rfl
          · intro h1 h2 h3 h4 rest3 h
            simp at h
        · rcases r4 with _ | ⟨a4, r5⟩
          · rw [parseStrBody.eq_4]
            · rfl
            · intro h1 h2 h3 h4 rest3 h
              simp at h
          · rw [parseStrBody.eq_3]
            rfl

/-- Unfolding equation: a string body starting with the closing quote. -/
theorem parseStrBody_quote (rest : List Char) :
    parseStrBody ('"' :: rest) = some ([], rest) := by
  rw [parseStrBody_cons, if_pos rfl]

/-- Unfolding equation: a unicode escape at the head of a string body. -/
theorem parseStrBody_bsu (h1 h2 h3 h4 : Char) (rest3 : List Char) :
    parseStrBody ('\\' :: 'u' :: h1 :: h2 :: h3 :: h4 :: rest3) =
      match hexVal h1, hexVal h2, hexVal h3, hexVal h4 with
      | some a, some b, some c', some d =>
        match parseStrBody rest3 with
        | some (s, r) =>
          some (Char.ofNat (((a * 16 + b) * 16 + c') * 16 + d) :: s, r)
        | none => none
      | _, _, _, _ => none := by
  rw [parseStrBody_cons, if_neg (by decide : ¬('\\' = '"')),
    if_pos (rfl : '\\' = '\\')]
  rfl

/-- Unfolding equation: a simple escape at the head of a string body. -/
theorem parseStrBody_bse (e : Char) (he : ¬ e = 'u') (rest2 : List Char) :
    parseStrBody ('\\' :: e :: rest2) =
      match escChar e with
      | some ec =>
        match parseStrBody rest2 with
        | some (s, r) => some (ec :: s, r)
        | none => none
      | none => none := by
  rw [parseStrBody_cons, if_neg (by decide : ¬('\\' = '"')),
    if_pos (rfl : '\\' = '\\')]
  simp only [parseEscSpec]
  rw [if_neg he]

/-- Unfolding equation: an ordinary character at the head of a string body. -/
theorem parseStrBody_other (c : Char) (hq : ¬ c = '"') (hb : ¬ c = '\\')
    (hctl : ¬ c.toNat < 32) (rest : List Char) :
    parseStrBody (c :: rest) =
      match parseStrBody rest with
      | some (s, r) => some (c :: s, r)
      | none => none := by
  rw [parseStrBody_cons, if_neg hq, if_neg hb, if_neg hctl]

/-- Unfolding equation: a control character at the head of a string body. -/
theorem parseStrBody_ctl (c : Char) (hq : ¬ c = '"') (hb : ¬ c = '\\')
    (hctl : c.toNat < 32) (rest : List Char) :
    parseStrBody (c :: rest) = none := by
  rw [parseStrBody_cons, if_neg hq, if_neg hb, if_pos hctl]

/-- Locality of the string-body scanner, fuelled by an explicit length
bound for the induction: it consumes through the closing quote and never
inspects past it. -/
theorem parseStrBody_M_aux (n : Nat) : ∀ (cs : List Char), cs.length ≤ n →
    ∀ content rest, parseStrBody cs = some (content, rest) →
    ∃ con, cs = con ++ rest ∧ con ≠ [] ∧ con.getLast? = some '"' ∧
      ∀ r', parseStrBody (con ++ r') = some (content, r') := by
  induction n with
  | zero =>
    intro cs hlen content rest h
    have : cs = [] := List.length_eq_zero.mp (Nat.le_zero.mp hlen)
    subst this
    simp [parseStrBody] at h
  | succ n ih =>
    intro cs hlen content rest h
    rcases cs with _ | ⟨c, rest0⟩
    · simp [parseStrBody] at h
    · by_cases hq : c = '"'
      · subst hq
        rw [parseStrBody_quote] at h
        simp only [Option.some.injEq, Prod.mk.injEq] at h
        rcases h with ⟨h1, h2⟩
        subst h1
        subst h2
        refine ⟨['"'], rfl, by simp, rfl, ?_⟩
        intro r'
        exact parseStrBody_quote r'
      · by_cases hb : c = '\\'
        · subst hb
          rcases rest0 with _ | ⟨e, rest2⟩
          · simp [parseStrBody] at h
          · by_cases hu : e = 'u'
            · subst hu
              rcases rest2 with _ | ⟨h1, r2⟩
              · simp [parseStrBody] at h
              rcases r2 with _ | ⟨h2, r3⟩
              · simp [parseStrBody] at h
              rcases r3 with _ | ⟨h3, r4⟩
              · simp [parseStrBody] at h
              rcases r4 with _ | ⟨h4, rest3⟩
              · simp [parseStrBody] at h
              rw [parseStrBody_bsu] at h
              rcases hx1 : hexVal h1 with _ | a <;> rw [hx1] at h
              · simp at h
              rcases hx2 : hexVal h2 with _ | b <;> rw [hx2] at h
              · simp at h
              rcases hx3 : hexVal h3 with _ | a3 <;> rw [hx3] at h
              · simp at h
              rcases hx4 : hexVal h4 with _ | a4 <;> rw [hx4] at h
              · simp at h
              rcases hp : parseStrBody rest3 with _ | ⟨s, r⟩ <;> rw [hp] at h
              · simp at h
              · simp only [Option.some.injEq, Prod.mk.injEq] at h
                rcases h with ⟨hcon, hrest⟩
                rw [hrest] at hp
                have hlen3 : rest3.length ≤ n := by
                  simp only [List.length_cons] at hlen
                  omega
                rcases ih rest3 hlen3 s rest hp with
                  ⟨con3, hdecomp, hne3, hlast3, hrerun3⟩
                refine ⟨'\\' :: 'u' :: h1 :: h2 :: h3 :: h4 :: con3, ?_,
                  by simp, ?_, ?_⟩
                · rw [hdecomp]
                  simp
                · rw [show ('\\' :: 'u' :: h1 :: h2 :: h3 :: h4 :: con3) =
                    ['\\', 'u', h1, h2, h3, h4] ++ con3 from rfl,
                    List.getLast?_append_of_ne_nil]
                  · exact hlast3
                  · exact hne3
                · intro r'
                  simp only [List.cons_append]
                  rw [parseStrBody_bsu, hx1, hx2, hx3, hx4]
                  simp only [hrerun3 r']
                  rw [hcon]
            · rw [parseStrBody_bse e hu] at h
              rcases hesc : escChar e with _ | ec <;> rw [hesc] at h
              · simp at h
              · rcases hp : parseStrBody rest2 with _ | ⟨s, r⟩ <;> rw [hp] at h
                · simp at h
                · simp only [Option.some.injEq, Prod.mk.injEq] at h
                  rcases h with ⟨hcon, hrest⟩
                  rw [hrest] at hp
                  have hlen2 : rest2.length ≤ n := by
                    simp only [List.length_cons] at hlen
                    omega
                  rcases ih rest2 hlen2 s rest hp with
                    ⟨con2, hdecomp, hne2, hlast2, hrerun2⟩
                  refine ⟨'\\' :: e :: con2, ?_, by simp, ?_, ?_⟩
                  · rw [hdecomp]
                    simp
                  · rw [show ('\\' :: e :: con2) = ['\\', e] ++ con2 from rfl,
                      List.getLast?_append_of_ne_nil]
                    · exact hlast2
                    · exact hne2
                  · intro r'
                    simp only [List.cons_append]
                    rw [parseStrBody_bse e hu]
                    simp only [hesc, hrerun2 r']
                    rw [hcon]
        · by_cases hctl : c.toNat < 32
          · rw [parseStrBody_ctl c hq hb hctl] at h
            simp at h
          · rw [parseStrBody_other c hq hb hctl] at h
            rcases hp : parseStrBody rest0 with _ | ⟨s, r⟩ <;> rw [hp] at h
            · simp at h
            · simp only [Option.some.injEq, Prod.mk.injEq] at h
              rcases h with ⟨hcon, hrest⟩
              rw [hrest] at hp
              have hlen0 : rest0.length ≤ n := by
                simp only [List.length_cons] at hlen
                omega
              rcases ih rest0 hlen0 s rest hp with
                ⟨con0, hdecomp, hne0, hlast0, hrerun0⟩
              refine ⟨c :: con0, ?_, by simp, ?_, ?_⟩
              · rw [hdecomp]
                simp
              · rw [show (c :: con0) = [c] ++ con0 from rfl,
                  List.getLast?_append_of_ne_nil]
                · exact hlast0
                · exact hne0
              · intro r'
                simp only [List.cons_append]
                rw [parseStrBody_other c hq hb hctl]
                simp only [hrerun0 r']
                rw [hcon]

/-- Locality of the string-body scanner: the consumed prefix ends in the
closing quote, and rescanning it with any other suffix gives the same
content. -/
theorem parseStrBody_M (cs content rest : List Char)
    (h : parseStrBody cs = some (content, rest)) :
    ∃ con, cs = con ++ rest ∧ con ≠ [] ∧ con.getLast? = some '"' ∧
      ∀ r', parseStrBody (con ++ r') = some (content, r') :=
  parseStrBody_M_aux cs.length cs (Nat.le_refl _) content rest h

theorem stopsP_cons_of_head (p : Char → Bool) (c : Char) (t : List Char)
    (hc : p c = false) : stopsP p (c :: t) :=
  Or.inr ⟨c, t, rfl, hc⟩

theorem dropWhile_head_false (p : Char → Bool) (l : List Char) (c : Char)
    (r : List Char) (h : l.dropWhile p = c :: r) : p c = false := by
  have hs := stopsP_dropWhile p l
  rw [h] at hs
  rcases hs with h2 | ⟨c', t', heq, hc⟩
  · exact absurd h2 (by simp)
  · simp only [List.cons.injEq] at heq
    exact heq.1 ▸ hc

theorem skipJsonWs_append_stops (W B : List Char)
    (hW : ∀ a ∈ W, isJsonWs a = true) (hB : stopsP isJsonWs B) :
    skipJsonWs (W ++ B) = B :=
  dropWhile_append_stops isJsonWs W B hW hB

theorem afterKw_append (kw r : List Char) : afterKw kw (kw ++ r) = some r := by
  rw [afterKw, if_pos (List.isPrefixOf_iff_prefix.mpr (List.prefix_append kw r)),
    List.drop_left]

theorem afterKw_some (kw cs r : List Char) (h : afterKw kw cs = some r) :
    cs = kw ++ r := by
  rw [afterKw] at h
  by_cases hp : kw.isPrefixOf cs
  · rw [if_pos hp] at h
    simp only [Option.some.injEq] at h
    rcases List.isPrefixOf_iff_prefix.mp hp with ⟨t, rfl⟩
    rw [List.drop_left] at h
    rw [h]
  · rw [if_neg hp] at h
    simp at h

theorem parseVal_nil (f : Nat) : parseVal f [] = none := by
  cases f with
  | zero => exact parseVal.eq_1 []
  | succ f => exact parseVal.eq_2 f

theorem parseVal_brace_cons (f : Nat) (rest : List Char) (c2 : Char)
    (r2 : List Char) (hws : skipJsonWs rest = c2 :: r2) :
    parseVal (f + 1) ('\x7b' :: rest) =
      if c2 = '\x7d' then some (.jobj [], r2)
      else
        match parseMembers f (c2 :: r2) with
        | some (fs, r3) => some (.jobj (dictOf fs), r3)
        | none => none := by
  rw [parseVal.eq_3, if_pos rfl, hws]

theorem parseVal_brace_nil (f : Nat) (rest : List Char)
    (hws : skipJsonWs rest = []) : parseVal (f + 1) ('\x7b' :: rest) = none := by
  rw [parseVal.eq_3, if_pos rfl, hws]

theorem parseVal_bracket_cons (f : Nat) (rest : List Char) (c2 : Char)
    (r2 : List Char) (hws : skipJsonWs rest = c2 :: r2) :
    parseVal (f + 1) ('[' :: rest) =
      if c2 = ']' then some (.jarr [], r2)
      else
        match parseItems f (c2 :: r2) with
        | some (xs, r3) => some (.jarr xs, r3)
        | none => none := by
  rw [parseVal.eq_3, if_neg (by decide), if_pos rfl, hws]

theorem parseVal_bracket_nil (f : Nat) (rest : List Char)
    (hws : skipJsonWs rest = []) : parseVal (f + 1) ('[' :: rest) = none := by
  rw [parseVal.eq_3, if_neg (by decide), if_pos rfl, hws]

theorem parseVal_quote (f : Nat) (rest : List Char) :
    parseVal (f + 1) ('"' :: rest) =
      match parseStrBody rest with
      | some (s, r) => some (.jstr (String.mk s), r)
      | none => none := by
  rw [parseVal.eq_3, if_neg (by decide), if_neg (by decide), if_pos rfl]

theorem parseVal_t (f : Nat) (rest : List Char) :
    parseVal (f + 1) ('t' :: rest) =
      match afterKw "rue".data rest with
      | some r => some (.jbool true, r)
      | none => none := by
  rw [parseVal.eq_3, if_neg (by decide), if_neg (by decide),
    if_neg (by decide), if_pos rfl]

theorem parseVal_f (f : Nat) (rest : List Char) :
    parseVal (f + 1) ('f' :: rest) =
      match afterKw "alse".data rest with
      | some r => some (.jbool false, r)
      | none => none := by
  rw [parseVal.eq_3, if_neg (by decide), if_neg (by decide),
    if_neg (by decide), if_neg (by decide), if_pos rfl]

theorem parseVal_n (f : Nat) (rest : List Char) :
    parseVal (f + 1) ('n' :: rest) =
      match afterKw "ull".data rest with
      | some r => some (.jnull, r)
      | none => none := by
  rw [parseVal.eq_3, if_neg (by decide), if_neg (by decide),
    if_neg (by decide), if_neg (by decide), if_neg (by decide), if_pos rfl]

theorem parseVal_N (f : Nat) (rest : List Char) :
    parseVal (f + 1) ('N' :: rest) =
      match afterKw "aN".data rest with
      | some r => some (.jnum "NaN", r)
      | none => none := by
  rw [parseVal.eq_3, if_neg (by decide), if_neg (by decide),
    if_neg (by decide), if_neg (by decide), if_neg (by decide),
    if_neg (by decide), if_pos rfl]

theorem parseVal_I (f : Nat) (rest : List Char) :
    parseVal (f + 1) ('I' :: rest) =
      match afterKw "nfinity".data rest with
      | some r => some (.jnum "Infinity", r)
      | none => none := by
  rw [parseVal.eq_3, if_neg (by decide), if_neg (by decide),
    if_neg (by decide), if_neg (by decide), if_neg (by decide),
    if_neg (by decide), if_neg (by decide), if_pos rfl]

theorem parseVal_minusInf (f : Nat) (rest : List Char)
    (h : "Infinity".data.isPrefixOf rest = true) :
    parseVal (f + 1) ('-' :: rest) = some (.jnum "-Infinity", rest.drop 8) := by
  rw [parseVal.eq_3, if_neg (by decide), if_neg (by decide),
    if_neg (by decide), if_neg (by decide), if_neg (by decide),
    if_neg (by decide), if_neg (by decide), if_neg (by decide),
    if_pos (by simp [h])]

theorem parseVal_other (f : Nat) (c : Char) (rest : List Char)
    (h1 : ¬ c = '\x7b') (h2 : ¬ c = '[') (h3 : ¬ c = '"') (h4 : ¬ c = 't')
    (h5 : ¬ c = 'f') (h6 : ¬ c = 'n') (h7 : ¬ c = 'N') (h8 : ¬ c = 'I')
    (h9 : ¬ (c = '-' ∧ "Infinity".data.isPrefixOf rest = true)) :
    parseVal (f + 1) (c :: rest) =
      match scanNumber (c :: rest) with
      | some (lit, r) => some (.jnum (String.mk lit), r)
      | none => none := by
  rw [parseVal.eq_3, if_neg h1, if_neg h2, if_neg h3, if_neg h4, if_neg h5,
    if_neg h6, if_neg h7, if_neg h8, if_neg (by simpa using h9)]

theorem parseMembers_nil (f : Nat) : parseMembers f [] = none := by
  cases f with
  | zero => exact parseMembers.eq_1 []
  | succ f => exact parseMembers.eq_2 f

theorem parseMembers_notquote (f : Nat) (c : Char) (rest : List Char)
    (h : ¬ c = '"') : parseMembers (f + 1) (c :: rest) = none := by
  rw [parseMembers.eq_3, if_neg h]

theorem parseMembers_quote (f : Nat) (rest : List Char) :
    parseMembers (f + 1) ('"' :: rest) =
      match parseStrBody rest with
      | some (key, r1) =>
        match skipJsonWs r1 with
        | c2 :: r2 =>
          if c2 = ':' then
            match parseVal f (skipJsonWs r2) with
            | some (v, r3) =>
              match skipJsonWs r3 with
              | c3 :: r4 =>
                if c3 = ',' then
                  match parseMembers f (skipJsonWs r4) with
                  | some (fs, r5) => some ((String.mk key, v) :: fs, r5)
                  | none => none
                else if c3 = '\x7d' then some ([(String.mk key, v)], r4)
                else none
              | [] => none
            | none => none
          else none
        | [] => none
      | none => none := by
  rw [parseMembers.eq_3, if_pos rfl]

theorem parseItems_nil_fuel (cs : List Char) : parseItems 0 cs = none :=
  parseItems.eq_1 cs

theorem parseItems_succ (f : Nat) (cs : List Char) :
    parseItems (f + 1) cs =
      match parseVal f cs with
      | some (v, r1) =>
        match skipJsonWs r1 with
        | c2 :: r2 =>
          if c2 = ',' then
            match parseItems f (skipJsonWs r2) with
            | some (xs, r3) => some (v :: xs, r3)
            | none => none
          else if c2 = ']' then some ([v], r2)
          else none
        | [] => none
      | none => none :=
  parseItems.eq_2 cs f

theorem getLast?_append_singleton (A : List Char) (x : Char) :
    (A ++ [x]).getLast? = some x := by
  rw [List.getLast?_append_of_ne_nil]
  · rfl
  · simp





theorem parseMembers_quote2 (f : Nat) (rest0 key r1 : List Char)
    (hsb : parseStrBody rest0 = some (key, r1)) :
    parseMembers (f + 1) ('"' :: rest0) = membersAfterKey f key r1 := by
  rw [parseMembers_quote, hsb]
  rfl

theorem membersAfterKey_nil (f : Nat) (key r1 : List Char)
    (hws1 : skipJsonWs r1 = []) : membersAfterKey f key r1 = none := by
  simp only [membersAfterKey]
  rw [hws1]

theorem membersAfterKey_cons (f : Nat) (key r1 : List Char) (c2 : Char)
    (r2 : List Char) (hws1 : skipJsonWs r1 = c2 :: r2) :
    membersAfterKey f key r1 =
      if c2 = ':' then
        match parseVal f (skipJsonWs r2) with
        | some (v, r3) => membersTail f key v r3
        | none => none
      else none := by
  simp only [membersAfterKey]
  rw [hws1]

theorem membersTail_nil (f : Nat) (key : List Char) (v : JVal)
    (r3 : List Char) (hws3 : skipJsonWs r3 = []) :
    membersTail f key v r3 = none := by
  simp only [membersTail]
  rw [hws3]

theorem membersTail_cons (f : Nat) (key : List Char) (v : JVal)
    (r3 : List Char) (c3 : Char) (r4 : List Char)
    (hws3 : skipJsonWs r3 = c3 :: r4) :
    membersTail f key v r3 =
      if c3 = ',' then
        match parseMembers f (skipJsonWs r4) with
        | some (fs, r5) => some ((String.mk key, v) :: fs, r5)
        | none => none
      else if c3 = '\x7d' then some ([(String.mk key, v)], r4)
      else none := by
  simp only [membersTail]
  rw [hws3]



theorem parseItems_succ2 (f : Nat) (cs : List Char) (v : JVal)
    (r1 : List Char) (hv : parseVal f cs = some (v, r1)) :
    parseItems (f + 1) cs = itemsTail f v r1 := by
  rw [parseItems_succ, hv]
  rfl

theorem itemsTail_nil (f : Nat) (v : JVal) (r1 : List Char)
    (hws : skipJsonWs r1 = []) : itemsTail f v r1 = none := by
  simp only [itemsTail]
  rw [hws]

theorem itemsTail_cons (f : Nat) (v : JVal) (r1 : List Char) (c2 : Char)
    (r2 : List Char) (hws : skipJsonWs r1 = c2 :: r2) :
    itemsTail f v r1 =
      if c2 = ',' then
        match parseItems f (skipJsonWs r2) with
        | some (xs, r3) => some (v :: xs, r3)
        | none => none
      else if c2 = ']' then some ([v], r2)
      else none := by
  simp only [itemsTail]
  rw [hws]

/-- Locality of the mutual JSON parser: a successful parse consumes a
nonempty prefix, an object consumption runs from its opening to its
closing brace, and rescanning the consumed prefix before any prefix of
the old remainder (with enough fuel) gives the same value. -/
theorem parser_M (f : Nat) :
    (∀ cs v rest, parseVal f cs = some (v, rest) →
      ∃ con, cs = con ++ rest ∧ con ≠ [] ∧
        (∀ o, v = JVal.jobj o →
          (∃ t2, con = '\x7b' :: t2) ∧ con.getLast? = some '\x7d') ∧
        ∀ r₀, r₀ <+: rest → ∀ g, con.length < g →
          parseVal g (con ++ r₀) = some (v, r₀)) ∧
    (∀ cs fs rest, parseMembers f cs = some (fs, rest) →
      ∃ con, cs = con ++ rest ∧ con ≠ [] ∧ con.getLast? = some '\x7d' ∧
        ∀ r₀, r₀ <+: rest → ∀ g, con.length < g →
          parseMembers g (con ++ r₀) = some (fs, r₀)) ∧
    (∀ cs xs rest, parseItems f cs = some (xs, rest) →
      ∃ con, cs = con ++ rest ∧ con ≠ [] ∧
        ∀ r₀, r₀ <+: rest → ∀ g, con.length < g →
          parseItems g (con ++ r₀) = some (xs, r₀)) := by
  induction f with
  | zero =>
    refine ⟨?_, ?_, ?_⟩
    · intro cs v rest h
      rw [parseVal.eq_1] at h
      exact absurd h (by simp)
    · intro cs fs rest h
      rw [parseMembers.eq_1] at h
      exact absurd h (by simp)
    · intro cs xs rest h
      rw [parseItems.eq_1] at h
      exact absurd h (by simp)
  | succ f ih =>
    obtain ⟨ihV, ihM, ihI⟩ := ih
    refine ⟨?_, ?_, ?_⟩
    · -- parseVal
      intro cs v rest h
      rcases cs with _ | ⟨c, rest0⟩
      · rw [parseVal.eq_2] at h
        exact absurd h (by simp)
      · by_cases hc1 : c = '\x7b'
        · subst hc1
          rcases hws : skipJsonWs rest0 with _ | ⟨c2, r2⟩
          · rw [parseVal_brace_nil f rest0 hws] at h
            exact absurd h (by simp)
          · rw [parseVal_brace_cons f rest0 c2 r2 hws] at h
            have hc2f : isJsonWs c2 = false :=
              dropWhile_head_false isJsonWs rest0 c2 r2 hws
            have hdec0 : rest0.takeWhile isJsonWs ++ (c2 :: r2) = rest0 := by
              rw [← hws]
              exact List.takeWhile_append_dropWhile isJsonWs rest0
            by_cases hbr : c2 = '\x7d'
            · rw [if_pos hbr] at h
              simp only [Option.some.injEq, Prod.mk.injEq] at h
              obtain ⟨hv, hrest⟩ := h
              subst hbr
              refine ⟨'\x7b' :: (rest0.takeWhile isJsonWs ++ ['\x7d']), ?_,
                by simp, ?_, ?_⟩
              · rw [← hrest]
                conv_lhs => rw [← hdec0]
                simp
              · intro o ho
                refine ⟨⟨rest0.takeWhile isJsonWs ++ ['\x7d'], rfl⟩, ?_⟩
                rw [show '\x7b' :: (rest0.takeWhile isJsonWs ++ ['\x7d']) =
                  ('\x7b' :: rest0.takeWhile isJsonWs) ++ ['\x7d'] from rfl]
                exact getLast?_append_singleton _ _
              · intro r₀ hr₀ g hg
                obtain ⟨g', rfl⟩ : ∃ g', g = g' + 1 := ⟨g - 1, by omega⟩
                have hws2 : skipJsonWs
                    (rest0.takeWhile isJsonWs ++ ('\x7d' :: r₀)) =
                    '\x7d' :: r₀ :=
                  skipJsonWs_append_stops _ _
                    (fun a ha => List.mem_takeWhile_imp ha)
                    (stopsP_cons_of_head _ _ _ (by decide))
                rw [show ('\x7b' :: (rest0.takeWhile isJsonWs ++ ['\x7d'])) ++
                    r₀ = '\x7b' :: (rest0.takeWhile isJsonWs ++ ('\x7d' :: r₀))
                    from by simp]
                rw [parseVal_brace_cons g' _ '\x7d' r₀ hws2, if_pos rfl, ← hv]
            · rw [if_neg hbr] at h
              rcases hm : parseMembers f (c2 :: r2) with _ | ⟨fs, r3⟩
              · rw [hm] at h
                exact absurd h (by simp)
              · rw [hm] at h
                replace h : some (JVal.jobj (dictOf fs), r3) = some (v, rest) :=
                  h
                simp only [Option.some.injEq, Prod.mk.injEq] at h
                obtain ⟨hv, hrest⟩ := h
                obtain ⟨conM, hMdec, hMne, hMlast, hMrerun⟩ :=
                  ihM (c2 :: r2) fs r3 hm
                obtain ⟨conM', rfl⟩ : ∃ conM', conM = c2 :: conM' := by
                  rcases conM with _ | ⟨cm, conM'⟩
                  · exact absurd rfl hMne
                  · simp only [List.cons_append, List.cons.injEq] at hMdec
                    exact ⟨conM', by rw [hMdec.1]⟩
                have hMdec' : r2 = conM' ++ r3 := by
                  simpa using hMdec
                refine ⟨'\x7b' :: (rest0.takeWhile isJsonWs ++ (c2 :: conM')),
                  ?_, by simp, ?_, ?_⟩
                · rw [← hrest]
                  conv_lhs => rw [← hdec0]
                  rw [hMdec']
                  simp
                · intro o ho
                  refine ⟨⟨_, rfl⟩, ?_⟩
                  rw [show '\x7b' :: (rest0.takeWhile isJsonWs ++
                      (c2 :: conM')) = ('\x7b' :: rest0.takeWhile isJsonWs) ++
                      (c2 :: conM') from rfl]
                  rw [List.getLast?_append_of_ne_nil]
                  · exact hMlast
                  · simp
                · intro r₀ hr₀ g hg
                  obtain ⟨g', rfl⟩ : ∃ g', g = g' + 1 := ⟨g - 1, by omega⟩
                  have hws2 : skipJsonWs (rest0.takeWhile isJsonWs ++
                      (c2 :: (conM' ++ r₀))) = c2 :: (conM' ++ r₀) :=
                    skipJsonWs_append_stops _ _
                      (fun a ha => List.mem_takeWhile_imp ha)
                      (stopsP_cons_of_head _ _ _ hc2f)
                  rw [show ('\x7b' :: (rest0.takeWhile isJsonWs ++
                      (c2 :: conM'))) ++ r₀ = '\x7b' ::
                      (rest0.takeWhile isJsonWs ++ (c2 :: (conM' ++ r₀)))
                      from by simp]
                  rw [parseVal_brace_cons g' _ c2 (conM' ++ r₀) hws2,
                    if_neg hbr]
                  have hm2 : parseMembers g' ((c2 :: conM') ++ r₀) =
                      some (fs, r₀) := by
                    apply hMrerun r₀ (by rw [hrest]; exact hr₀)
                    simp only [List.length_cons, List.length_append] at hg ⊢
                    omega
                  rw [show c2 :: (conM' ++ r₀) = (c2 :: conM') ++ r₀ from rfl,
                    hm2, ← hv]
        · by_cases hc2 : c = '['
          · subst hc2
            rcases hws : skipJsonWs rest0 with _ | ⟨c2, r2⟩
            · rw [parseVal_bracket_nil f rest0 hws] at h
              exact absurd h (by simp)
            · rw [parseVal_bracket_cons f rest0 c2 r2 hws] at h
              have hc2f : isJsonWs c2 = false :=
                dropWhile_head_false isJsonWs rest0 c2 r2 hws
              have hdec0 : rest0.takeWhile isJsonWs ++ (c2 :: r2) = rest0 := by
                rw [← hws]
                exact List.takeWhile_append_dropWhile isJsonWs rest0
              by_cases hbr : c2 = ']'
              · rw [if_pos hbr] at h
                simp only [Option.some.injEq, Prod.mk.injEq] at h
                obtain ⟨hv, hrest⟩ := h
                subst hbr
                refine ⟨'[' :: (rest0.takeWhile isJsonWs ++ [']']), ?_,
                  by simp, ?_, ?_⟩
                · rw [← hrest]
                  conv_lhs => rw [← hdec0]
                  simp
                · intro o ho
                  exact absurd (hv.trans ho) (by simp)
                · intro r₀ hr₀ g hg
                  obtain ⟨g', rfl⟩ : ∃ g', g = g' + 1 := ⟨g - 1, by omega⟩
                  have hws2 : skipJsonWs
                      (rest0.takeWhile isJsonWs ++ (']' :: r₀)) =
                      ']' :: r₀ :=
                    skipJsonWs_append_stops _ _
                      (fun a ha => List.mem_takeWhile_imp ha)
                      (stopsP_cons_of_head _ _ _ (by decide))
                  rw [show ('[' :: (rest0.takeWhile isJsonWs ++ [']'])) ++
                      r₀ = '[' :: (rest0.takeWhile isJsonWs ++ (']' :: r₀))
                      from by simp]
                  rw [parseVal_bracket_cons g' _ ']' r₀ hws2, if_pos rfl,
                    ← hv]
              · rw [if_neg hbr] at h
                rcases hm : parseItems f (c2 :: r2) with _ | ⟨xs, r3⟩
                · rw [hm] at h
                  exact absurd h (by simp)
                · rw [hm] at h
                  replace h : some (JVal.jarr xs, r3) = some (v, rest) := h
                  simp only [Option.some.injEq, Prod.mk.injEq] at h
                  obtain ⟨hv, hrest⟩ := h
                  obtain ⟨conI, hIdec, hIne, hIrerun⟩ :=
                    ihI (c2 :: r2) xs r3 hm
                  obtain ⟨conI', rfl⟩ : ∃ conI', conI = c2 :: conI' := by
                    rcases conI with _ | ⟨cm, conI'⟩
                    · exact absurd rfl hIne
                    · simp only [List.cons_append, List.cons.injEq] at hIdec
                      exact ⟨conI', by rw [hIdec.1]⟩
                  have hIdec' : r2 = conI' ++ r3 := by
                    simpa using hIdec
                  refine ⟨'[' :: (rest0.takeWhile isJsonWs ++ (c2 :: conI')),
                    ?_, by simp, ?_, ?_⟩
                  · rw [← hrest]
                    conv_lhs => rw [← hdec0]
                    rw [hIdec']
                    simp
                  · intro o ho
                    exact absurd (hv.trans ho) (by simp)
                  · intro r₀ hr₀ g hg
                    obtain ⟨g', rfl⟩ : ∃ g', g = g' + 1 := ⟨g - 1, by omega⟩
                    have hws2 : skipJsonWs (rest0.takeWhile isJsonWs ++
                        (c2 :: (conI' ++ r₀))) = c2 :: (conI' ++ r₀) :=
                      skipJsonWs_append_stops _ _
                        (fun a ha => List.mem_takeWhile_imp ha)
                        (stopsP_cons_of_head _ _ _ hc2f)
                    rw [show ('[' :: (rest0.takeWhile isJsonWs ++
                        (c2 :: conI'))) ++ r₀ = '[' ::
                        (rest0.takeWhile isJsonWs ++ (c2 :: (conI' ++ r₀)))
                        from by simp]
                    rw [parseVal_bracket_cons g' _ c2 (conI' ++ r₀) hws2,
                      if_neg hbr]
                    have hm2 : parseItems g' ((c2 :: conI') ++ r₀) =
                        some (xs, r₀) := by
                      apply hIrerun r₀ (by rw [hrest]; exact hr₀)
                      simp only [List.length_cons, List.length_append] at hg ⊢
                      omega
                    rw [show c2 :: (conI' ++ r₀) = (c2 :: conI') ++ r₀
                      from rfl, hm2, ← hv]
          · by_cases hc3 : c = '"'
            · subst hc3
              rw [parseVal_quote f rest0] at h
              rcases hsb : parseStrBody rest0 with _ | ⟨sb, r⟩
              · rw [hsb] at h
                exact absurd h (by simp)
              · rw [hsb] at h
                replace h : some (JVal.jstr (String.mk sb), r) =
                  some (v, rest) := h
                simp only [Option.some.injEq, Prod.mk.injEq] at h
                obtain ⟨hv, hrest⟩ := h
                obtain ⟨conS, hSdec, hSne, hSlast, hSrerun⟩ :=
                  parseStrBody_M rest0 sb r hsb
                refine ⟨'"' :: conS, ?_, by simp, ?_, ?_⟩
                · rw [← hrest, hSdec]
                  rfl
                · intro o ho
                  exact absurd (hv.trans ho) (by simp)
                · intro r₀ hr₀ g hg
                  obtain ⟨g', rfl⟩ : ∃ g', g = g' + 1 := ⟨g - 1, by omega⟩
                  rw [show ('"' :: conS) ++ r₀ = '"' :: (conS ++ r₀) from rfl]
                  rw [parseVal_quote g' _, hSrerun r₀, ← hv]
            · by_cases hc4 : c = 't'
              · subst hc4
                rw [parseVal_t f rest0] at h
                rcases hkw : afterKw "rue".data rest0 with _ | r
                · rw [hkw] at h
                  exact absurd h (by simp)
                · rw [hkw] at h
                  replace h : some (JVal.jbool true, r) = some (v, rest) := h
                  simp only [Option.some.injEq, Prod.mk.injEq] at h
                  obtain ⟨hv, hrest⟩ := h
                  have hr0 := afterKw_some _ _ _ hkw
                  refine ⟨'t' :: "rue".data, ?_, by simp, ?_, ?_⟩
                  · rw [← hrest, hr0]
                    rfl
                  · intro o ho
                    exact absurd (hv.trans ho) (by simp)
                  · intro r₀ hr₀ g hg
                    obtain ⟨g', rfl⟩ : ∃ g', g = g' + 1 := ⟨g - 1, by omega⟩
                    rw [show ('t' :: "rue".data) ++ r₀ =
                      't' :: ("rue".data ++ r₀) from rfl]
                    rw [parseVal_t g' _, afterKw_append, ← hv]
              · by_cases hc5 : c = 'f'
                · subst hc5
                  rw [parseVal_f f rest0] at h
                  rcases hkw : afterKw "alse".data rest0 with _ | r
                  · rw [hkw] at h
                    exact absurd h (by simp)
                  · rw [hkw] at h
                    replace h : some (JVal.jbool false, r) = some (v, rest) := h
                    simp only [Option.some.injEq, Prod.mk.injEq] at h
                    obtain ⟨hv, hrest⟩ := h
                    have hr0 := afterKw_some _ _ _ hkw
                    refine ⟨'f' :: "alse".data, ?_, by simp, ?_, ?_⟩
                    · rw [← hrest, hr0]
                      rfl
                    · intro o ho
                      exact absurd (hv.trans ho) (by simp)
                    · intro r₀ hr₀ g hg
                      obtain ⟨g', rfl⟩ : ∃ g', g = g' + 1 := ⟨g - 1, by omega⟩
                      rw [show ('f' :: "alse".data) ++ r₀ =
                        'f' :: ("alse".data ++ r₀) from rfl]
                      rw [parseVal_f g' _, afterKw_append, ← hv]
                · by_cases hc6 : c = 'n'
                  · subst hc6
                    rw [parseVal_n f rest0] at h
                    rcases hkw : afterKw "ull".data rest0 with _ | r
                    · rw [hkw] at h
                      exact absurd h (by simp)
                    · rw [hkw] at h
                      replace h : some (JVal.jnull, r) = some (v, rest) := h
                      simp only [Option.some.injEq, Prod.mk.injEq] at h
                      obtain ⟨hv, hrest⟩ := h
                      have hr0 := afterKw_some _ _ _ hkw
                      refine ⟨'n' :: "ull".data, ?_, by simp, ?_, ?_⟩
                      · rw [← hrest, hr0]
                        rfl
                      · intro o ho
                        exact absurd (hv.trans ho) (by simp)
                      · intro r₀ hr₀ g hg
                        obtain ⟨g', rfl⟩ : ∃ g', g = g' + 1 := ⟨g - 1, by omega⟩
                        rw [show ('n' :: "ull".data) ++ r₀ =
                          'n' :: ("ull".data ++ r₀) from rfl]
                        rw [parseVal_n g' _, afterKw_append, ← hv]
                  · by_cases hc7 : c = 'N'
                    · subst hc7
                      rw [parseVal_N f rest0] at h
                      rcases hkw : afterKw "aN".data rest0 with _ | r
                      · rw [hkw] at h
                        exact absurd h (by simp)
                      · rw [hkw] at h
                        replace h : some (JVal.jnum "NaN", r) = some (v, rest) := h
                        simp only [Option.some.injEq, Prod.mk.injEq] at h
                        obtain ⟨hv, hrest⟩ := h
                        have hr0 := afterKw_some _ _ _ hkw
                        refine ⟨'N' :: "aN".data, ?_, by simp, ?_, ?_⟩
                        · rw [← hrest, hr0]
                          rfl
                        · intro o ho
                          exact absurd (hv.trans ho) (by simp)
                        · intro r₀ hr₀ g hg
                          obtain ⟨g', rfl⟩ : ∃ g', g = g' + 1 := ⟨g - 1, by omega⟩
                          rw [show ('N' :: "aN".data) ++ r₀ =
                            'N' :: ("aN".data ++ r₀) from rfl]
                          rw [parseVal_N g' _, afterKw_append, ← hv]
                    · by_cases hc8 : c = 'I'
                      · subst hc8
                        rw [parseVal_I f rest0] at h
                        rcases hkw : afterKw "nfinity".data rest0 with _ | r
                        · rw [hkw] at h
                          exact absurd h (by simp)
                        · rw [hkw] at h
                          replace h : some (JVal.jnum "Infinity", r) = some (v, rest) := h
                          simp only [Option.some.injEq, Prod.mk.injEq] at h
                          obtain ⟨hv, hrest⟩ := h
                          have hr0 := afterKw_some _ _ _ hkw
                          refine ⟨'I' :: "nfinity".data, ?_, by simp, ?_, ?_⟩
                          · rw [← hrest, hr0]
                            rfl
                          · intro o ho
                            exact absurd (hv.trans ho) (by simp)
                          · intro r₀ hr₀ g hg
                            obtain ⟨g', rfl⟩ : ∃ g', g = g' + 1 := ⟨g - 1, by omega⟩
                            rw [show ('I' :: "nfinity".data) ++ r₀ =
                              'I' :: ("nfinity".data ++ r₀) from rfl]
                            rw [parseVal_I g' _, afterKw_append, ← hv]
                      · by_cases hc9 :
                          c = '-' ∧ "Infinity".data.isPrefixOf rest0 = true
                        · obtain ⟨hcm, hpre⟩ := hc9
                          subst hcm
                          rw [parseVal_minusInf f rest0 hpre] at h
                          simp only [Option.some.injEq, Prod.mk.injEq] at h
                          obtain ⟨hv, hrest⟩ := h
                          obtain ⟨t9, hpre'⟩ :=
                            List.isPrefixOf_iff_prefix.mp hpre
                          have hdrop : rest0.drop 8 = t9 := by
                            rw [← hpre']
                            exact List.drop_left "Infinity".data t9
                          refine ⟨'-' :: "Infinity".data, ?_, by simp, ?_, ?_⟩
                          · rw [← hrest, hdrop, ← hpre']
                            rfl
                          · intro o ho
                            exact absurd (hv.trans ho) (by simp)
                          · intro r₀ hr₀ g hg
                            obtain ⟨g', rfl⟩ : ∃ g', g = g' + 1 :=
                              ⟨g - 1, by omega⟩
                            rw [show ('-' :: "Infinity".data) ++ r₀ =
                              '-' :: ("Infinity".data ++ r₀) from rfl]
                            rw [parseVal_minusInf g' _
                              (List.isPrefixOf_iff_prefix.mpr
                                (List.prefix_append _ _)), ← hv]
                            rw [show ("Infinity".data ++ r₀).drop 8 = r₀
                              from List.drop_left "Infinity".data r₀]
                        · rw [parseVal_other f c rest0 hc1 hc2 hc3 hc4 hc5
                            hc6 hc7 hc8 hc9] at h
                          rcases hsn : scanNumber (c :: rest0) with _ | ⟨lit, r⟩
                          · rw [hsn] at h
                            exact absurd h (by simp)
                          · rw [hsn] at h
                            replace h : some (JVal.jnum (String.mk lit), r) =
                              some (v, rest) := h
                            simp only [Option.some.injEq, Prod.mk.injEq] at h
                            obtain ⟨hv, hrest⟩ := h
                            obtain ⟨hNdec, hNne, hNshape, hNrerun⟩ :=
                              scanNumber_M (c :: rest0) lit r hsn
                            obtain ⟨lit', rfl⟩ : ∃ lit', lit = c :: lit' := by
                              rcases lit with _ | ⟨lc, lit'⟩
                              · exact absurd rfl hNne
                              · simp only [List.cons_append, List.cons.injEq]
                                  at hNdec
                                exact ⟨lit', by rw [hNdec.1]⟩
                            have hNdec' : rest0 = lit' ++ r := by
                              simpa using hNdec
                            refine ⟨c :: lit', ?_, by simp, ?_, ?_⟩
                            · rw [← hrest, hNdec']
                              rfl
                            · intro o ho
                              exact absurd (hv.trans ho) (by simp)
                            · intro r₀ hr₀ g hg
                              obtain ⟨g', rfl⟩ : ∃ g', g = g' + 1 :=
                                ⟨g - 1, by omega⟩
                              have hc9' : ¬ (c = '-' ∧
                                  "Infinity".data.isPrefixOf (lit' ++ r₀) =
                                    true) := by
                                rintro ⟨hcm2, hpre2⟩
                                apply hc9
                                refine ⟨hcm2, ?_⟩
                                have hp1 := List.isPrefixOf_iff_prefix.mp hpre2
                                have hp2 : (lit' ++ r₀) <+: (lit' ++ r) :=
                                  prefix_append_both lit' r₀ r
                                    (by rw [hrest]; exact hr₀)
                                rw [hNdec']
                                exact List.isPrefixOf_iff_prefix.mpr
                                  (hp1.trans hp2)
                              rw [show (c :: lit') ++ r₀ = c :: (lit' ++ r₀)
                                from rfl]
                              rw [parseVal_other g' c (lit' ++ r₀) hc1 hc2 hc3
                                hc4 hc5 hc6 hc7 hc8 hc9']
                              rw [show c :: (lit' ++ r₀) = (c :: lit') ++ r₀
                                from rfl]
                              rw [hNrerun r₀ (by rw [hrest]; exact hr₀), ← hv]
    · intro cs fs rest h
      rcases cs with _ | ⟨c, rest0⟩
      · rw [parseMembers.eq_2] at h
        exact absurd h (by simp)
      · by_cases hcq : c = '"'
        · subst hcq
          rcases hsb : parseStrBody rest0 with _ | ⟨key, r1⟩
          · rw [parseMembers_quote f rest0, hsb] at h
            exact absurd h (by simp)
          · rw [parseMembers_quote2 f rest0 key r1 hsb] at h
            obtain ⟨conS, hSdec, hSne, hSlast, hSrerun⟩ :=
              parseStrBody_M rest0 key r1 hsb
            rcases hws1 : skipJsonWs r1 with _ | ⟨c2, r2⟩
            · rw [membersAfterKey_nil f key r1 hws1] at h
              exact absurd h (by simp)
            · rw [membersAfterKey_cons f key r1 c2 r2 hws1] at h
              have hdec1 : r1.takeWhile isJsonWs ++ (c2 :: r2) = r1 := by
                rw [← hws1]
                exact List.takeWhile_append_dropWhile isJsonWs r1
              by_cases hcol : c2 = ':'
              · rw [if_pos hcol] at h
                subst hcol
                rcases hpv : parseVal f (skipJsonWs r2) with _ | ⟨v, r3⟩
                · rw [hpv] at h
                  exact absurd h (by simp)
                · rw [hpv] at h
                  replace h : membersTail f key v r3 = some (fs, rest) := h
                  obtain ⟨conV, hVdec, hVne, hVobj, hVrerun⟩ :=
                    ihV (skipJsonWs r2) v r3 hpv
                  have hdec2 : r2.takeWhile isJsonWs ++ (conV ++ r3) = r2 := by
                    rw [← hVdec]
                    exact List.takeWhile_append_dropWhile isJsonWs r2
                  obtain ⟨cv, conV', rfl⟩ : ∃ cv conV', conV = cv :: conV' := by
                    rcases conV with _ | ⟨cv, conV'⟩
                    · exact absurd rfl hVne
                    · exact ⟨cv, conV', rfl⟩
                  have hcvf : isJsonWs cv = false :=
                    dropWhile_head_false isJsonWs r2 cv (conV' ++ r3) hVdec
                  rcases hws3 : skipJsonWs r3 with _ | ⟨c3, r4⟩
                  · rw [membersTail_nil f key v r3 hws3] at h
                    exact absurd h (by simp)
                  · rw [membersTail_cons f key v r3 c3 r4 hws3] at h
                    have hdec3 : r3.takeWhile isJsonWs ++ (c3 :: r4) = r3 := by
                      rw [← hws3]
                      exact List.takeWhile_append_dropWhile isJsonWs r3
                    by_cases hcom : c3 = ','
                    · rw [if_pos hcom] at h
                      subst hcom
                      rcases hpm : parseMembers f (skipJsonWs r4) with
                          _ | ⟨fs2, r5⟩
                      · rw [hpm] at h
                        exact absurd h (by simp)
                      · rw [hpm] at h
                        replace h : some (((String.mk key, v) :: fs2 :
                            List (String × JVal)), r5) = some (fs, rest) := h
                        simp only [Option.some.injEq, Prod.mk.injEq] at h
                        obtain ⟨hfs, hrest⟩ := h
                        obtain ⟨conM, hMdec, hMne, hMlast, hMrerun⟩ :=
                          ihM (skipJsonWs r4) fs2 r5 hpm
                        have hdec4 : r4.takeWhile isJsonWs ++ (conM ++ r5) =
                            r4 := by
                          rw [← hMdec]
                          exact List.takeWhile_append_dropWhile isJsonWs r4
                        obtain ⟨cm, conM', rfl⟩ :
                            ∃ cm conM', conM = cm :: conM' := by
                          rcases conM with _ | ⟨cm, conM'⟩
                          · exact absurd rfl hMne
                          · exact ⟨cm, conM', rfl⟩
                        have hcmf : isJsonWs cm = false :=
                          dropWhile_head_false isJsonWs r4 cm (conM' ++ r5)
                            hMdec
                        refine ⟨'"' :: (conS ++ (r1.takeWhile isJsonWs ++
                          (':' :: (r2.takeWhile isJsonWs ++ ((cv :: conV') ++
                          (r3.takeWhile isJsonWs ++ (',' ::
                          (r4.takeWhile isJsonWs ++ (cm :: conM'))))))))),
                          ?_, by simp, ?_, ?_⟩
                        · conv_lhs => rw [hSdec]
                          conv_lhs => rw [← hdec1]
                          conv_lhs => rw [← hdec2]
                          conv_lhs => rw [← hdec3]
                          conv_lhs => rw [← hdec4]
                          conv_lhs => rw [hrest]
                          simp
                        · rw [show '"' :: (conS ++ (r1.takeWhile isJsonWs ++
                            (':' :: (r2.takeWhile isJsonWs ++ ((cv :: conV') ++
                            (r3.takeWhile isJsonWs ++ (',' ::
                            (r4.takeWhile isJsonWs ++ (cm :: conM')))))))) :
                            List Char) =
                            ('"' :: (conS ++ (r1.takeWhile isJsonWs ++
                            (':' :: (r2.takeWhile isJsonWs ++ ((cv :: conV') ++
                            (r3.takeWhile isJsonWs ++ (',' ::
                            r4.takeWhile isJsonWs)))))))) ++ (cm :: conM')
                            from by simp]
                          rw [List.getLast?_append_of_ne_nil]
                          · exact hMlast
                          · simp
                        · intro r₀ hr₀ g hg
                          obtain ⟨g', rfl⟩ : ∃ g', g = g' + 1 :=
                            ⟨g - 1, by omega⟩
                          obtain ⟨tl, htl⟩ := hr₀
                          have hws1b : skipJsonWs (r1.takeWhile isJsonWs ++
                              (':' :: (r2.takeWhile isJsonWs ++
                              ((cv :: conV') ++ (r3.takeWhile isJsonWs ++
                              (',' :: (r4.takeWhile isJsonWs ++
                              ((cm :: conM') ++ r₀)))))))) =
                              ':' :: (r2.takeWhile isJsonWs ++
                              ((cv :: conV') ++ (r3.takeWhile isJsonWs ++
                              (',' :: (r4.takeWhile isJsonWs ++
                              ((cm :: conM') ++ r₀)))))) :=
                            skipJsonWs_append_stops _ _
                              (fun a ha => List.mem_takeWhile_imp ha)
                              (stopsP_cons_of_head _ _ _ (by decide))
                          have hws2b : skipJsonWs (r2.takeWhile isJsonWs ++
                              ((cv :: conV') ++ (r3.takeWhile isJsonWs ++
                              (',' :: (r4.takeWhile isJsonWs ++
                              ((cm :: conM') ++ r₀)))))) =
                              (cv :: conV') ++ (r3.takeWhile isJsonWs ++
                              (',' :: (r4.takeWhile isJsonWs ++
                              ((cm :: conM') ++ r₀)))) :=
                            skipJsonWs_append_stops _ _
                              (fun a ha => List.mem_takeWhile_imp ha)
                              (stopsP_cons_of_head _ _ _ hcvf)
                          have hpv2 : parseVal g' ((cv :: conV') ++
                              (r3.takeWhile isJsonWs ++ (',' ::
                              (r4.takeWhile isJsonWs ++
                              ((cm :: conM') ++ r₀))))) =
                              some (v, r3.takeWhile isJsonWs ++ (',' ::
                              (r4.takeWhile isJsonWs ++
                              ((cm :: conM') ++ r₀)))) := by
                            apply hVrerun
                            · refine ⟨tl, ?_⟩
                              conv_rhs => rw [← hdec3]
                              conv_rhs => rw [← hdec4]
                              conv_rhs => rw [hrest]
                              conv_rhs => rw [← htl]
                              simp
                            · simp only [List.length_cons, List.length_append]
                                at hg ⊢
                              omega
                          have hcomp : parseMembers (g' + 1)
                              (('"' :: (conS ++ (r1.takeWhile isJsonWs ++
                              (':' :: (r2.takeWhile isJsonWs ++
                              ((cv :: conV') ++ (r3.takeWhile isJsonWs ++
                              (',' :: (r4.takeWhile isJsonWs ++
                              (cm :: conM')))))))))) ++ r₀) =
                              membersTail g' key v
                              (r3.takeWhile isJsonWs ++ (',' ::
                              (r4.takeWhile isJsonWs ++
                              ((cm :: conM') ++ r₀)))) := by
                            rw [show ('"' :: (conS ++ (r1.takeWhile isJsonWs ++
                              (':' :: (r2.takeWhile isJsonWs ++
                              ((cv :: conV') ++ (r3.takeWhile isJsonWs ++
                              (',' :: (r4.takeWhile isJsonWs ++
                              (cm :: conM')))))))))) ++ r₀ =
                              '"' :: (conS ++ (r1.takeWhile isJsonWs ++
                              (':' :: (r2.takeWhile isJsonWs ++
                              ((cv :: conV') ++ (r3.takeWhile isJsonWs ++
                              (',' :: (r4.takeWhile isJsonWs ++
                              ((cm :: conM') ++ r₀))))))))) from by simp]
                            rw [parseMembers_quote2 g' _ key _ (hSrerun _),
                              membersAfterKey_cons g' key _ ':' _ hws1b,
                              if_pos rfl, hws2b, hpv2]
                          rw [hcomp]
                          have hws3b : skipJsonWs (r3.takeWhile isJsonWs ++
                              (',' :: (r4.takeWhile isJsonWs ++
                              ((cm :: conM') ++ r₀)))) =
                              ',' :: (r4.takeWhile isJsonWs ++
                              ((cm :: conM') ++ r₀)) :=
                            skipJsonWs_append_stops _ _
                              (fun a ha => List.mem_takeWhile_imp ha)
                              (stopsP_cons_of_head _ _ _ (by decide))
                          rw [membersTail_cons g' key v _ ',' _ hws3b,
                            if_pos rfl]
                          have hws4b : skipJsonWs (r4.takeWhile isJsonWs ++
                              ((cm :: conM') ++ r₀)) = (cm :: conM') ++ r₀ :=
                            skipJsonWs_append_stops _ _
                              (fun a ha => List.mem_takeWhile_imp ha)
                              (stopsP_cons_of_head _ _ _ hcmf)
                          rw [hws4b]
                          have hm2 : parseMembers g' ((cm :: conM') ++ r₀) =
                              some (fs2, r₀) := by
                            apply hMrerun r₀ (by rw [hrest]; exact ⟨tl, htl⟩)
                            simp only [List.length_cons, List.length_append]
                              at hg ⊢
                            omega
                          rw [hm2, ← hfs]
                    · by_cases hbrc : c3 = '\x7d'
                      · rw [if_neg hcom, if_pos hbrc] at h
                        subst hbrc
                        simp only [Option.some.injEq, Prod.mk.injEq] at h
                        obtain ⟨hfs, hrest⟩ := h
                        refine ⟨'"' :: (conS ++ (r1.takeWhile isJsonWs ++
                          (':' :: (r2.takeWhile isJsonWs ++ ((cv :: conV') ++
                          (r3.takeWhile isJsonWs ++ ['\x7d'])))))),
                          ?_, by simp, ?_, ?_⟩
                        · conv_lhs => rw [hSdec]
                          conv_lhs => rw [← hdec1]
                          conv_lhs => rw [← hdec2]
                          conv_lhs => rw [← hdec3]
                          conv_lhs => rw [hrest]
                          simp
                        · rw [show '"' :: (conS ++ (r1.takeWhile isJsonWs ++
                            (':' :: (r2.takeWhile isJsonWs ++ ((cv :: conV') ++
                            (r3.takeWhile isJsonWs ++ ['\x7d'])))))) =
                            ('"' :: (conS ++ (r1.takeWhile isJsonWs ++
                            (':' :: (r2.takeWhile isJsonWs ++ ((cv :: conV') ++
                            r3.takeWhile isJsonWs)))))) ++ ['\x7d']
                            from by simp]
                          exact getLast?_append_singleton _ _
                        · intro r₀ hr₀ g hg
                          obtain ⟨g', rfl⟩ : ∃ g', g = g' + 1 :=
                            ⟨g - 1, by omega⟩
                          obtain ⟨tl, htl⟩ := hr₀
                          have hws1b : skipJsonWs (r1.takeWhile isJsonWs ++
                              (':' :: (r2.takeWhile isJsonWs ++
                              ((cv :: conV') ++ (r3.takeWhile isJsonWs ++
                              ('\x7d' :: r₀)))))) =
                              ':' :: (r2.takeWhile isJsonWs ++
                              ((cv :: conV') ++ (r3.takeWhile isJsonWs ++
                              ('\x7d' :: r₀)))) :=
                            skipJsonWs_append_stops _ _
                              (fun a ha => List.mem_takeWhile_imp ha)
                              (stopsP_cons_of_head _ _ _ (by decide))
                          have hws2b : skipJsonWs (r2.takeWhile isJsonWs ++
                              ((cv :: conV') ++ (r3.takeWhile isJsonWs ++
                              ('\x7d' :: r₀)))) =
                              (cv :: conV') ++ (r3.takeWhile isJsonWs ++
                              ('\x7d' :: r₀)) :=
                            skipJsonWs_append_stops _ _
                              (fun a ha => List.mem_takeWhile_imp ha)
                              (stopsP_cons_of_head _ _ _ hcvf)
                          have hpv2 : parseVal g' ((cv :: conV') ++
                              (r3.takeWhile isJsonWs ++ ('\x7d' :: r₀))) =
                              some (v, r3.takeWhile isJsonWs ++
                              ('\x7d' :: r₀)) := by
                            apply hVrerun
                            · refine ⟨tl, ?_⟩
                              conv_rhs => rw [← hdec3]
                              conv_rhs => rw [hrest]
                              conv_rhs => rw [← htl]
                              simp
                            · simp only [List.length_cons, List.length_append]
                                at hg ⊢
                              omega
                          have hcomp : parseMembers (g' + 1)
                              (('"' :: (conS ++ (r1.takeWhile isJsonWs ++
                              (':' :: (r2.takeWhile isJsonWs ++
                              ((cv :: conV') ++ (r3.takeWhile isJsonWs ++
                              ['\x7d']))))))) ++ r₀) =
                              membersTail g' key v
                              (r3.takeWhile isJsonWs ++ ('\x7d' :: r₀)) := by
                            rw [show ('"' :: (conS ++ (r1.takeWhile isJsonWs ++
                              (':' :: (r2.takeWhile isJsonWs ++
                              ((cv :: conV') ++ (r3.takeWhile isJsonWs ++
                              ['\x7d']))))))) ++ r₀ =
                              '"' :: (conS ++ (r1.takeWhile isJsonWs ++
                              (':' :: (r2.takeWhile isJsonWs ++
                              ((cv :: conV') ++ (r3.takeWhile isJsonWs ++
                              ('\x7d' :: r₀))))))) from by simp]
                            rw [parseMembers_quote2 g' _ key _ (hSrerun _),
                              membersAfterKey_cons g' key _ ':' _ hws1b,
                              if_pos rfl, hws2b, hpv2]
                          rw [hcomp]
                          have hws3b : skipJsonWs (r3.takeWhile isJsonWs ++
                              ('\x7d' :: r₀)) = '\x7d' :: r₀ :=
                            skipJsonWs_append_stops _ _
                              (fun a ha => List.mem_takeWhile_imp ha)
                              (stopsP_cons_of_head _ _ _ (by decide))
                          rw [membersTail_cons g' key v _ '\x7d' r₀ hws3b,
                            if_neg (by decide), if_pos rfl, ← hfs]
                      · rw [if_neg hcom, if_neg hbrc] at h
                        exact absurd h (by simp)
              · rw [if_neg hcol] at h
                exact absurd h (by simp)
        · rw [parseMembers_notquote f c rest0 hcq] at h
          exact absurd h (by simp)
    · intro cs xs rest h
      rcases hpv : parseVal f cs with _ | ⟨v, r1⟩
      · rw [parseItems_succ, hpv] at h
        exact absurd h (by simp)
      · rw [parseItems_succ2 f cs v r1 hpv] at h
        obtain ⟨conV, hVdec, hVne, hVobj, hVrerun⟩ := ihV cs v r1 hpv
        rcases hws1 : skipJsonWs r1 with _ | ⟨c2, r2⟩
        · rw [itemsTail_nil f v r1 hws1] at h
          exact absurd h (by simp)
        · rw [itemsTail_cons f v r1 c2 r2 hws1] at h
          have hdec1 : r1.takeWhile isJsonWs ++ (c2 :: r2) = r1 := by
            rw [← hws1]
            exact List.takeWhile_append_dropWhile isJsonWs r1
          by_cases hcom : c2 = ','
          · rw [if_pos hcom] at h
            subst hcom
            rcases hpi : parseItems f (skipJsonWs r2) with _ | ⟨xs2, r3⟩
            · rw [hpi] at h
              exact absurd h (by simp)
            · rw [hpi] at h
              replace h : some ((v :: xs2 : List JVal), r3) =
                some (xs, rest) := h
              simp only [Option.some.injEq, Prod.mk.injEq] at h
              obtain ⟨hxs, hrest⟩ := h
              obtain ⟨conI, hIdec, hIne, hIrerun⟩ :=
                ihI (skipJsonWs r2) xs2 r3 hpi
              have hdec2 : r2.takeWhile isJsonWs ++ (conI ++ r3) = r2 := by
                rw [← hIdec]
                exact List.takeWhile_append_dropWhile isJsonWs r2
              obtain ⟨ci, conI', rfl⟩ : ∃ ci conI', conI = ci :: conI' := by
                rcases conI with _ | ⟨ci, conI'⟩
                · exact absurd rfl hIne
                · exact ⟨ci, conI', rfl⟩
              have hcif : isJsonWs ci = false :=
                dropWhile_head_false isJsonWs r2 ci (conI' ++ r3) hIdec
              refine ⟨conV ++ (r1.takeWhile isJsonWs ++ (',' ::
                (r2.takeWhile isJsonWs ++ (ci :: conI')))), ?_,
                (fun hh => hVne (List.append_eq_nil.mp hh).1), ?_⟩
              · conv_lhs => rw [hVdec]
                conv_lhs => rw [← hdec1]
                conv_lhs => rw [← hdec2]
                conv_lhs => rw [hrest]
                simp
              · intro r₀ hr₀ g hg
                obtain ⟨g', rfl⟩ : ∃ g', g = g' + 1 := ⟨g - 1, by omega⟩
                obtain ⟨tl, htl⟩ := hr₀
                have hpv2 : parseVal g' (conV ++ (r1.takeWhile isJsonWs ++
                    (',' :: (r2.takeWhile isJsonWs ++ ((ci :: conI') ++
                    r₀))))) = some (v, r1.takeWhile isJsonWs ++
                    (',' :: (r2.takeWhile isJsonWs ++ ((ci :: conI') ++
                    r₀)))) := by
                  apply hVrerun
                  · refine ⟨tl, ?_⟩
                    conv_rhs => rw [← hdec1]
                    conv_rhs => rw [← hdec2]
                    conv_rhs => rw [hrest]
                    conv_rhs => rw [← htl]
                    simp
                  · simp only [List.length_append, List.length_cons] at hg ⊢
                    omega
                have hcomp : parseItems (g' + 1) ((conV ++
                    (r1.takeWhile isJsonWs ++ (',' ::
                    (r2.takeWhile isJsonWs ++ (ci :: conI'))))) ++ r₀) =
                    itemsTail g' v (r1.takeWhile isJsonWs ++ (',' ::
                    (r2.takeWhile isJsonWs ++ ((ci :: conI') ++ r₀)))) := by
                  rw [show (conV ++ (r1.takeWhile isJsonWs ++ (',' ::
                    (r2.takeWhile isJsonWs ++ (ci :: conI'))))) ++ r₀ =
                    conV ++ (r1.takeWhile isJsonWs ++ (',' ::
                    (r2.takeWhile isJsonWs ++ ((ci :: conI') ++ r₀))))
                    from by simp]
                  exact parseItems_succ2 g' _ v _ hpv2
                rw [hcomp]
                have hws1b : skipJsonWs (r1.takeWhile isJsonWs ++ (',' ::
                    (r2.takeWhile isJsonWs ++ ((ci :: conI') ++ r₀)))) =
                    ',' :: (r2.takeWhile isJsonWs ++ ((ci :: conI') ++ r₀)) :=
                  skipJsonWs_append_stops _ _
                    (fun a ha => List.mem_takeWhile_imp ha)
                    (stopsP_cons_of_head _ _ _ (by decide))
                rw [itemsTail_cons g' v _ ',' _ hws1b, if_pos rfl]
                have hws2b : skipJsonWs (r2.takeWhile isJsonWs ++
                    ((ci :: conI') ++ r₀)) = (ci :: conI') ++ r₀ :=
                  skipJsonWs_append_stops _ _
                    (fun a ha => List.mem_takeWhile_imp ha)
                    (stopsP_cons_of_head _ _ _ hcif)
                rw [hws2b]
                have hi2 : parseItems g' ((ci :: conI') ++ r₀) =
                    some (xs2, r₀) := by
                  apply hIrerun r₀ (by rw [hrest]; exact ⟨tl, htl⟩)
                  simp only [List.length_append, List.length_cons] at hg ⊢
                  omega
                rw [hi2, ← hxs]
          · by_cases hbrk : c2 = ']'
            · rw [if_neg hcom, if_pos hbrk] at h
              subst hbrk
              simp only [Option.some.injEq, Prod.mk.injEq] at h
              obtain ⟨hxs, hrest⟩ := h
              refine ⟨conV ++ (r1.takeWhile isJsonWs ++ [']']), ?_,
                (fun hh => hVne (List.append_eq_nil.mp hh).1), ?_⟩
              · conv_lhs => rw [hVdec]
                conv_lhs => rw [← hdec1]
                conv_lhs => rw [hrest]
                simp
              · intro r₀ hr₀ g hg
                obtain ⟨g', rfl⟩ : ∃ g', g = g' + 1 := ⟨g - 1, by omega⟩
                obtain ⟨tl, htl⟩ := hr₀
                have hpv2 : parseVal g' (conV ++ (r1.takeWhile isJsonWs ++
                    (']' :: r₀))) = some (v, r1.takeWhile isJsonWs ++
                    (']' :: r₀)) := by
                  apply hVrerun
                  · refine ⟨tl, ?_⟩
                    conv_rhs => rw [← hdec1]
                    conv_rhs => rw [hrest]
                    conv_rhs => rw [← htl]
                    simp
                  · simp only [List.length_append, List.length_cons] at hg ⊢
                    omega
                have hcomp : parseItems (g' + 1) ((conV ++
                    (r1.takeWhile isJsonWs ++ [']'])) ++ r₀) =
                    itemsTail g' v (r1.takeWhile isJsonWs ++ (']' :: r₀)) := by
                  rw [show (conV ++ (r1.takeWhile isJsonWs ++ [']'])) ++ r₀ =
                    conV ++ (r1.takeWhile isJsonWs ++ (']' :: r₀))
                    from by simp]
                  exact parseItems_succ2 g' _ v _ hpv2
                rw [hcomp]
                have hws1b : skipJsonWs (r1.takeWhile isJsonWs ++
                    (']' :: r₀)) = ']' :: r₀ :=
                  skipJsonWs_append_stops _ _
                    (fun a ha => List.mem_takeWhile_imp ha)
                    (stopsP_cons_of_head _ _ _ (by decide))
                rw [itemsTail_cons g' v _ ']' r₀ hws1b, if_neg (by decide),
                  if_pos rfl, ← hxs]
            · rw [if_neg hcom, if_neg hbrk] at h
              exact absurd h (by simp)

theorem isPyWs_of_isJsonWs (c : Char) (h : isJsonWs c = true) :
    isPyWs c = true := by
  simp only [isPyWs, h, Bool.true_or]

theorem isPrefixOf_cons_false (p0 : Char) (pt : List Char) (w : Char)
    (X : List Char) (hw : ¬ w = p0) :
    (p0 :: pt).isPrefixOf (w :: X) = false := by
  simp only [List.isPrefixOf, Bool.and_eq_false_iff]
  left
  simp only [beq_eq_false_iff_ne, ne_eq]
  intro hh
  exact hw hh.symm

theorem stripScanAux_fuel (pat : List Char) : ∀ (f : Nat),
    ∀ cs : List Char, cs.length ≤ f →
      stripScanAux pat f cs = stripScan pat cs := by
  intro f
  induction f using Nat.strong_induction_on with
  | _ f ih =>
    intro cs hlen
    rcases cs with _ | ⟨sc, srest⟩
    · cases f <;> rfl
    · rcases f with _ | f'
      · simp at hlen
      · rw [stripScanAux.eq_3]
        rw [show stripScan pat (sc :: srest) =
          stripScanAux pat (srest.length + 1) (sc :: srest) from rfl]
        rw [stripScanAux.eq_3]
        simp only [List.length_cons] at hlen
        by_cases hm : pat ≠ [] ∧ pat.isPrefixOf (sc :: srest) = true
        · rw [if_pos hm, if_pos hm]
          have hlen2 : (dropPyWs (List.drop (pat.length - 1) srest)).length ≤
              srest.length :=
            Nat.le_trans (List.dropWhile_sublist isPyWs).length_le
              (List.drop_sublist _ _).length_le
          rw [ih f' (by omega) _ (by omega)]
          rw [ih srest.length (by omega) _ (by omega)]
        · rw [if_neg hm, if_neg hm]
          rw [ih f' (by omega) srest (by omega)]
          rw [ih srest.length (by omega) srest (by omega)]

theorem stripScan_cons_match (p0 : Char) (pt Y : List Char) :
    stripScan (p0 :: pt) ((p0 :: pt) ++ Y) =
      stripScan (p0 :: pt) (dropPyWs Y) := by
  rw [show stripScan (p0 :: pt) ((p0 :: pt) ++ Y) =
    stripScanAux (p0 :: pt) ((pt ++ Y).length + 1) (p0 :: (pt ++ Y))
    from by rw [stripScan]; simp]
  rw [stripScanAux.eq_3]
  rw [if_pos ⟨by simp, by
    have : (p0 :: pt) <+: (p0 :: (pt ++ Y)) := ⟨Y, by simp⟩
    exact List.isPrefixOf_iff_prefix.mpr this⟩]
  rw [show List.drop ((p0 :: pt).length - 1) (pt ++ Y) = Y from by
    simp only [List.length_cons, Nat.add_sub_cancel]
    exact List.drop_left pt Y]
  exact stripScanAux_fuel (p0 :: pt) ((pt ++ Y).length) (dropPyWs Y)
    (Nat.le_trans (List.dropWhile_sublist isPyWs).length_le (by simp))

theorem stripScan_id_of_not_hasSub (pat cs : List Char)
    (h : hasSub cs pat = false) : stripScan pat cs = cs := by
  induction cs with
  | nil => rfl
  | cons c t ih =>
    simp only [hasSub, Bool.or_eq_false_iff] at h
    rw [show stripScan pat (c :: t) =
      stripScanAux pat (t.length + 1) (c :: t) from rfl]
    rw [stripScanAux.eq_3]
    rw [if_neg (by
      rintro ⟨h1, h2⟩
      rw [h.1] at h2
      exact absurd h2 (by simp))]
    rw [stripScanAux_fuel pat t.length t (Nat.le_refl _), ih h.2]

theorem stripScan_append_nohead (p0 : Char) (pt W tail : List Char)
    (hW : ∀ c ∈ W, ¬ c = p0) :
    stripScan (p0 :: pt) (W ++ tail) = W ++ stripScan (p0 :: pt) tail := by
  induction W with
  | nil => simp
  | cons w W' ih =>
    have hw : ¬ w = p0 := hW w (List.mem_cons_self _ _)
    rw [show (w :: W') ++ tail = w :: (W' ++ tail) from rfl]
    rw [show stripScan (p0 :: pt) (w :: (W' ++ tail)) =
      stripScanAux (p0 :: pt) ((W' ++ tail).length + 1) (w :: (W' ++ tail))
      from rfl]
    rw [stripScanAux.eq_3]
    rw [if_neg (by
      rintro ⟨h1, h2⟩
      rw [isPrefixOf_cons_false p0 pt w (W' ++ tail) hw] at h2
      exact absurd h2 (by simp))]
    rw [stripScanAux_fuel _ _ _ (Nat.le_refl _)]
    rw [ih (fun c hc => hW c (List.mem_cons_of_mem _ hc))]
    rfl

theorem hasSub_append_false (pat : List Char) (p0 : Char) (t : List Char)
    (hpat : pat = p0 :: t) (W tail : List Char)
    (hW : ∀ c ∈ W, ¬ c = p0) (htail : hasSub tail pat = false) :
    hasSub (W ++ tail) pat = false := by
  induction W with
  | nil => simpa using htail
  | cons w W' ih =>
    have hw : ¬ w = p0 := hW w (List.mem_cons_self _ _)
    rw [show (w :: W') ++ tail = w :: (W' ++ tail) from rfl]
    simp only [hasSub, Bool.or_eq_false_iff]
    refine ⟨?_, ih (fun c hc => hW c (List.mem_cons_of_mem _ hc))⟩
    rw [hpat]
    exact isPrefixOf_cons_false p0 t w (W' ++ tail) hw

theorem findIdxFrom_append_cons (W : List Char) (tc : Char) (Z : List Char)
    (hW : ∀ w ∈ W, ¬ w = tc) :
    findIdxFrom (W ++ tc :: Z) tc = some W.length := by
  induction W with
  | nil =>
    simp [findIdxFrom]
  | cons w W' ih =>
    have hw : ¬ w = tc := hW w (List.mem_cons_self _ _)
    rw [show (w :: W') ++ tc :: Z = w :: (W' ++ tc :: Z) from rfl]
    simp only [findIdxFrom, if_neg hw,
      ih (fun c hc => hW c (List.mem_cons_of_mem _ hc))]
    rfl

theorem isJsonWs_ne_rbrace (c : Char) (h : isJsonWs c = true) :
    ¬ c = '\x7d' := by
  intro hc
  subst hc
  simp [isJsonWs] at h

theorem parseVal_backtick (f : Nat) (R : List Char) :
    parseVal (f + 1) ('\x60' :: R) = none := by
  have hsg : scanSign ('\x60' :: R) = ([], '\x60' :: R) := by
    simp only [scanSign]
    rw [if_neg (by decide)]
  have hsi : scanInt ('\x60' :: R) = none := by
    simp only [scanInt]
    rw [if_neg (by decide), if_neg (by decide)]
  have hsn : scanNumber ('\x60' :: R) = none := by
    simp only [scanNumber, hsg, hsi]
  rw [parseVal.eq_3, if_neg (by decide), if_neg (by decide),
    if_neg (by decide), if_neg (by decide), if_neg (by decide),
    if_neg (by decide), if_neg (by decide), if_neg (by decide),
    if_neg (by simp), hsn]

theorem jsonParseL_inv (cs : List Char) (v : JVal)
    (h : jsonParseL cs = some v) :
    ∃ rest, parseVal ((skipJsonWs cs).length + 1) (skipJsonWs cs) =
      some (v, rest) ∧ skipJsonWs rest = [] := by
  simp only [jsonParseL] at h
  rcases hpv : parseVal ((skipJsonWs cs).length + 1) (skipJsonWs cs) with
      _ | ⟨v', rest⟩
  · rw [hpv] at h
    exact absurd h (by simp)
  · rw [hpv] at h
    replace h : (if skipJsonWs rest = [] then some v' else none) = some v := h
    by_cases hr : skipJsonWs rest = []
    · rw [if_pos hr] at h
      simp only [Option.some.injEq] at h
      subst h
      exact ⟨rest, rfl, hr⟩
    · rw [if_neg hr] at h
      exact absurd h (by simp)

theorem extract_of_parse (text : String) (v : JVal)
    (h : jsonParse text = some v) : extract_json_from_text text = v := by
  simp only [extract_json_from_text]
  rw [h]

theorem extract_of_slice (text : String) (seg : List Char) (v : JVal)
    (hn : jsonParse text = none)
    (hb : braceSlice (stripFences text.data) = some seg)
    (hj : jsonParseL seg = some v) : extract_json_from_text text = v := by
  simp only [extract_json_from_text]
  rw [hn, hb]
  show (match jsonParseL seg with
    | some v => v
    | none => fallbackObj (stripFences text.data)) = v
  rw [hj]

theorem fenceWrap_data (s : String) : (fenceWrap s).data =
    fenceJson ++ ('\n' :: (s.data ++ ('\n' :: fence3))) := by
  show ("```json\n" ++ s ++ "\n```").data = _
  rw [String.data_append, String.data_append]
  rw [show "```json\n".data = fenceJson ++ ['\n'] from rfl,
    show "\n```".data = '\n' :: fence3 from rfl]
  simp

/-- C7: on a backtick-free string that parses as a JSON object, the
extractor gives the same object whether or not the input is wrapped in a
language-tagged code fence. -/
theorem c7_fence_wrap_extracts_same (s : String) (o : List (String × JVal))
    (hparse : jsonParse s = some (JVal.jobj o))
    (hnb : ∀ c ∈ s.data, ¬ c = '\x60') :
    extract_json_from_text (fenceWrap s) = extract_json_from_text s := by
  obtain ⟨rest, hpv, hrest⟩ := jsonParseL_inv s.data (JVal.jobj o) hparse
  obtain ⟨con, hdec, hne, hobj, hrerun⟩ :=
    (parser_M ((skipJsonWs s.data).length + 1)).1 (skipJsonWs s.data)
      (JVal.jobj o) rest hpv
  obtain ⟨⟨t2, hcon⟩, hlast⟩ := hobj o rfl
  have hrestws : ∀ c ∈ rest, isJsonWs c = true :=
    List.dropWhile_eq_nil_iff.mp hrest
  have hsdec : s.data.takeWhile isJsonWs ++ (con ++ rest) = s.data := by
    rw [← hdec]
    exact List.takeWhile_append_dropWhile isJsonWs s.data
  have hmem : ∀ c ∈ con ++ rest, ¬ c = '\x60' := by
    intro c hc
    apply hnb
    rw [← hdec] at hc
    exact (List.dropWhile_sublist isJsonWs).subset hc
  have hnone : jsonParse (fenceWrap s) = none := by
    show jsonParseL (fenceWrap s).data = none
    rw [fenceWrap_data]
    rw [show fenceJson ++ ('\n' :: (s.data ++ ('\n' :: fence3))) =
      '\x60' :: ("``json".data ++ ('\n' :: (s.data ++ ('\n' :: fence3))))
      from rfl]
    simp only [jsonParseL]
    rw [show skipJsonWs ('\x60' :: ("``json".data ++ ('\n' :: (s.data ++
      ('\n' :: fence3))))) = '\x60' :: ("``json".data ++ ('\n' :: (s.data ++
      ('\n' :: fence3)))) from by
        simp only [skipJsonWs, List.dropWhile_cons]
        rw [if_neg (by decide)]]
    rw [parseVal_backtick]
  have hT1 : stripFences (fenceWrap s).data = con ++ (rest ++ ['\n']) := by
    rw [fenceWrap_data]
    simp only [stripFences]
    rw [show (fenceJson : List Char) = '\x60' :: "``json".data from rfl]
    rw [stripScan_cons_match '\x60' "``json".data _]
    rw [show ('\n' :: (s.data ++ ('\n' :: fence3))) =
      ('\n' :: s.data.takeWhile isJsonWs) ++
        ((con ++ rest) ++ ('\n' :: fence3)) from by
      conv_lhs => rw [← hsdec]
      simp]
    rw [show dropPyWs ((('\n' :: s.data.takeWhile isJsonWs)) ++
      ((con ++ rest) ++ ('\n' :: fence3))) =
      (con ++ rest) ++ ('\n' :: fence3) from
        dropWhile_append_stops isPyWs _ _
          (by intro a ha
              rcases List.mem_cons.mp ha with rfl | ha2
              · decide
              · exact isPyWs_of_isJsonWs a (List.mem_takeWhile_imp ha2))
          (by rw [show (con ++ rest) ++ ('\n' :: fence3) =
                con ++ (rest ++ ('\n' :: fence3)) from by simp, hcon]
              exact stopsP_cons_of_head _ _ _ (by decide))]
    rw [stripScan_id_of_not_hasSub ('\x60' :: "``json".data)
      ((con ++ rest) ++ ('\n' :: fence3))
      (hasSub_append_false ('\x60' :: "``json".data) '\x60' "``json".data
        rfl (con ++ rest) ('\n' :: fence3) hmem (by decide))]
    rw [show (con ++ rest) ++ ('\n' :: fence3) =
      ((con ++ rest) ++ ['\n']) ++ fence3 from by simp]
    rw [show (fence3 : List Char) = '\x60' :: "``".data from rfl]
    rw [stripScan_append_nohead '\x60' "``".data ((con ++ rest) ++ ['\n'])
      ('\x60' :: "``".data) (by
        intro c hc
        rcases List.mem_append.mp hc with hc1 | hc2
        · exact hmem c hc1
        · simp only [List.mem_singleton] at hc2
          subst hc2
          decide)]
    rw [show stripScan ('\x60' :: "``".data) ('\x60' :: "``".data) = []
      from by decide]
    simp
  have hbs : braceSlice (con ++ (rest ++ ['\n'])) = some con := by
    have hfind : pyFind (con ++ (rest ++ ['\n'])) '\x7b' = 0 := by
      rw [hcon]
      simp [pyFind, findIdxFrom]
    obtain ⟨q, hq⟩ : ∃ q, con.reverse = '\x7d' :: q := by
      rcases hrv : con.reverse with _ | ⟨rc, q⟩
      · rw [List.reverse_eq_nil_iff] at hrv
        exact absurd hrv hne
      · have hh : con.reverse.head? = some '\x7d' := by
          rw [List.head?_reverse]
          exact hlast
        rw [hrv] at hh
        simp only [List.head?_cons, Option.some.injEq] at hh
        exact ⟨q, by rw [hh]⟩
    have hrfind : pyRfind (con ++ (rest ++ ['\n'])) '\x7d' =
        (con.length : Int) - 1 := by
      simp only [pyRfind]
      rw [show (con ++ (rest ++ ['\n'])).reverse =
        ('\n' :: rest.reverse) ++ ('\x7d' :: q) from by
          rw [← hq]
          simp]
      rw [findIdxFrom_append_cons ('\n' :: rest.reverse) '\x7d' q (by
        intro w hw
        rcases List.mem_cons.mp hw with rfl | hw2
        · decide
        · exact isJsonWs_ne_rbrace w (hrestws w (List.mem_reverse.mp hw2)))]
      show ((con ++ (rest ++ ['\n'])).length : Int) - 1 -
        (('\n' :: rest.reverse).length : Int) = (con.length : Int) - 1
      simp only [List.length_append, List.length_cons, List.length_reverse,
        List.length_nil]
      push_cast
      omega
    have hconpos : 0 < con.length := List.length_pos.mpr hne
    simp only [braceSlice]
    rw [hfind, hrfind]
    rw [if_pos ⟨by omega, by omega⟩]
    rw [show ((con.length : Int) - 1 + 1 - 0) = (con.length : Int)
      from by omega]
    rw [show ((0 : Int)).toNat = 0 from rfl, List.drop_zero]
    rw [show ((con.length : Int)).toNat = con.length from Int.toNat_natCast _]
    rw [show con ++ (rest ++ ['\n']) = con ++ (rest ++ ['\n']) from rfl]
    rw [List.take_left con (rest ++ ['\n'])]
  have hjp : jsonParseL con = some (JVal.jobj o) := by
    simp only [jsonParseL]
    rw [show skipJsonWs con = con from by
      rw [hcon]
      simp only [skipJsonWs, List.dropWhile_cons]
      rw [if_neg (by decide)]]
    have hrr := hrerun [] List.nil_prefix (con.length + 1) (by omega)
    rw [List.append_nil] at hrr
    rw [hrr]
    rfl
  rw [extract_of_parse s (JVal.jobj o) hparse]
  exact extract_of_slice (fenceWrap s) con (JVal.jobj o) hnone
    (by rw [hT1]; exact hbs) hjp

theorem c7_witness :
    jsonParse "\x7b\"a\": 1\x7d" =
      some (JVal.jobj [("a", JVal.jnum "1")]) ∧
    (∀ c ∈ "\x7b\"a\": 1\x7d".data, ¬ c = '\x60') ∧
    extract_json_from_text (fenceWrap "\x7b\"a\": 1\x7d") =
      extract_json_from_text "\x7b\"a\": 1\x7d" :=
  ⟨by rfl, by decide, c7_fence_wrap_extracts_same "\x7b\"a\": 1\x7d"
    [("a", JVal.jnum "1")] (by rfl) (by decide)⟩

/-- C7 counterexample: a string containing a triple backtick parses as an
object, yet wrapping it in the language-tagged fence changes the
extracted object — the fence stripper also fires inside string values. -/
theorem c7_counterexample :
    jsonParse "\x7b\"a\": \"``` x\"\x7d" =
      some (JVal.jobj [("a", JVal.jstr "``` x")]) ∧
    extract_json_from_text "\x7b\"a\": \"``` x\"\x7d" =
      JVal.jobj [("a", JVal.jstr "``` x")] ∧
    extract_json_from_text (fenceWrap "\x7b\"a\": \"``` x\"\x7d") =
      JVal.jobj [("a", JVal.jstr "x")] ∧
    extract_json_from_text (fenceWrap "\x7b\"a\": \"``` x\"\x7d") ≠
      extract_json_from_text "\x7b\"a\": \"``` x\"\x7d" := by
  refine ⟨by rfl, by rfl, by rfl, ?_⟩
  intro h
  rw [show extract_json_from_text (fenceWrap "\x7b\"a\": \"``` x\"\x7d") =
    JVal.jobj [("a", JVal.jstr "x")] from rfl,
    show extract_json_from_text "\x7b\"a\": \"``` x\"\x7d" =
    JVal.jobj [("a", JVal.jstr "``` x")] from rfl] at h
  simp only [JVal.jobj.injEq, List.cons.injEq, Prod.mk.injEq,
    JVal.jstr.injEq] at h
  exact absurd h.1.2 (by decide)
